import Mathlib

/-!
# Verification of the maze-robot repository

Shallow embedding of `robot.py` and `mycreatemaze.py`.

Conventions of the embedding:
* A maze cell is a pair of integers `(col, row)`; `numpy` 2-D arrays are
  embedded as total functions `Nat → Nat → Int` together with the dimensions,
  and every read/write goes through `npIdx`, which reproduces numpy's index
  semantics: an index `i` with `0 ≤ i < dim` is used as is, an index with
  `-dim ≤ i < 0` wraps around to `i + dim`, and anything else raises
  `IndexError`.  Fallible code therefore lives in `Except String`.
* Python `raise` statements are modelled as `Except.error` with the message of
  the exception; side effects performed before a raise are discarded, which is
  observationally equivalent because an escaping exception discards the frame.
* `while` loops that the source bounds with an iteration counter are modelled
  by structural recursion on the number of loop passes that the counter still
  allows; the unbounded generator loop of `create_maze` gets an explicit fuel
  that is provably never exhausted (see `createLoop_fuel`).
* `np.random` draws are modelled by an arbitrary stream `Nat → Nat` together
  with a cursor; a draw `randint(0, k)` reads the stream and reduces mod `k`.
  Quantifying over all streams covers every seed.
-/

set_option linter.constructorNameAsVariable false

namespace RobotMaze

/-- A maze cell `(col, row)`, as the integer tuples the Python code passes around. -/
abbrev Cell := Int × Int

/-- The four cardinal directions `'u','r','d','l'` of the Python code. -/
inductive Dir where
  | u | r | d | l
deriving DecidableEq, Repr, Fintype

open Dir

/-- `dir_move` dictionary of both source files. -/
def dirMove : Dir → Int × Int
  | .u => (0, 1)
  | .r => (1, 0)
  | .d => (0, -1)
  | .l => (-1, 0)

/-- `dir_reverse` dictionary. -/
def dirRev : Dir → Dir
  | .u => .d
  | .r => .l
  | .d => .u
  | .l => .r

/-- `wall_mask` dictionary: u=1, r=2, d=4, l=8. -/
def wallMask : Dir → Int
  | .u => 1
  | .r => 2
  | .d => 4
  | .l => 8

/-- `wall_mask_rev` dictionary; it tabulates `wallMask (dirRev d)` ({u:4, r:8, d:1, l:2}). -/
def wallMaskRev (d : Dir) : Int := wallMask (dirRev d)

/-- `directions` of robot.py, which is also the key order of the `check` dict
in mycreatemaze's `flooding`: `['u','r','d','l']`. -/
def directionsR : List Dir := [.u, .r, .d, .l]

/-- `directions` of mycreatemaze.py (used only for `np.random.choice`): `['u','r','l','d']`. -/
def directionsM : List Dir := [.u, .r, .l, .d]

/-- `dir_sensors` of robot.py: the absolute directions of the (left, front, right) sensors. -/
def dirSensors : Dir → List Dir
  | .u => [.l, .u, .r]
  | .r => [.u, .r, .d]
  | .d => [.r, .d, .l]
  | .l => [.d, .l, .u]

/-- `max_moves = 3` of robot.py. -/
def maxMoves : Nat := 3

/-- `b + m * dir_move[d]`, the tuple arithmetic used throughout the Python code. -/
def cadd (b : Cell) (d : Dir) (m : Int) : Cell :=
  (b.1 + (dirMove d).1 * m, b.2 + (dirMove d).2 * m)

/-- A 2-D numpy array is embedded as a total function on `Nat` indices;
entries outside the declared dimensions are irrelevant junk. -/
abbrev Mat := Nat → Nat → Int

/-- numpy index semantics on one axis of length `dim`:
in-range indices unchanged, indices in `[-dim, 0)` wrap, others `IndexError`. -/
def npIdx (dim : Nat) (i : Int) : Option Nat :=
  if 0 ≤ i ∧ i < dim then some i.toNat
  else if -(dim : Int) ≤ i ∧ i < 0 then some (i + dim).toNat
  else none

/-- `A[p]` for a `rows × cols` numpy array. -/
def mget (rows cols : Nat) (A : Mat) (p : Cell) : Except String Int :=
  match npIdx rows p.1, npIdx cols p.2 with
  | some i, some j => .ok (A i j)
  | _, _ => .error "IndexError"

/-- `A[p] = v` for a `rows × cols` numpy array. -/
def mset (rows cols : Nat) (A : Mat) (p : Cell) (v : Int) : Except String Mat :=
  match npIdx rows p.1, npIdx cols p.2 with
  | some i, some j => .ok (fun x y => if x = i ∧ y = j then v else A x y)
  | _, _ => .error "IndexError"

/-- In-bounds predicate for an `n × n` grid: `(col,row) ∈ [0,n) × [0,n)`. -/
def inB (n : Nat) (p : Cell) : Prop :=
  0 ≤ p.1 ∧ p.1 < n ∧ 0 ≤ p.2 ∧ p.2 < n

instance (n : Nat) (p : Cell) : Decidable (inB n p) := by
  unfold inB; infer_instance

/-- Total in-bounds read of an `n × n` wall grid; out-of-bounds reads as `0`
(all walls present).  Used only by the pure theory, under hypotheses that make
it agree with what `mget` returns in the code. -/
def wAt (n : Nat) (A : Mat) (p : Cell) : Int :=
  if inB n p then A p.1.toNat p.2.toNat else 0

/-- The wall grid `W` has an open passage from cell `c` in direction `d`
(`walls[c] & wall_mask[d] > 0`). -/
def openb (n : Nat) (W : Mat) (c : Cell) (d : Dir) : Prop :=
  0 < Int.land (wAt n W c) (wallMask d)

instance (n : Nat) (W : Mat) (c : Cell) (d : Dir) : Decidable (openb n W c d) := by
  unfold openb; infer_instance

/-- Wall symmetry invariant of the spec, stated over the in-bounds cells:
for adjacent in-bounds cells, the open bit for `d` on one side agrees with the
open bit for the reverse direction on the other side. -/
def symmetricW (n : Nat) (W : Mat) : Prop :=
  ∀ i, i < n → ∀ j, j < n → ∀ d : Dir,
    inB n (cadd (⟨i, j⟩ : Cell) d 1) →
      (0 < Int.land (W i j) (wallMask d) ↔
        0 < Int.land (wAt n W (cadd (⟨i, j⟩ : Cell) d 1)) (wallMaskRev d))

/-- Closed-perimeter invariant: an in-bounds cell whose `d`-neighbour is
outside the grid has the `d` bit cleared. -/
def closedPerimeter (n : Nat) (W : Mat) : Prop :=
  ∀ i, i < n → ∀ j, j < n → ∀ d : Dir,
    ¬ inB n (cadd (⟨i, j⟩ : Cell) d 1) →
      Int.land (W i j) (wallMask d) ≤ 0

instance (n : Nat) (W : Mat) : Decidable (symmetricW n W) := by
  unfold symmetricW; infer_instance

instance (n : Nat) (W : Mat) : Decidable (closedPerimeter n W) := by
  unfold closedPerimeter; infer_instance

/-- `isOk` test on `Except`. -/
def eOk {α : Type} : Except String α → Bool
  | .ok _ => true
  | .error _ => false

/-! ## The flood-fill engine

`robot.py`'s `flooding`/`adjust_flooding` share one frontier-expansion loop:
for every frontier cell `b`, for every direction `d` (in the order
`['u','r','d','l']`), for `m in range(max_moves)` walk along `d` while the
wall at the intermediate cell `bc` is open, assigning `flood[b]+1` to each
still-unvisited cell one past an open wall, with `break` on the first closed
wall.  `mycreatemaze.py`'s `flooding` is the same loop without the look-ahead,
i.e. with the `m`-loop bounded by `1` instead of `max_moves`; the bound is the
parameter `M` below. -/

/-- Inner `for m in range(M)` loop from frontier cell `b` in direction `d`.
The first `Nat` argument is the number of remaining `m` values, the second is
the current `m`.  State: (flood matrix, `new` list). -/
def scanDir (n : Nat) (W : Mat) (d : Dir) (b : Cell) :
    Nat → Nat → Mat × List Cell → Except String (Mat × List Cell)
  | 0, _, st => .ok st
  | fuelM+1, m, st => do
    let bc := cadd b d m
    let wv ← mget n n W bc
    if 0 < Int.land wv (wallMask d) then
      let nb := cadd bc d 1
      let fv ← mget n n st.1 nb
      if fv < 0 then
        let fb ← mget n n st.1 b
        let fl' ← mset n n st.1 nb (fb + 1)
        scanDir n W d b fuelM (m+1) (fl', st.2 ++ [nb])
      else
        scanDir n W d b fuelM (m+1) st
    else
      .ok st

/-- `for d in directions` of the frontier expansion, from cell `b`. -/
def passDirs (n M : Nat) (W : Mat) (b : Cell) :
    List Dir → Mat × List Cell → Except String (Mat × List Cell)
  | [], st => .ok st
  | d0 :: ds, st => do passDirs n M W b ds (← scanDir n W d0 b M 0 st)

/-- `for b in current` of the frontier expansion. -/
def passCells (n M : Nat) (W : Mat) :
    List Cell → Mat × List Cell → Except String (Mat × List Cell)
  | [], st => .ok st
  | b :: bs, st => do passCells n M W bs (← passDirs n M W b directionsR st)

/-- The `while len(current)>0` loop.  The fuel argument is the number of
complete passes that the source's iteration counter still allows before its
`raise`; when it is exhausted with a nonempty frontier the model raises the
diagnostic directly (the Python code runs one more pass whose effects are
discarded by the escaping exception, so this is observationally equal under
the hypotheses of the theorems below, which exclude an `IndexError` inside
that final pass). -/
def floodLoop (n M : Nat) (W : Mat) : Nat → Mat → List Cell → Except String Mat
  | _, fl, [] => .ok fl
  | 0, _, _ => .error "Flooding function not working properly"
  | fuel+1, fl, cur => do
    let st ← passCells n M W cur (fl, [])
    floodLoop n M W fuel st.1 st.2

/-- `for b in target: flood[b]=0`. -/
def setTargets (n : Nat) : Mat → List Cell → Except String Mat
  | fl, [] => .ok fl
  | fl, b :: bs => do setTargets n (← mset n n fl b 0) bs

namespace Robot

/-- `flooding` of robot.py: look-ahead `M = max_moves`, raise when
`iter > n*n` (so `n*n` allowed passes), then the origin-reachability check;
the `flood.min() < 0` case only prints a warning and is not an error. -/
def flooding (n : Nat) (W : Mat) (target : List Cell) : Except String Mat := do
  let fl1 ← setTargets n (fun _ _ => -1) target
  let fl ← floodLoop n maxMoves W (n*n) fl1 target
  let o ← mget n n fl ((0 : Int), (0 : Int))
  if o < 0 then .error "Check Code, apparently no path from start to center"
  else .ok fl

/-- `adjust_flooding` of robot.py.  `np.where(flood>start)` is reset to `-1`,
the frontier is the row-major list of entries equal to `start` after the
reset, and the loop raises when `iter >= n*n` (so `n*n - 1` allowed passes). -/
def adjust_flooding (n : Nat) (W : Mat) (flood : Mat) (start : Int) :
    Except String Mat := do
  let fl1 : Mat := fun i j =>
    if i < n ∧ j < n ∧ start < flood i j then -1 else flood i j
  let cur : List Cell :=
    (List.range n).flatMap fun i =>
      (List.range n).filterMap fun j =>
        if fl1 i j = start then some ((i : Int), (j : Int)) else none
  let fl ← floodLoop n maxMoves W (n*n - 1) fl1 cur
  let o ← mget n n fl ((0 : Int), (0 : Int))
  if o < 0 then .error "Check Code, apparently no path from start to center"
  else .ok fl

end Robot

/-- `flood.min()` over an `n × n` array (`n ≥ 1`). -/
def matMin (n : Nat) (A : Mat) : Int :=
  ((List.range n).flatMap fun i => (List.range n).map fun j => A i j).foldr
    min (A 0 0)

namespace MCM

/-- `flooding` of mycreatemaze.py: no look-ahead (`M = 1`), raise when
`iter >= n*n` (so `n*n - 1` allowed passes), returns `flood.min()`. -/
def flooding (n : Nat) (W : Mat) (target : List Cell) : Except String Int := do
  let fl1 ← setTargets n (fun _ _ => -1) target
  let fl ← floodLoop n 1 W (n*n - 1) fl1 target
  .ok (matMin n fl)

end MCM

/-! ## Robot move selection (`__explore` and step 3 of `__calculate_next_move`) -/

namespace Robot

/-- `rotations` dictionary of robot.py: `rotations[heading][direction]`. -/
def rotations (h t : Dir) : Int :=
  match h, t with
  | .u, .l => -90 | .u, .u => 0   | .u, .r => 90  | .u, .d => 180
  | .l, .l => 0   | .l, .u => 90  | .l, .r => 180 | .l, .d => -90
  | .r, .l => 180 | .r, .u => -90 | .r, .r => 0   | .r, .d => 90
  | .d, .l => 90  | .d, .u => 180 | .d, .r => -90 | .d, .d => 0

/-- The `for s in range(mx_step+1)` loop of `__explore`; first `Nat` argument
counts the remaining `s` values, second is the current `s`; then the running
`new_dist` and `steps`. -/
def exploreGo (n : Nat) (W fl : Mat) (loc : Cell) (d : Dir) :
    Nat → Nat → Int → Nat → Except String (Int × Nat)
  | 0, _, nd, st => .ok (nd, st)
  | fuel+1, s, nd, st => do
    let box := cadd loc d s
    let fv ← mget n n fl box
    let nd' := if fv ≤ nd then fv else nd
    let st' := if fv ≤ nd then s else st
    let wv ← mget n n W box
    if Int.land wv (wallMask d) ≤ 0 then .ok (nd', st')
    else exploreGo n W fl loc d fuel (s+1) nd' st'

/-- `__explore` of robot.py: best reachable flood value moving from `loc` in
direction `d`, with at most `mx` traversed cells. -/
def explore (n : Nat) (W fl : Mat) (loc : Cell) (d : Dir) (mx : Nat) :
    Except String (Int × Nat) := do
  let nd ← mget n n fl loc
  exploreGo n W fl loc d (mx+1) 0 nd 0

/-- Step 3.2 of `__calculate_next_move`: the `possibilities` accumulation loop
over the four directions, carrying `next_distance`. -/
def possLoop (n : Nat) (W fl : Mat) (loc : Cell) :
    List Dir → Int → List (Int × Nat × Dir) →
      Except String (Int × List (Int × Nat × Dir))
  | [], nd, ps => .ok (nd, ps)
  | d0 :: ds, nd, ps => do
    let ex ← explore n W fl loc d0 maxMoves
    if ex.1 < nd then possLoop n W fl loc ds ex.1 [(ex.1, ex.2, d0)]
    else if ex.1 = nd ∧ 0 < ex.2 then
      possLoop n W fl loc ds nd (ps ++ [(ex.1, ex.2, d0)])
    else possLoop n W fl loc ds nd ps

/-- Translation of a chosen `(new_dist, steps, direction)` candidate into the
`(rotation, movement)` command (steps 3.3 of `__calculate_next_move`:
`movement = min(steps, mx_step)`, and a 180° rotation is emitted as
rotation `0` with movement `-1`). -/
def commandOf (heading : Dir) (mx : Nat) (pick : Int × Nat × Dir) :
    Int × Int :=
  if rotations heading pick.2.2 = 180 then ((0 : Int), (-1 : Int))
  else (rotations heading pick.2.2, min ((pick.2.1 : Int)) ((mx : Int)))

/-- Steps 3.1–3.3 of `__calculate_next_move` (given the already-adjusted
flood): return `(0,0)` at a target cell, otherwise pick
`possibilities[np.random.randint(0, len(possibilities))]` and translate it to
a `(rotation, movement)` command; `np.random.randint(0, 0)` on an empty
candidate list raises `ValueError`. -/
def calcStep3 (n : Nat) (W fl : Mat) (loc : Cell) (heading : Dir) (mx : Nat)
    (rng : Nat → Nat) (k : Nat) : Except String (Int × Int) := do
  let fv ← mget n n fl loc
  if fv = 0 then .ok (0, 0)
  else do
    let res ← possLoop n W fl loc directionsR fv []
    let ps := res.2
    if h : ps.length = 0 then .error "ValueError"
    else
      let p := rng k % ps.length
      .ok (commandOf heading mx (ps.get ⟨p, Nat.mod_lt _ (Nat.pos_of_ne_zero h)⟩))

end Robot

/-! ## Sensor fusion (`Robot.__update_walls`) -/

/-- Python slice-boundary normalisation for an axis of length `L`:
negative boundaries are shifted by `L`, then clamped into `[0, L]`. -/
def sliceNorm (L : Nat) (i : Int) : Nat :=
  if i < 0 then (max (i + L) 0).toNat else min i.toNat L

/-- `A[start:stop, j] = v` on a `rows × cols` array (axis-0 slice, scalar
second index with numpy scalar-index semantics). -/
def setSliceRow (rows cols : Nat) (A : Mat) (start stop j : Int) (v : Int) :
    Except String Mat :=
  match npIdx cols j with
  | some jj => .ok fun x y =>
      if sliceNorm rows start ≤ x ∧ x < sliceNorm rows stop ∧ y = jj then v
      else A x y
  | none => .error "IndexError"

/-- `A[i, start:stop] = v` on a `rows × cols` array (scalar first index,
axis-1 slice). -/
def setSliceCol (rows cols : Nat) (A : Mat) (i start stop : Int) (v : Int) :
    Except String Mat :=
  match npIdx rows i with
  | some ii => .ok fun x y =>
      if x = ii ∧ sliceNorm cols start ≤ y ∧ y < sliceNorm cols stop then v
      else A x y
  | none => .error "IndexError"

namespace Robot

/-- Mutable state of `__update_walls`: the believed wall grid, the two
verified-segment arrays (`known_vert` is `(n+1) × n`, `known_hor` is
`n × (n+1)`), and the accumulated `walled_boxes` list. -/
structure UW where
  walls : Mat
  kv : Mat
  kh : Mat
  acc : List Cell

/-- The `for m in range(max_moves, -max_moves, -1)` window of
`__update_walls`: offsets `3,2,1,0,-1,-2` from the walled box along `d`,
keeping cells with `max(box) < n and min(box) >= 0`. -/
def walledWindow (n : Nat) (wb : Cell) (d : Dir) : List Cell :=
  ([3, 2, 1, 0, -1, -2] : List Int).filterMap fun m =>
    let box := cadd wb d m
    if max box.1 box.2 < (n : Int) ∧ 0 ≤ min box.1 box.2 then some box
    else none

/-- The `known_vert`/`known_hor` slice assignment of one sensor direction
(the `if d == ...` chain at the top of the loop body of `__update_walls`). -/
def knownWrite (n : Nat) (loc : Cell) (kv kh : Mat) (d : Dir) (s : Int) :
    Except String (Mat × Mat) :=
  match d with
  | Dir.r => do
      let kv' ← setSliceRow (n+1) n kv (loc.1+1) (loc.1+1+s+1) loc.2 1
      pure (kv', kh)
  | Dir.l => do
      let kv' ← setSliceRow (n+1) n kv (loc.1 - s) (loc.1+1) loc.2 1
      pure (kv', kh)
  | Dir.u => do
      let kh' ← setSliceCol n (n+1) kh loc.1 (loc.2+1) (loc.2+1+s+1) 1
      pure (kv, kh')
  | Dir.d => do
      let kh' ← setSliceCol n (n+1) kh loc.1 (loc.2 - s) (loc.2+1) 1
      pure (kv, kh')

/-- One iteration of the `for i,d in enumerate(dir_sensors[heading])` loop of
`__update_walls`, for absolute sensor direction `d` and reading `s`. -/
def sensorStep (n : Nat) (loc : Cell) (st : UW) (d : Dir) (s : Int) :
    Except String UW := do
  let kvkh ← knownWrite n loc st.kv st.kh d s
  let wb : Cell := (loc.1 + (dirMove d).1 * s, loc.2 + (dirMove d).2 * s)
  let wv ← mget n n st.walls wb
  if 0 < Int.land wv (wallMask d) then
    let w1 ← mset n n st.walls wb (wv - wallMask d)
    let adj := cadd wb d 1
    let av ← mget n n w1 adj
    let w2 ← mset n n w1 adj (av - wallMaskRev d)
    pure ⟨w2, kvkh.1, kvkh.2, st.acc ++ walledWindow n wb d⟩
  else
    pure ⟨st.walls, kvkh.1, kvkh.2, st.acc⟩

/-- `dir_sensors[heading]` as a triple (left, front, right). -/
def dirSensors3 (h : Dir) : Dir × Dir × Dir :=
  match h with
  | .u => (.l, .u, .r)
  | .r => (.u, .r, .d)
  | .d => (.r, .d, .l)
  | .l => (.d, .l, .u)

/-- `__update_walls` of robot.py. -/
def update_walls (n : Nat) (walls kv kh : Mat) (loc : Cell) (heading : Dir)
    (sensing : Int × Int × Int) : Except String UW := do
  let ds := dirSensors3 heading
  let st1 ← sensorStep n loc ⟨walls, kv, kh, []⟩ ds.1 sensing.1
  let st2 ← sensorStep n loc st1 ds.2.1 sensing.2.1
  sensorStep n loc st2 ds.2.2 sensing.2.2

end Robot

/-! ## The maze generator (`mycreatemaze.py`) -/

/-- `A[i] = v` (whole row `i` of the first axis). -/
def setRow (A : Mat) (i : Nat) (v : Int) : Mat :=
  fun x y => if x = i then v else A x y

/-- `A[:, j] = v`. -/
def setCol (A : Mat) (j : Nat) (v : Int) : Mat :=
  fun x y => if y = j then v else A x y

/-- `A[i, j] = v` (in-bounds indices; the generator is modelled for `n ≥ 4`,
where all indices appearing in `init_walls`/`create_maze` are nonnegative). -/
def setCell (A : Mat) (i j : Nat) (v : Int) : Mat :=
  fun x y => if x = i ∧ y = j then v else A x y

/-- `A[i, j] = A[i, j] | m`. -/
def orCell (A : Mat) (i j : Nat) (m : Int) : Mat :=
  setCell A i j (Int.lor (A i j) m)

namespace MCM

/-- The deterministic part of `init_walls` (perimeter, the `(0,0)`/`(1,0)`
walls, and the closed ring around the maze centre), assignments in source
order. -/
def init_walls_base (n : Nat) : Mat :=
  let c := n / 2
  let w := (fun _ _ => (15 : Int) : Mat)
  let w := setRow w 0 7
  let w := setRow w (n-1) 13
  let w := setCol w 0 11
  let w := setCol w (n-1) 14
  let w := setCell w 0 0 1
  let w := setCell w 1 0 3
  let w := setCell w (n-1) 0 9
  let w := setCell w 0 (n-1) 6
  let w := setCell w (n-1) (n-1) 12
  let w := setCell w (c-2) c 13
  let w := setCell w (c-2) (c-1) 13
  let w := setCell w (c-1) (c+1) 11
  let w := setCell w (c-1) c 6
  let w := setCell w (c-1) (c-1) 3
  let w := setCell w (c-1) (c-2) 14
  let w := setCell w c (c+1) 11
  let w := setCell w c c 12
  let w := setCell w c (c-1) 9
  let w := setCell w c (c-2) 14
  let w := setCell w (c+1) c 7
  setCell w (c+1) (c-1) 7

/-- The `sel = np.random.randint(8)` opening of `init_walls`: one of eight
symmetric single openings in the ring around the centre. -/
def init_walls_sel (n : Nat) (sel : Nat) (w : Mat) : Mat :=
  let c := n / 2
  if sel = 0 then setCell (setCell w c (c+1) 15) c c 13
  else if sel = 1 then setCell (setCell w (c-1) (c+1) 15) (c-1) c 7
  else if sel = 2 then setCell (setCell w (c-2) c 15) (c-1) c 14
  else if sel = 3 then setCell (setCell w (c-2) (c-1) 15) (c-1) (c-1) 11
  else if sel = 4 then setCell (setCell w (c-1) (c-1) 7) (c-1) (c-2) 15
  else if sel = 5 then setCell (setCell w c (c-1) 13) c (c-2) 15
  else if sel = 6 then setCell (setCell w c (c-1) 11) (c+1) (c-1) 15
  else setCell (setCell w c c 14) (c+1) c 15

/-- `init_walls` of mycreatemaze.py; consumes one random draw (`randint(8)`). -/
def init_walls (n : Nat) (rng : Nat → Nat) (k : Nat) : Mat × Nat :=
  (init_walls_sel n (rng k % 8) (init_walls_base n), k + 1)

/-- `np.random.choice(directions)` over `['u','r','l','d']`, by index. -/
def chooseDirM (m : Nat) : Dir :=
  match m % 4 with
  | 0 => .u
  | 1 => .r
  | 2 => .l
  | _ => .d

/-- The `for i in range(max_attempt)` loop of `add_one_wall`; each attempt
draws a random box (two `randint(0,n)`) and direction (one `choice`), and on
an open wall tentatively closes it, keeps it when `flooding(...) >= 0` and
otherwise undoes the addition. -/
def add_one_wall_go (n : Nat) (target : List Cell) (rng : Nat → Nat) :
    Mat → Nat → Nat → Except String (Bool × Mat × Nat)
  | w, 0, k => .ok (false, w, k)
  | w, att+1, k => do
    let box : Cell := ((rng k % n : Nat), (rng (k+1) % n : Nat))
    let d0 := chooseDirM (rng (k+2))
    let k' := k + 3
    let wv ← mget n n w box
    if 0 < Int.land wv (wallMask d0) then
      let nb := cadd box d0 1
      let w1 ← mset n n w box (wv - wallMask d0)
      let nv ← mget n n w1 nb
      let w2 ← mset n n w1 nb (nv - wallMaskRev d0)
      let fmin ← MCM.flooding n w2 target
      if 0 ≤ fmin then .ok (true, w2, k')
      else do
        let bv ← mget n n w2 box
        let w3 ← mset n n w2 box (bv + wallMask d0)
        let nv2 ← mget n n w3 nb
        let w4 ← mset n n w3 nb (nv2 + wallMaskRev d0)
        add_one_wall_go n target rng w4 att k'
    else
      add_one_wall_go n target rng w att k'

/-- `add_one_wall` of mycreatemaze.py. -/
def add_one_wall (n : Nat) (w : Mat) (target : List Cell) (maxAttempt : Nat)
    (rng : Nat → Nat) (k : Nat) : Except String (Bool × Mat × Nat) :=
  add_one_wall_go n target rng w maxAttempt k

/-- The centre target `[(c-1,c-1),(c-1,c),(c,c-1),(c,c)]` with `c = n // 2`,
as built both by `create_maze` and by `Robot.__init__`. -/
def centerTarget (n : Nat) : List Cell :=
  let c : Int := (n / 2 : Nat)
  [(c-1, c-1), (c-1, c), (c, c-1), (c, c)]

/-- Number of set wall bits of one cell value. -/
def bitsAt (v : Int) : Nat :=
  (if 0 < Int.land v 1 then 1 else 0) + (if 0 < Int.land v 2 then 1 else 0) +
  (if 0 < Int.land v 4 then 1 else 0) + (if 0 < Int.land v 8 then 1 else 0)

/-- Total number of open (set) wall bits over the grid; the termination
measure of the `while wall_added` loop (a modelling device, not source
code: it only feeds the provably sufficient fuel of `createLoop`). -/
def openCount (n : Nat) (w : Mat) : Nat :=
  ∑ p ∈ Finset.range n ×ˢ Finset.range n, bitsAt (w p.1 p.2)

/-- The `while wall_added` loop of `create_maze`.  The fuel is an upper bound
on the number of successful wall additions; `createLoop_fuel` below proves the
`.error "fuel"` branch unreachable for fuel `> openCount`, so with that fuel
the model is the source's unbounded loop. -/
def createLoop (n attempt : Nat) (target : List Cell) (rng : Nat → Nat) :
    Nat → Mat → Nat → Except String (Mat × Nat)
  | 0, _, _ => .error "fuel"
  | fuel+1, w, k => do
    let r ← add_one_wall n w target attempt rng k
    if r.1 then createLoop n attempt target rng fuel r.2.1 r.2.2
    else .ok (r.2.1, r.2.2)

/-- The eight `walls[target[i]] |= mask` statements at the end of
`create_maze`, in source order. -/
def forceCenterOpen (n : Nat) (w : Mat) : Mat :=
  let c := n / 2
  let w := orCell w (c-1) (c-1) (wallMask .u)
  let w := orCell w (c-1) (c-1) (wallMask .r)
  let w := orCell w (c-1) c (wallMask .d)
  let w := orCell w (c-1) c (wallMask .r)
  let w := orCell w c (c-1) (wallMask .u)
  let w := orCell w c (c-1) (wallMask .l)
  let w := orCell w c c (wallMask .d)
  orCell w c c (wallMask .l)

/-- `create_maze` of mycreatemaze.py. -/
def create_maze (n attempt : Nat) (rng : Nat → Nat) : Except String Mat := do
  let target := centerTarget n
  let ik := init_walls n rng 0
  let res ← createLoop n attempt target rng (openCount n ik.1 + 1) ik.1 ik.2
  .ok (forceCenterOpen n res.1)

end MCM

/-! ## Pure theory: the look-ahead step graph and BFS distances

Under the closed-perimeter invariant every array access of the flood loop is
in bounds, so the loop's behaviour is captured by the following total
functions and relations over in-bounds cells. -/

/-- Total in-bounds read of a flood matrix; out-of-bounds reads as `-1`. -/
def flAt (n : Nat) (A : Mat) (p : Cell) : Int :=
  if inB n p then A p.1.toNat p.2.toNat else -1

/-- Equality of two `n × n` numpy arrays (entrywise on the real entries). -/
def matEq (n : Nat) (A B : Mat) : Prop :=
  ∀ i, i < n → ∀ j, j < n → A i j = B i j

instance (n : Nat) (A B : Mat) : Decidable (matEq n A B) := by
  unfold matEq; infer_instance

/-- The walls at offsets `0..m` from `b` along `d` are all open: the condition
under which the look-ahead loop is still running at offset `m`. -/
def openRun (n : Nat) (W : Mat) (b : Cell) (d : Dir) (m : Nat) : Prop :=
  ∀ i : Nat, i ≤ m → openb n W (cadd b d i) d

instance (n : Nat) (W : Mat) (b : Cell) (d : Dir) (m : Nat) :
    Decidable (openRun n W b d m) := by
  unfold openRun; infer_instance

/-- One flood step with look-ahead bound `M`: from `b`, through a run of `m+1`
open walls (`m < M`), to the cell one past the run.  For `M = 1` this is plain
wall-graph adjacency. -/
def edgeM (n M : Nat) (W : Mat) (b c : Cell) : Prop :=
  ∃ d0 : Dir, ∃ m : Nat, m < M ∧ openRun n W b d0 m ∧ c = cadd b d0 (m + 1)

/-- `ReachN n M W T c k`: there is a walk of exactly `k` flood steps from the
target set `T` to `c`. -/
inductive ReachN (n M : Nat) (W : Mat) (T : List Cell) : Cell → Nat → Prop where
  | base (c : Cell) (hc : c ∈ T) : ReachN n M W T c 0
  | step (b c : Cell) (k : Nat) (hb : ReachN n M W T b k)
      (he : edgeM n M W b c) : ReachN n M W T c (k + 1)

/-- `c` is at BFS distance exactly `k` from the target set. -/
def LeastReach (n M : Nat) (W : Mat) (T : List Cell) (c : Cell) (k : Nat) :
    Prop :=
  ReachN n M W T c k ∧ ∀ j, j < k → ¬ ReachN n M W T c j

/-- `c` is reachable from the target set. -/
def Reaches (n M : Nat) (W : Mat) (T : List Cell) (c : Cell) : Prop :=
  ∃ k, ReachN n M W T c k

@[simp] theorem cadd_zero (b : Cell) (d : Dir) : cadd b d 0 = b := by
  simp [cadd]

theorem cadd_cadd (b : Cell) (d : Dir) (x y : Int) :
    cadd (cadd b d x) d y = cadd b d (x + y) := by
  simp [cadd]; constructor <;> ring

theorem inB_toNat (n : Nat) (p : Cell) (h : inB n p) :
    ((p.1.toNat : Int), (p.2.toNat : Int)) = p := by
  obtain ⟨h1, _, h3, _⟩ := h
  simp [Int.toNat_of_nonneg h1, Int.toNat_of_nonneg h3]

/-- Under the closed perimeter, an open wall from an in-bounds cell leads to an
in-bounds cell. -/
theorem openb_step_inB {n : Nat} {W : Mat} (hP : closedPerimeter n W)
    {c : Cell} (hc : inB n c) {d : Dir} (ho : openb n W c d) :
    inB n (cadd c d 1) := by
  by_contra hout
  obtain ⟨h1, h2, h3, h4⟩ := hc
  have hi : c.1.toNat < n := by omega
  have hj : c.2.toNat < n := by omega
  have := hP c.1.toNat hi c.2.toNat hj d
  rw [show ((c.1.toNat : Int), (c.2.toNat : Int)) = c from inB_toNat n c ⟨h1, h2, h3, h4⟩] at this
  have hle := this hout
  unfold openb wAt at ho
  rw [if_pos ⟨h1, h2, h3, h4⟩] at ho
  omega

/-- Cells along an open run, and the cell one past it, are in bounds. -/
theorem openRun_inB {n : Nat} {W : Mat} (hP : closedPerimeter n W)
    {b : Cell} (hb : inB n b) {d : Dir} :
    ∀ m : Nat, openRun n W b d m → ∀ i : Nat, i ≤ m + 1 → inB n (cadd b d i) := by
  intro m
  induction m with
  | zero =>
    intro hr i hi
    have h0 : openb n W b d := by simpa using hr 0 le_rfl
    interval_cases i
    · simpa using hb
    · simpa using openb_step_inB hP hb h0
  | succ m ih =>
    intro hr i hi
    rcases Nat.lt_or_ge i (m + 2) with h | h
    · exact ih (fun j hj => hr j (by omega)) i (by omega)
    · have hieq : i = m + 2 := by omega
      subst hieq
      have hin : inB n (cadd b d ((m + 1 : Nat) : Int)) :=
        ih (fun j hj => hr j (by omega)) (m + 1) (by omega)
      have ho : openb n W (cadd b d ((m + 1 : Nat) : Int)) d := hr (m + 1) (by omega)
      have hres := openb_step_inB hP hin ho
      rw [cadd_cadd] at hres
      have hcast : ((m + 1 : Nat) : Int) + 1 = ((m + 2 : Nat) : Int) := by push_cast; ring
      rwa [hcast] at hres

theorem edgeM_inB {n M : Nat} {W : Mat} (hP : closedPerimeter n W)
    {b c : Cell} (hb : inB n b) (he : edgeM n M W b c) : inB n c := by
  obtain ⟨d0, m, _, hrun, rfl⟩ := he
  exact openRun_inB hP hb m hrun (m + 1) le_rfl

/-- `mget` on an in-bounds cell reads the entry. -/
theorem mget_inB (n : Nat) (A : Mat) (p : Cell) (h : inB n p) :
    mget n n A p = .ok (A p.1.toNat p.2.toNat) := by
  obtain ⟨h1, h2, h3, h4⟩ := h
  unfold mget npIdx
  rw [if_pos ⟨h1, h2⟩, if_pos ⟨h3, h4⟩]

theorem mget_flAt (n : Nat) (A : Mat) (p : Cell) (h : inB n p) :
    mget n n A p = .ok (flAt n A p) := by
  rw [mget_inB n A p h]
  unfold flAt
  rw [if_pos h]

theorem mget_wAt (n : Nat) (A : Mat) (p : Cell) (h : inB n p) :
    mget n n A p = .ok (wAt n A p) := by
  rw [mget_inB n A p h]
  unfold wAt
  rw [if_pos h]

theorem mset_inB (n : Nat) (A : Mat) (p : Cell) (v : Int) (h : inB n p) :
    mset n n A p v =
      .ok (fun x y => if x = p.1.toNat ∧ y = p.2.toNat then v else A x y) := by
  obtain ⟨h1, h2, h3, h4⟩ := h
  unfold mset npIdx
  rw [if_pos ⟨h1, h2⟩, if_pos ⟨h3, h4⟩]

/-! ## The cells the look-ahead loops touch (claim C10) -/

/-- The cells whose array entries the inner look-ahead loop of `flooding` /
`adjust_flooding` (`scanDir`) touches, in order: at each reached offset `m` it
reads `walls[bc]`, and on an open wall also `flood[new_b]`, `flood[b]` and
(possibly) writes `flood[new_b]`.  The wall test is written with the pure read
`wAt`, which agrees with the loop's `mget` whenever the listed cells are in
bounds — which is what `scanDir_reads_inB` proves. -/
def scanReads (n : Nat) (W : Mat) (b : Cell) (d : Dir) : Nat → Nat → List Cell
  | 0, _ => []
  | fuelM+1, m =>
    let bc := cadd b d m
    if 0 < Int.land (wAt n W bc) (wallMask d) then
      bc :: cadd bc d 1 :: b :: scanReads n W b d fuelM (m+1)
    else [bc]

/-- The cells `__explore` touches: at each reached offset `s` it reads
`flood[box]` and `walls[box]`, stopping after the first closed wall. -/
def exploreReads (n : Nat) (W : Mat) (loc : Cell) (d : Dir) :
    Nat → Nat → List Cell
  | 0, _ => []
  | fuel+1, s =>
    let box := cadd loc d s
    if Int.land (wAt n W box) (wallMask d) ≤ 0 then [box]
    else box :: exploreReads n W loc d fuel (s+1)

theorem scanReads_inB_aux {n : Nat} {W : Mat} (hP : closedPerimeter n W)
    {b : Cell} (hb : inB n b) (d : Dir) :
    ∀ fuelM (m : Nat), inB n (cadd b d (m : Int)) →
      ∀ c ∈ scanReads n W b d fuelM m, inB n c := by
  intro fuelM
  induction fuelM with
  | zero => intro m _ c hc; simp [scanReads] at hc
  | succ fuelM ih =>
    intro m hm c hc
    unfold scanReads at hc
    by_cases hop : 0 < Int.land (wAt n W (cadd b d m)) (wallMask d)
    · rw [if_pos hop] at hc
      have hnb : inB n (cadd (cadd b d m) d 1) :=
        openb_step_inB hP hm hop
      simp only [List.mem_cons] at hc
      rcases hc with rfl | rfl | rfl | hc
      · exact hm
      · exact hnb
      · exact hb
      · have hnb' : inB n (cadd b d ((m : Int) + 1)) := by
          rwa [cadd_cadd] at hnb
        have : ((m + 1 : Nat) : Int) = (m : Int) + 1 := by push_cast; ring
        rw [← this] at hnb'
        exact ih (m+1) hnb' c hc
    · rw [if_neg hop] at hc
      simp only [List.mem_cons, List.not_mem_nil, or_false] at hc
      subst hc; exact hm

theorem exploreReads_inB_aux {n : Nat} {W : Mat} (hP : closedPerimeter n W)
    {loc : Cell} (d : Dir) :
    ∀ fuel (s : Nat), inB n (cadd loc d (s : Int)) →
      ∀ c ∈ exploreReads n W loc d fuel s, inB n c := by
  intro fuel
  induction fuel with
  | zero => intro s _ c hc; simp [exploreReads] at hc
  | succ fuel ih =>
    intro s hs c hc
    unfold exploreReads at hc
    by_cases hop : Int.land (wAt n W (cadd loc d s)) (wallMask d) ≤ 0
    · rw [if_pos hop] at hc
      simp only [List.mem_cons, List.not_mem_nil, or_false] at hc
      subst hc; exact hs
    · rw [if_neg hop] at hc
      simp only [List.mem_cons] at hc
      rcases hc with rfl | hc
      · exact hs
      · have hop' : openb n W (cadd loc d s) d := by
          unfold openb; omega
        have hnb : inB n (cadd (cadd loc d s) d 1) :=
          openb_step_inB hP hs hop'
        rw [cadd_cadd] at hnb
        have : ((s + 1 : Nat) : Int) = (s : Int) + 1 := by push_cast; ring
        rw [← this] at hnb
        exact ih (s+1) hnb c hc

/-- **C10.**  On a wall grid whose outer boundary is fully walled
(closed-perimeter invariant), every cell the bounded look-ahead loop of
`flooding` touches from an in-bounds frontier cell, and every cell the scan
loop of `Robot.__explore` touches from an in-bounds location, lies inside
`[0,n) × [0,n)`: the look-ahead follows open passages only and an open
passage never leaves the grid. -/
theorem lookahead_reads_in_bounds {n : Nat} {W : Mat}
    (hP : closedPerimeter n W) {b : Cell} (hb : inB n b) (d : Dir) (mx : Nat) :
    (∀ c ∈ scanReads n W b d maxMoves 0, inB n c) ∧
    (∀ c ∈ exploreReads n W b d (mx + 1) 0, inB n c) := by
  constructor
  · exact scanReads_inB_aux hP hb d maxMoves 0 (by simpa using hb)
  · exact exploreReads_inB_aux hP d (mx + 1) 0 (by simpa using hb)

/-- Witness for C10 on a concrete grid: the 2×2 grid with a single open
passage `(0,0)–(0,1)`. -/
def w2pair : Mat := fun i j =>
  if i = 0 ∧ j = 0 then 1 else if i = 0 ∧ j = 1 then 4 else 0

theorem lookahead_reads_in_bounds_witness :
    (∀ c ∈ scanReads 2 w2pair ((0:Int), (0:Int)) Dir.u maxMoves 0, inB 2 c) ∧
    (∀ c ∈ exploreReads 2 w2pair ((0:Int), (0:Int)) Dir.u (3 + 1) 0, inB 2 c) :=
  lookahead_reads_in_bounds (by decide) (by decide) Dir.u 3

/-! ## Wall-bit arithmetic

The wall masks are single bits; closing a wall is Python integer subtraction
of the mask, guarded by the mask bit being set.  On 4-bit cell values this
clears exactly that bit.  The robot's docstring fixes cell values to 4-bit
representations, which `range16` captures. -/

/-- Cell values are 4-bit wall masks. -/
def range16 (A : Mat) : Prop := ∀ x y, 0 ≤ A x y ∧ A x y < 16

theorem wallMask_cases (d : Dir) :
    wallMask d = 1 ∨ wallMask d = 2 ∨ wallMask d = 4 ∨ wallMask d = 8 := by
  cases d <;> simp [wallMask]

theorem clear_bit {v m : Int} (hv0 : 0 ≤ v) (hv : v < 16)
    (hm : m = 1 ∨ m = 2 ∨ m = 4 ∨ m = 8) (h : 0 < Int.land v m) :
    0 ≤ v - m ∧ v - m < 16 ∧ Int.land (v - m) m = 0 ∧
      ∀ m', m' = 1 ∨ m' = 2 ∨ m' = 4 ∨ m' = 8 → m' ≠ m →
        Int.land (v - m) m' = Int.land v m' := by
  rcases hm with rfl | rfl | rfl | rfl <;> interval_cases v <;>
    first
      | (exfalso; revert h; decide)
      | (refine ⟨by decide, by decide, by decide, ?_⟩
         intro m' hm' hne
         rcases hm' with rfl | rfl | rfl | rfl <;>
           first
             | (exact absurd rfl hne)
             | decide)

theorem set_bit {v m : Int} (hv0 : 0 ≤ v) (hv : v < 16)
    (hm : m = 1 ∨ m = 2 ∨ m = 4 ∨ m = 8) :
    0 < Int.land (Int.lor v m) m ∧ 0 ≤ Int.lor v m ∧ Int.lor v m < 16 := by
  rcases hm with rfl | rfl | rfl | rfl <;> interval_cases v <;> decide

/-! ## Closing one wall

Both mutation sites (`Robot.__update_walls` lines 447-449 and `add_one_wall`
lines 150-151) perform the same paired subtraction
`walls[box] -= wall_mask[d]; walls[box + d] -= wall_mask_rev[d]`;
`closeWall` is that mutation as a pure function on the array, for an in-bounds
`box` and neighbour. -/

def closeWall (n : Nat) (W : Mat) (b : Cell) (d : Dir) : Mat :=
  fun x y =>
    if x = b.1.toNat ∧ y = b.2.toNat then W x y - wallMask d
    else if x = (cadd b d 1).1.toNat ∧ y = (cadd b d 1).2.toNat then
      W x y - wallMaskRev d
    else W x y

theorem inB_eq_iff_toNat {n : Nat} {p q : Cell} (hp : inB n p) (hq : inB n q) :
    (p.1.toNat = q.1.toNat ∧ p.2.toNat = q.2.toNat) ↔ p = q := by
  constructor
  · rintro ⟨h1, h2⟩
    have := inB_toNat n p hp
    have := inB_toNat n q hq
    rw [← inB_toNat n p hp, ← inB_toNat n q hq, h1, h2]
  · rintro rfl; exact ⟨rfl, rfl⟩

theorem cadd_one_ne (b : Cell) (d : Dir) : cadd b d 1 ≠ b := by
  cases d <;>
    · intro h
      rw [Prod.ext_iff] at h
      simp only [cadd, dirMove] at h
      omega

theorem ebind_ok {α β : Type} (a : α) (f : α → Except String β) :
    (Except.ok a >>= f : Except String β) = f a := rfl

/-- Pointwise description of `closeWall` through the in-bounds read `wAt`. -/
theorem closeWall_wAt {n : Nat} {W : Mat} {b : Cell} {d : Dir}
    (hb : inB n b) (hb' : inB n (cadd b d 1)) {c : Cell} (hc : inB n c) :
    wAt n (closeWall n W b d) c =
      if c = b then wAt n W c - wallMask d
      else if c = cadd b d 1 then wAt n W c - wallMaskRev d
      else wAt n W c := by
  unfold wAt closeWall
  rw [if_pos hc, if_pos hc]
  by_cases h1 : c = b
  · subst h1
    rw [if_pos ((inB_eq_iff_toNat hc hc).mpr rfl), if_pos rfl]
  · rw [if_neg h1,
      if_neg (fun hcon => h1 ((inB_eq_iff_toNat hc hb).mp hcon))]
    by_cases h2 : c = cadd b d 1
    · subst h2
      rw [if_pos ((inB_eq_iff_toNat hc hc).mpr rfl), if_pos rfl]
    · rw [if_neg h2,
        if_neg (fun hcon => h2 ((inB_eq_iff_toNat hc hb').mp hcon))]

/-- `closeWall` only changes the two touched entries. -/
theorem closeWall_wAt_other {n : Nat} {W : Mat} {b : Cell} {d : Dir}
    {c : Cell} (h1 : c ≠ b) (h2 : c ≠ cadd b d 1)
    (hb : inB n b) (hb' : inB n (cadd b d 1)) (hc : inB n c) :
    wAt n (closeWall n W b d) c = wAt n W c := by
  rw [closeWall_wAt hb hb' hc, if_neg h1, if_neg h2]

/-- The executable mset/mget chain of the two closure sites equals
`closeWall`. -/
theorem closeWall_exec {n : Nat} {W : Mat} {b : Cell} {d : Dir}
    (hb : inB n b) (hb' : inB n (cadd b d 1)) :
    (do
      let wv ← mget n n W b
      let w1 ← mset n n W b (wv - wallMask d)
      let av ← mget n n w1 (cadd b d 1)
      mset n n w1 (cadd b d 1) (av - wallMaskRev d) :
        Except String Mat) = .ok (closeWall n W b d) := by
  have hne : ¬((cadd b d 1).1.toNat = b.1.toNat ∧
      (cadd b d 1).2.toNat = b.2.toNat) := by
    intro hcon
    exact cadd_one_ne b d ((inB_eq_iff_toNat hb' hb).mp hcon)
  rw [mget_inB n W b hb]
  simp only [ebind_ok]
  rw [mset_inB n W b _ hb]
  simp only [ebind_ok]
  rw [mget_inB n _ (cadd b d 1) hb']
  simp only [ebind_ok]
  rw [mset_inB n _ (cadd b d 1) _ hb']
  simp only [Except.ok.injEq]
  funext x y
  simp only [closeWall]
  by_cases hx : x = (cadd b d 1).1.toNat ∧ y = (cadd b d 1).2.toNat
  · obtain ⟨rfl, rfl⟩ := hx
    rw [if_pos ⟨rfl, rfl⟩, if_neg hne, if_neg hne, if_pos ⟨rfl, rfl⟩]
  · rw [if_neg hx]
    by_cases hxb : x = b.1.toNat ∧ y = b.2.toNat
    · obtain ⟨rfl, rfl⟩ := hxb
      rw [if_pos ⟨rfl, rfl⟩, if_pos ⟨rfl, rfl⟩]
    · rw [if_neg hxb, if_neg hxb, if_neg hx]

theorem dirRev_dirRev (d : Dir) : dirRev (dirRev d) = d := by
  cases d <;> rfl

theorem cadd_rev (c : Cell) (d : Dir) : cadd (cadd c d 1) (dirRev d) 1 = c := by
  cases d <;>
    · rw [Prod.ext_iff]
      simp only [cadd, dirMove, dirRev]
      constructor <;> ring

theorem wallMask_inj {d d' : Dir} (h : wallMask d = wallMask d') : d = d' := by
  cases d <;> cases d' <;> first | rfl | (exfalso; revert h; decide)

theorem range16_wAt {n : Nat} {W : Mat} (hr : range16 W) (c : Cell) :
    0 ≤ wAt n W c ∧ wAt n W c < 16 := by
  unfold wAt
  split
  · exact hr _ _
  · exact ⟨le_refl 0, by omega⟩

/-- The symmetry invariant, in terms of the pure reads. -/
theorem symmetricW_openb {n : Nat} {W : Mat} (hs : symmetricW n W)
    {c : Cell} (hc : inB n c) {d : Dir} (hc' : inB n (cadd c d 1)) :
    (openb n W c d ↔ openb n W (cadd c d 1) (dirRev d)) := by
  obtain ⟨h1, h2, h3, h4⟩ := hc
  have hi : c.1.toNat < n := by omega
  have hj : c.2.toNat < n := by omega
  have hsp := hs c.1.toNat hi c.2.toNat hj d
  rw [show ((c.1.toNat : Int), (c.2.toNat : Int)) = c from
    inB_toNat n c ⟨h1, h2, h3, h4⟩] at hsp
  have := hsp hc'
  unfold openb wAt
  rw [if_pos ⟨h1, h2, h3, h4⟩]
  unfold wallMaskRev at this
  unfold wAt at this
  exact this

/-- Reading the grid after a closure: the `d` bit at `b` and the reverse bit
at the neighbour are cleared, every other bit of every cell is unchanged.
Hypotheses: in-bounds closure site, 4-bit values, symmetry (so that the
neighbour's reverse bit really was set and the subtraction is a bit-clear). -/
theorem closeWall_openb {n : Nat} {W : Mat} {b : Cell} {d : Dir}
    (hr : range16 W) (hs : symmetricW n W)
    (hb : inB n b) (hb' : inB n (cadd b d 1)) (ho : openb n W b d) :
    ∀ c, inB n c → ∀ d' : Dir,
      (openb n (closeWall n W b d) c d' ↔
        (openb n W c d' ∧ ¬(c = b ∧ d' = d) ∧
          ¬(c = cadd b d 1 ∧ d' = dirRev d))) := by
  intro c hc d'
  have hrev : openb n W (cadd b d 1) (dirRev d) :=
    (symmetricW_openb hs hb hb').mp ho
  have hvb := range16_wAt (n := n) hr b
  have hvb' := range16_wAt (n := n) hr (cadd b d 1)
  have hclb := clear_bit hvb.1 hvb.2 (wallMask_cases d) ho
  have hclb' := clear_bit hvb'.1 hvb'.2 (wallMask_cases (dirRev d)) hrev
  have hne : cadd b d 1 ≠ b := cadd_one_ne b d
  unfold openb
  rw [closeWall_wAt hb hb' hc]
  by_cases h1 : c = b
  · subst h1
    rw [if_pos rfl]
    by_cases h2 : d' = d
    · subst h2
      simp only [hclb.2.2.1]
      constructor
      · intro h; exact absurd h (by omega)
      · intro h; exact absurd ⟨by trivial, by trivial⟩ h.2.1
    · rw [hclb.2.2.2 (wallMask d') (wallMask_cases d')
        (fun hmm => h2 (wallMask_inj hmm))]
      constructor
      · intro h
        refine ⟨h, fun hcon => h2 hcon.2, fun hcon => ?_⟩
        exact hne.symm hcon.1
      · intro h; exact h.1
  · rw [if_neg h1]
    by_cases h2 : c = cadd b d 1
    · subst h2
      rw [if_pos rfl]
      by_cases h3 : d' = dirRev d
      · subst h3
        unfold wallMaskRev
        simp only [hclb'.2.2.1]
        constructor
        · intro h; exact absurd h (by omega)
        · intro h; exact absurd ⟨by trivial, by trivial⟩ h.2.2
      · unfold wallMaskRev
        rw [hclb'.2.2.2 (wallMask d') (wallMask_cases d')
          (fun hmm => h3 (wallMask_inj hmm))]
        constructor
        · intro h
          exact ⟨h, fun hcon => h1 hcon.1, fun hcon => h3 hcon.2⟩
        · intro h; exact h.1
    · rw [if_neg h2]
      constructor
      · intro h
        exact ⟨h, fun hcon => h1 hcon.1, fun hcon => h2 hcon.1⟩
      · intro h; exact h.1

theorem closeWall_range16 {n : Nat} {W : Mat} {b : Cell} {d : Dir}
    (hr : range16 W) (hs : symmetricW n W)
    (hb : inB n b) (hb' : inB n (cadd b d 1)) (ho : openb n W b d) :
    range16 (closeWall n W b d) := by
  have hrev : openb n W (cadd b d 1) (dirRev d) :=
    (symmetricW_openb hs hb hb').mp ho
  have hob : 0 < Int.land (W b.1.toNat b.2.toNat) (wallMask d) := by
    unfold openb wAt at ho
    rw [if_pos hb] at ho
    exact ho
  have hob' : 0 < Int.land (W (cadd b d 1).1.toNat (cadd b d 1).2.toNat)
      (wallMaskRev d) := by
    unfold openb wAt at hrev
    rw [if_pos hb'] at hrev
    unfold wallMaskRev
    exact hrev
  intro x y
  unfold closeWall
  by_cases hxy : x = b.1.toNat ∧ y = b.2.toNat
  · rw [if_pos hxy]
    obtain ⟨rfl, rfl⟩ := hxy
    have := clear_bit (hr _ _).1 (hr _ _).2 (wallMask_cases d) hob
    exact ⟨this.1, this.2.1⟩
  · rw [if_neg hxy]
    by_cases hxy' : x = (cadd b d 1).1.toNat ∧ y = (cadd b d 1).2.toNat
    · rw [if_pos hxy']
      obtain ⟨rfl, rfl⟩ := hxy'
      have := clear_bit (hr _ _).1 (hr _ _).2 (wallMask_cases (dirRev d))
        (by unfold wallMaskRev at hob'; exact hob')
      unfold wallMaskRev
      exact ⟨this.1, this.2.1⟩
    · rw [if_neg hxy']
      exact hr x y

theorem inB_natCast {n i j : Nat} (hi : i < n) (hj : j < n) :
    inB n ((i : Int), (j : Int)) := by
  refine ⟨?_, ?_, ?_, ?_⟩ <;> simp <;> omega

theorem openb_inB {n : Nat} {W : Mat} {c : Cell} (e : Dir) (hc : inB n c) :
    (openb n W c e ↔ 0 < Int.land (W c.1.toNat c.2.toNat) (wallMask e)) := by
  unfold openb wAt
  rw [if_pos hc]

/-- `symmetricW` in terms of the pure open-bit reads. -/
theorem symmetricW_iff {n : Nat} {W : Mat} :
    symmetricW n W ↔
      ∀ c : Cell, inB n c → ∀ e : Dir, inB n (cadd c e 1) →
        (openb n W c e ↔ openb n W (cadd c e 1) (dirRev e)) := by
  constructor
  · intro hs c hc e hc'
    exact symmetricW_openb hs hc hc'
  · intro h i hi j hj e hnb
    have hin : inB n ((i : Int), (j : Int)) := inB_natCast hi hj
    have h2 := h _ hin e hnb
    have e1 : (0 < Int.land (W i j) (wallMask e)) ↔
        openb n W ((i : Int), (j : Int)) e := by
      rw [openb_inB e hin]
      simp
    have e2 : openb n W (cadd ((i : Int), (j : Int)) e 1) (dirRev e) ↔
        0 < Int.land (wAt n W (cadd (⟨(i : Int), (j : Int)⟩ : Cell) e 1))
          (wallMaskRev e) := Iff.rfl
    exact e1.trans (h2.trans e2)

/-- `closedPerimeter` in terms of the pure open-bit reads. -/
theorem closedPerimeter_iff {n : Nat} {W : Mat} :
    closedPerimeter n W ↔
      ∀ c : Cell, inB n c → ∀ e : Dir, ¬ inB n (cadd c e 1) →
        ¬ openb n W c e := by
  constructor
  · intro hP c hc e hout hop
    exact absurd (openb_step_inB hP hc hop) hout
  · intro h i hi j hj e hnb
    have hin : inB n ((i : Int), (j : Int)) := inB_natCast hi hj
    have h2 := h _ hin e hnb
    rw [openb_inB e hin] at h2
    simp at h2
    omega

theorem dirRev_inj {d d' : Dir} (h : dirRev d = dirRev d') : d = d' := by
  cases d <;> cases d' <;> first | rfl | (exfalso; revert h; decide)

theorem closeWall_symmetric {n : Nat} {W : Mat} {b : Cell} {d : Dir}
    (hr : range16 W) (hs : symmetricW n W)
    (hb : inB n b) (hb' : inB n (cadd b d 1)) (ho : openb n W b d) :
    symmetricW n (closeWall n W b d) := by
  rw [symmetricW_iff]
  intro c hc e hc'
  have hchar := closeWall_openb hr hs hb hb' ho
  rw [hchar c hc e, hchar (cadd c e 1) hc' (dirRev e)]
  have hsym := (symmetricW_iff.mp hs) c hc e hc'
  constructor
  · rintro ⟨hop, hn1, hn2⟩
    refine ⟨hsym.mp hop, ?_, ?_⟩
    · rintro ⟨hcb, hde⟩
      refine hn2 ⟨?_, ?_⟩
      · rw [← hcb, ← hde]
        exact (cadd_rev c e).symm
      · rw [← hde, dirRev_dirRev]
    · rintro ⟨hcb, hde⟩
      refine hn1 ⟨?_, dirRev_inj hde⟩
      have hcr := cadd_rev c e
      rw [hcb, hde] at hcr
      rw [← hcr]
      exact cadd_rev b d
  · rintro ⟨hop, hn1, hn2⟩
    refine ⟨hsym.mpr hop, ?_, ?_⟩
    · rintro ⟨hcb, hde⟩
      subst hcb; subst hde
      exact hn2 ⟨rfl, rfl⟩
    · rintro ⟨hcb, hde⟩
      subst hcb; subst hde
      exact hn1 ⟨cadd_rev b d, dirRev_dirRev d⟩

theorem closeWall_perimeter {n : Nat} {W : Mat} {b : Cell} {d : Dir}
    (hr : range16 W) (hs : symmetricW n W) (hP : closedPerimeter n W)
    (hb : inB n b) (hb' : inB n (cadd b d 1)) (ho : openb n W b d) :
    closedPerimeter n (closeWall n W b d) := by
  rw [closedPerimeter_iff]
  intro c hc e hout hop
  have := ((closeWall_openb hr hs hb hb' ho) c hc e).mp hop
  exact (closedPerimeter_iff.mp hP) c hc e hout this.1

/-! ## Sensor fusion: effect of one sensor (claims C4, C7, C8) -/

theorem npIdx_some {dim : Nat} {i : Int} (h0 : 0 ≤ i) (h : i < dim) :
    npIdx dim i = some i.toNat := by
  unfold npIdx; rw [if_pos ⟨h0, h⟩]

theorem epure {α : Type} (a : α) : (pure a : Except String α) = .ok a := rfl

theorem setSliceRow_ok (rows cols : Nat) (A : Mat) (start stop j : Int)
    (v : Int) (jj : Nat) (hj : npIdx cols j = some jj) :
    setSliceRow rows cols A start stop j v =
      .ok (fun x y =>
        if sliceNorm rows start ≤ x ∧ x < sliceNorm rows stop ∧ y = jj then v
        else A x y) := by
  unfold setSliceRow; rw [hj]

theorem setSliceCol_ok (rows cols : Nat) (A : Mat) (i start stop : Int)
    (v : Int) (ii : Nat) (hi : npIdx rows i = some ii) :
    setSliceCol rows cols A i start stop v =
      .ok (fun x y =>
        if x = ii ∧ sliceNorm cols start ≤ y ∧ y < sliceNorm cols stop then v
        else A x y) := by
  unfold setSliceCol; rw [hi]

namespace Robot

theorem knownWrite_ok {n : Nat} {loc : Cell} (hloc : inB n loc)
    (kv kh : Mat) (d : Dir) (s : Int) :
    ∃ kv' kh', knownWrite n loc kv kh d s = .ok (kv', kh') ∧
      (∀ x y, kv' x y = kv x y ∨ kv' x y = 1) ∧
      (∀ x y, kh' x y = kh x y ∨ kh' x y = 1) ∧
      (∀ B C : Mat, (∀ x y, kv' x y = 1 → B x y = 1) →
        (∀ x y, kh' x y = 1 → C x y = 1) →
        knownWrite n loc B C d s = .ok (B, C)) := by
  obtain ⟨h1, h2, h3, h4⟩ := hloc
  cases d
  case r =>
    refine ⟨fun x y =>
        if sliceNorm (n+1) (loc.1+1) ≤ x ∧ x < sliceNorm (n+1) (loc.1+1+s+1) ∧
            y = loc.2.toNat then 1
        else kv x y,
      kh, ?_, ?_, fun x y => Or.inl rfl, ?_⟩
    · simp only [knownWrite]
      rw [setSliceRow_ok _ _ _ _ _ _ _ loc.2.toNat (npIdx_some h3 h4)]
      rfl
    · intro x y
      dsimp only
      split
      · exact Or.inr rfl
      · exact Or.inl rfl
    · intro B C hB hC
      simp only [knownWrite]
      rw [setSliceRow_ok _ _ _ _ _ _ _ loc.2.toNat (npIdx_some h3 h4)]
      simp only [ebind_ok, epure, Except.ok.injEq, Prod.mk.injEq]
      refine ⟨funext fun x => funext fun y => ?_, trivial⟩
      split
      · next hcond => exact (hB x y (by dsimp only; rw [if_pos hcond])).symm
      · rfl
  case l =>
    refine ⟨fun x y =>
        if sliceNorm (n+1) (loc.1 - s) ≤ x ∧ x < sliceNorm (n+1) (loc.1+1) ∧
            y = loc.2.toNat then 1
        else kv x y,
      kh, ?_, ?_, fun x y => Or.inl rfl, ?_⟩
    · simp only [knownWrite]
      rw [setSliceRow_ok _ _ _ _ _ _ _ loc.2.toNat (npIdx_some h3 h4)]
      rfl
    · intro x y
      dsimp only
      split
      · exact Or.inr rfl
      · exact Or.inl rfl
    · intro B C hB hC
      simp only [knownWrite]
      rw [setSliceRow_ok _ _ _ _ _ _ _ loc.2.toNat (npIdx_some h3 h4)]
      simp only [ebind_ok, epure, Except.ok.injEq, Prod.mk.injEq]
      refine ⟨funext fun x => funext fun y => ?_, trivial⟩
      split
      · next hcond => exact (hB x y (by dsimp only; rw [if_pos hcond])).symm
      · rfl
  case u =>
    refine ⟨kv, fun x y =>
        if x = loc.1.toNat ∧ sliceNorm (n+1) (loc.2+1) ≤ y ∧
            y < sliceNorm (n+1) (loc.2+1+s+1) then 1
        else kh x y,
      ?_, fun x y => Or.inl rfl, ?_, ?_⟩
    · simp only [knownWrite]
      rw [setSliceCol_ok _ _ _ _ _ _ _ loc.1.toNat (npIdx_some h1 h2)]
      rfl
    · intro x y
      dsimp only
      split
      · exact Or.inr rfl
      · exact Or.inl rfl
    · intro B C hB hC
      simp only [knownWrite]
      rw [setSliceCol_ok _ _ _ _ _ _ _ loc.1.toNat (npIdx_some h1 h2)]
      simp only [ebind_ok, epure, Except.ok.injEq, Prod.mk.injEq]
      refine ⟨trivial, funext fun x => funext fun y => ?_⟩
      split
      · next hcond => exact (hC x y (by dsimp only; rw [if_pos hcond])).symm
      · rfl
  case d =>
    refine ⟨kv, fun x y =>
        if x = loc.1.toNat ∧ sliceNorm (n+1) (loc.2 - s) ≤ y ∧
            y < sliceNorm (n+1) (loc.2+1) then 1
        else kh x y,
      ?_, fun x y => Or.inl rfl, ?_, ?_⟩
    · simp only [knownWrite]
      rw [setSliceCol_ok _ _ _ _ _ _ _ loc.1.toNat (npIdx_some h1 h2)]
      rfl
    · intro x y
      dsimp only
      split
      · exact Or.inr rfl
      · exact Or.inl rfl
    · intro B C hB hC
      simp only [knownWrite]
      rw [setSliceCol_ok _ _ _ _ _ _ _ loc.1.toNat (npIdx_some h1 h2)]
      simp only [ebind_ok, epure, Except.ok.injEq, Prod.mk.injEq]
      refine ⟨trivial, funext fun x => funext fun y => ?_⟩
      split
      · next hcond => exact (hC x y (by dsimp only; rw [if_pos hcond])).symm
      · rfl

/-- Effect of one sensor iteration of `__update_walls` on a well-formed robot
state: the believed grid either is unchanged (no new wall) or gets the
symmetric closure `closeWall` at the sensed wall cell; the window of affected
cells is appended exactly in the discovery case; the wall invariants are
preserved, the sensed bit is clear afterwards, bits are only ever cleared,
and the verified arrays only ever gain `1` entries. -/
theorem sensorStep_ok {n : Nat} {loc : Cell} (hloc : inB n loc) (st : UW)
    (hr : range16 st.walls) (hs : symmetricW n st.walls)
    (hP : closedPerimeter n st.walls)
    (d : Dir) (s : Int) (hwb : inB n (cadd loc d s)) :
    ∃ st', sensorStep n loc st d s = .ok st' ∧
      ((¬ openb n st.walls (cadd loc d s) d ∧ st'.walls = st.walls ∧
          st'.acc = st.acc) ∨
        (openb n st.walls (cadd loc d s) d ∧
          st'.walls = closeWall n st.walls (cadd loc d s) d ∧
          st'.acc = st.acc ++ walledWindow n (cadd loc d s) d)) ∧
      range16 st'.walls ∧ symmetricW n st'.walls ∧
      closedPerimeter n st'.walls ∧
      ¬ openb n st'.walls (cadd loc d s) d ∧
      (∀ c, inB n c → ∀ d' : Dir, openb n st'.walls c d' →
        openb n st.walls c d') ∧
      (∀ x y, st'.kv x y = st.kv x y ∨ st'.kv x y = 1) ∧
      (∀ x y, st'.kh x y = st.kh x y ∨ st'.kh x y = 1) ∧
      (∀ B C : Mat, (∀ x y, st'.kv x y = 1 → B x y = 1) →
        (∀ x y, st'.kh x y = 1 → C x y = 1) →
        knownWrite n loc B C d s = .ok (B, C)) := by
  obtain ⟨kv', kh', hkw, hkv, hkh, hreplay⟩ := knownWrite_ok hloc st.kv st.kh d s
  have hwb' : ((loc.1 + (dirMove d).1 * s, loc.2 + (dirMove d).2 * s) : Cell) =
      cadd loc d s := rfl
  by_cases hop : openb n st.walls (cadd loc d s) d
  · have hadj : inB n (cadd (cadd loc d s) d 1) := openb_step_inB hP hwb hop
    have hex := closeWall_exec (W := st.walls) hwb hadj
    rw [mget_wAt n st.walls _ hwb] at hex
    simp only [ebind_ok] at hex
    rw [mset_inB n st.walls _ _ hwb] at hex
    simp only [ebind_ok] at hex
    rw [mget_inB n _ _ hadj] at hex
    simp only [ebind_ok] at hex
    rw [mset_inB n _ _ _ hadj] at hex
    have hF := Except.ok.inj hex
    refine ⟨⟨closeWall n st.walls (cadd loc d s) d, kv', kh',
      st.acc ++ walledWindow n (cadd loc d s) d⟩, ?_, ?_, ?_, ?_, ?_, ?_, ?_,
      hkv, hkh, hreplay⟩
    · unfold sensorStep
      rw [hkw]
      simp only [ebind_ok]
      rw [hwb', mget_wAt n st.walls _ hwb]
      simp only [ebind_ok]
      rw [if_pos (by unfold openb at hop; exact hop)]
      rw [mset_inB n st.walls _ _ hwb]
      simp only [ebind_ok]
      rw [mget_inB n _ _ hadj]
      simp only [ebind_ok]
      rw [mset_inB n _ _ _ hadj]
      simp only [ebind_ok, epure, Except.ok.injEq]
      rw [hF]
    · exact Or.inr ⟨hop, rfl, rfl⟩
    · exact closeWall_range16 hr hs hwb hadj hop
    · exact closeWall_symmetric hr hs hwb hadj hop
    · exact closeWall_perimeter hr hs hP hwb hadj hop
    · intro hcon
      have := ((closeWall_openb hr hs hwb hadj hop) _ hwb d).mp hcon
      exact this.2.1 ⟨rfl, rfl⟩
    · intro c hc d' hcon
      exact (((closeWall_openb hr hs hwb hadj hop) c hc d').mp hcon).1
  · refine ⟨⟨st.walls, kv', kh', st.acc⟩, ?_, Or.inl ⟨hop, rfl, rfl⟩, hr, hs,
      hP, hop, fun c _ d' h => h, hkv, hkh, hreplay⟩
    unfold sensorStep
    rw [hkw]
    simp only [ebind_ok]
    rw [hwb', mget_wAt n st.walls _ hwb]
    simp only [ebind_ok]
    rw [if_neg (by unfold openb at hop; exact hop)]
    rfl

/-- A sensor iteration that discovers nothing and whose known-array write is
already saturated returns the state unchanged. -/
theorem sensorStep_noop {n : Nat} {loc : Cell} (st : UW) (d : Dir) (s : Int)
    (hwb : inB n (cadd loc d s))
    (hnw : knownWrite n loc st.kv st.kh d s = .ok (st.kv, st.kh))
    (hcl : ¬ openb n st.walls (cadd loc d s) d) :
    sensorStep n loc st d s = .ok st := by
  have hwb' : ((loc.1 + (dirMove d).1 * s, loc.2 + (dirMove d).2 * s) : Cell) =
      cadd loc d s := rfl
  unfold sensorStep
  rw [hnw]
  simp only [ebind_ok]
  rw [hwb', mget_wAt n st.walls _ hwb]
  simp only [ebind_ok]
  rw [if_neg (by unfold openb at hcl; exact hcl)]
  rfl

/-- **C8.** Feeding the same sensor reading twice at the same position and
heading: if the state is a well-formed robot state (4-bit believed grid,
symmetric, closed perimeter, in-bounds position and sensed wall cells), the
second `__update_walls` call returns an empty affected-cell list and leaves
the believed wall grid and both verified arrays unchanged. -/
theorem update_walls_idempotent {n : Nat} {walls kv kh : Mat} {loc : Cell}
    {heading : Dir} {s0 s1 s2 : Int} {d0 d1 d2 : Dir}
    (hds : dirSensors3 heading = (d0, d1, d2))
    (hloc : inB n loc)
    (hr : range16 walls) (hs : symmetricW n walls)
    (hP : closedPerimeter n walls)
    (hwb0 : inB n (cadd loc d0 s0)) (hwb1 : inB n (cadd loc d1 s1))
    (hwb2 : inB n (cadd loc d2 s2)) :
    ∀ st1, update_walls n walls kv kh loc heading (s0, s1, s2) = .ok st1 →
      update_walls n st1.walls st1.kv st1.kh loc heading (s0, s1, s2) =
        .ok ⟨st1.walls, st1.kv, st1.kh, []⟩ := by
  obtain ⟨stA, haeq, _, hrA, hsA, hPA, hclA, hmonA, hkvA, hkhA, hrepA⟩ :=
    sensorStep_ok hloc ⟨walls, kv, kh, []⟩ hr hs hP d0 s0 hwb0
  obtain ⟨stB, hbeq, _, hrB, hsB, hPB, hclB, hmonB, hkvB, hkhB, hrepB⟩ :=
    sensorStep_ok hloc stA hrA hsA hPA d1 s1 hwb1
  obtain ⟨stC, hceq, _, hrC, hsC, hPC, hclC, hmonC, hkvC, hkhC, hrepC⟩ :=
    sensorStep_ok hloc stB hrB hsB hPB d2 s2 hwb2
  have hcall1 : update_walls n walls kv kh loc heading (s0, s1, s2) =
      .ok stC := by
    unfold update_walls
    rw [hds]
    simp only [ebind_ok]
    rw [haeq]
    simp only [ebind_ok]
    rw [hbeq]
    simp only [ebind_ok]
    exact hceq
  intro st1 h1
  rw [hcall1] at h1
  obtain rfl : stC = st1 := Except.ok.inj h1
  -- the three sensed bits are all clear in the final grid
  have hcl0 : ¬ openb n stC.walls (cadd loc d0 s0) d0 := fun h =>
    hclA (hmonB _ hwb0 _ (hmonC _ hwb0 _ h))
  have hcl1 : ¬ openb n stC.walls (cadd loc d1 s1) d1 := fun h =>
    hclB (hmonC _ hwb1 _ h)
  -- the verified arrays dominate every intermediate state's ones
  have honeskvB : ∀ x y, stA.kv x y = 1 → stB.kv x y = 1 := by
    intro x y h
    rcases hkvB x y with h' | h' <;> rw [h'] <;> first | exact h | rfl
  have honeskvC : ∀ x y, stB.kv x y = 1 → stC.kv x y = 1 := by
    intro x y h
    rcases hkvC x y with h' | h' <;> rw [h'] <;> first | exact h | rfl
  have honeskhB : ∀ x y, stA.kh x y = 1 → stB.kh x y = 1 := by
    intro x y h
    rcases hkhB x y with h' | h' <;> rw [h'] <;> first | exact h | rfl
  have honeskhC : ∀ x y, stB.kh x y = 1 → stC.kh x y = 1 := by
    intro x y h
    rcases hkhC x y with h' | h' <;> rw [h'] <;> first | exact h | rfl
  -- replay of all three known-array writes is the identity on the final state
  have hrep0 : knownWrite n loc stC.kv stC.kh d0 s0 = .ok (stC.kv, stC.kh) :=
    hrepA _ _ (fun x y h => honeskvC x y (honeskvB x y h))
      (fun x y h => honeskhC x y (honeskhB x y h))
  have hrep1 : knownWrite n loc stC.kv stC.kh d1 s1 = .ok (stC.kv, stC.kh) :=
    hrepB _ _ (fun x y h => honeskvC x y h) (fun x y h => honeskhC x y h)
  have hrep2 : knownWrite n loc stC.kv stC.kh d2 s2 = .ok (stC.kv, stC.kh) :=
    hrepC _ _ (fun x y h => h) (fun x y h => h)
  unfold update_walls
  rw [hds]
  simp only [ebind_ok]
  rw [sensorStep_noop ⟨stC.walls, stC.kv, stC.kh, []⟩ d0 s0 hwb0 hrep0 hcl0]
  simp only [ebind_ok]
  rw [sensorStep_noop ⟨stC.walls, stC.kv, stC.kh, []⟩ d1 s1 hwb1 hrep1 hcl1]
  simp only [ebind_ok]
  exact sensorStep_noop ⟨stC.walls, stC.kv, stC.kh, []⟩ d2 s2 hwb2 hrep2 hclC

end Robot

/-- A 2×2 grid forming the cycle `(0,0)-(0,1)-(1,1)-(1,0)-(0,0)`
(symmetric, closed perimeter, 4-bit values). -/
def wCycle2 : Mat := fun i j =>
  if i = 0 ∧ j = 0 then 3
  else if i = 0 ∧ j = 1 then 6
  else if i = 1 ∧ j = 1 then 12
  else if i = 1 ∧ j = 0 then 9
  else 0

/-- The all-zero array. -/
def mat0 : Mat := fun _ _ => 0

/-- Extract the `.ok` payload of an `__update_walls` run. -/
def getOkUW (e : Except String Robot.UW) : Robot.UW :=
  match e with
  | .ok s => s
  | .error _ => ⟨mat0, mat0, mat0, []⟩

theorem range16_wCycle2 : range16 wCycle2 := by
  intro x y
  unfold wCycle2
  split_ifs <;> decide

/-- The state after one `__update_walls` call at the origin of `wCycle2`,
heading up, all three sensor readings `0` (discovering the walls right at the
up and right sides). -/
def c8state : Robot.UW :=
  getOkUW (Robot.update_walls 2 wCycle2 mat0 mat0 ((0:Int), (0:Int)) Dir.u
    ((0:Int), (0:Int), (0:Int)))

/-- Witness for C8 at a concrete state with two actual wall discoveries. -/
theorem update_walls_idempotent_witness :
    Robot.update_walls 2 c8state.walls c8state.kv c8state.kh
        ((0:Int), (0:Int)) Dir.u ((0:Int), (0:Int), (0:Int)) =
      .ok ⟨c8state.walls, c8state.kv, c8state.kh, []⟩ :=
  Robot.update_walls_idempotent rfl (by decide) range16_wCycle2 (by decide)
    (by decide) (by decide) (by decide) (by decide) c8state rfl

/-! ## Wall symmetry through the generator's trial-and-rollback (claim C4) -/

/-- The rollback (`walls[box] += wall_mask[d]; walls[next_box] +=
wall_mask_rev[d]`) applied after the tentative closure restores the original
array exactly. -/
theorem reopen_exec {n : Nat} {W : Mat} {b : Cell} {d : Dir}
    (hb : inB n b) (hb' : inB n (cadd b d 1)) :
    (do
      let bv ← mget n n (closeWall n W b d) b
      let w3 ← mset n n (closeWall n W b d) b (bv + wallMask d)
      let nv2 ← mget n n w3 (cadd b d 1)
      mset n n w3 (cadd b d 1) (nv2 + wallMaskRev d) :
        Except String Mat) = .ok W := by
  have hne : ¬((cadd b d 1).1.toNat = b.1.toNat ∧
      (cadd b d 1).2.toNat = b.2.toNat) := by
    intro hcon
    exact cadd_one_ne b d ((inB_eq_iff_toNat hb' hb).mp hcon)
  rw [mget_inB n _ b hb]
  simp only [ebind_ok]
  rw [mset_inB n _ b _ hb]
  simp only [ebind_ok]
  rw [mget_inB n _ (cadd b d 1) hb']
  simp only [ebind_ok]
  rw [mset_inB n _ (cadd b d 1) _ hb']
  simp only [Except.ok.injEq]
  funext x y
  by_cases hx : x = (cadd b d 1).1.toNat ∧ y = (cadd b d 1).2.toNat
  · obtain ⟨rfl, rfl⟩ := hx
    rw [if_pos ⟨rfl, rfl⟩, if_neg hne]
    unfold closeWall
    rw [if_neg hne, if_pos ⟨rfl, rfl⟩]
    ring
  · rw [if_neg hx]
    by_cases hxb : x = b.1.toNat ∧ y = b.2.toNat
    · obtain ⟨rfl, rfl⟩ := hxb
      rw [if_pos ⟨rfl, rfl⟩]
      unfold closeWall
      rw [if_pos ⟨rfl, rfl⟩]
      ring
    · rw [if_neg hxb]
      unfold closeWall
      rw [if_neg hxb, if_neg hx]

theorem ebind_err {α β : Type} (e : String) (f : α → Except String β) :
    (Except.error e >>= f : Except String β) = .error e := rfl

theorem bitsAt_clear {v m : Int} (hv0 : 0 ≤ v) (hv : v < 16)
    (hm : m = 1 ∨ m = 2 ∨ m = 4 ∨ m = 8) (h : 0 < Int.land v m) :
    MCM.bitsAt (v - m) + 1 = MCM.bitsAt v := by
  rcases hm with rfl | rfl | rfl | rfl <;> interval_cases v <;>
    first
      | (exfalso; revert h; decide)
      | decide

/-- Closing one wall removes exactly two open bits from the grid. -/
theorem openCount_closeWall {n : Nat} {W : Mat} {b : Cell} {d : Dir}
    (hr : range16 W) (hs : symmetricW n W)
    (hb : inB n b) (hb' : inB n (cadd b d 1)) (ho : openb n W b d) :
    MCM.openCount n (closeWall n W b d) + 2 = MCM.openCount n W := by
  have hrev : openb n W (cadd b d 1) (dirRev d) :=
    (symmetricW_openb hs hb hb').mp ho
  set pb : Nat × Nat := (b.1.toNat, b.2.toNat) with hpb
  set pb' : Nat × Nat := ((cadd b d 1).1.toNat, (cadd b d 1).2.toNat) with hpb'
  have hbmem : pb ∈ Finset.range n ×ˢ Finset.range n := by
    obtain ⟨h1, h2, h3, h4⟩ := hb
    simp [hpb, Finset.mem_product]
    omega
  have hbmem' : pb' ∈ Finset.range n ×ˢ Finset.range n := by
    obtain ⟨h1, h2, h3, h4⟩ := hb'
    simp [hpb', Finset.mem_product]
    omega
  have hne : pb' ≠ pb := by
    intro hcon
    apply cadd_one_ne b d
    apply (inB_eq_iff_toNat hb' hb).mp
    rw [hpb, hpb'] at hcon
    exact ⟨congrArg Prod.fst hcon, congrArg Prod.snd hcon⟩
  have hob : 0 < Int.land (W pb.1 pb.2) (wallMask d) := by
    unfold openb wAt at ho
    rw [if_pos hb] at ho
    exact ho
  have hob' : 0 < Int.land (W pb'.1 pb'.2) (wallMask (dirRev d)) := by
    unfold openb wAt at hrev
    rw [if_pos hb'] at hrev
    exact hrev
  unfold MCM.openCount
  rw [← Finset.sum_erase_add _ _ hbmem, ← Finset.sum_erase_add _ _
    (Finset.mem_erase.mpr ⟨hne, hbmem'⟩),
    ← Finset.sum_erase_add _ (fun p => MCM.bitsAt (W p.1 p.2)) hbmem,
    ← Finset.sum_erase_add _ (fun p => MCM.bitsAt (W p.1 p.2))
      (Finset.mem_erase.mpr ⟨hne, hbmem'⟩)]
  have hsame : ∀ p ∈ ((Finset.range n ×ˢ Finset.range n).erase pb).erase pb',
      MCM.bitsAt (closeWall n W b d p.1 p.2) = MCM.bitsAt (W p.1 p.2) := by
    intro p hp
    have hp1 := Finset.ne_of_mem_erase hp
    have hp2 := Finset.ne_of_mem_erase (Finset.mem_of_mem_erase hp)
    unfold closeWall
    rw [if_neg, if_neg]
    · intro hcon
      exact hp1 (Prod.ext hcon.1 hcon.2)
    · intro hcon
      exact hp2 (Prod.ext hcon.1 hcon.2)
  rw [Finset.sum_congr rfl hsame]
  have hvb : closeWall n W b d pb.1 pb.2 = W pb.1 pb.2 - wallMask d := by
    unfold closeWall
    rw [if_pos ⟨rfl, rfl⟩]
  have hvb' : closeWall n W b d pb'.1 pb'.2 =
      W pb'.1 pb'.2 - wallMaskRev d := by
    unfold closeWall
    rw [if_neg, if_pos ⟨rfl, rfl⟩]
    intro hcon
    exact hne (Prod.ext hcon.1 hcon.2)
  rw [hvb, hvb']
  have e1 := bitsAt_clear (hr pb.1 pb.2).1 (hr pb.1 pb.2).2 (wallMask_cases d)
    hob
  have e2 := bitsAt_clear (hr pb'.1 pb'.2).1 (hr pb'.1 pb'.2).2
    (wallMask_cases (dirRev d)) hob'
  unfold wallMaskRev
  omega

namespace MCM

/-- Invariants and bookkeeping through `add_one_wall`: the returned grid keeps
the 4-bit/symmetry/perimeter invariants; on failure it is the input grid
(every rejected attempt is rolled back exactly); on success it is the input
grid after one accepted symmetric closure, has exactly two fewer open bits,
and passed the reachability check `flooding(...) >= 0`. -/
theorem add_one_wall_go_inv {n : Nat} (hn : 0 < n) (target : List Cell)
    (rng : Nat → Nat) :
    ∀ (att : Nat) (w : Mat) (k : Nat),
      range16 w → symmetricW n w → closedPerimeter n w →
      ∀ res, add_one_wall_go n target rng w att k = .ok res →
        range16 res.2.1 ∧ symmetricW n res.2.1 ∧ closedPerimeter n res.2.1 ∧
        (res.1 = false → res.2.1 = w) ∧
        (res.1 = true →
          openCount n res.2.1 + 2 = openCount n w ∧
          ∃ fmin : Int, flooding n res.2.1 target = .ok fmin ∧ 0 ≤ fmin) := by
  intro att
  induction att with
  | zero =>
    intro w k hr hs hP res heq
    unfold add_one_wall_go at heq
    obtain rfl := Except.ok.inj heq
    exact ⟨hr, hs, hP, fun _ => rfl, fun hcon => nomatch hcon⟩
  | succ att ih =>
    intro w k hr hs hP res heq
    unfold add_one_wall_go at heq
    dsimp only [] at heq
    have hbin : inB n (((rng k % n : Nat) : Int), ((rng (k+1) % n : Nat) : Int)) :=
      inB_natCast (Nat.mod_lt _ hn) (Nat.mod_lt _ hn)
    set box : Cell := (((rng k % n : Nat) : Int), ((rng (k+1) % n : Nat) : Int))
      with hboxdef
    set d0 : Dir := chooseDirM (rng (k+2)) with hd0def
    rw [mget_wAt n w box hbin] at heq
    simp only [ebind_ok] at heq
    by_cases hop : openb n w box d0
    · have hadj : inB n (cadd box d0 1) := openb_step_inB hP hbin hop
      rw [if_pos (by unfold openb at hop; exact hop)] at heq
      have hex := closeWall_exec (W := w) hbin hadj
      rw [mget_wAt n w box hbin] at hex
      simp only [ebind_ok] at hex
      rw [mset_inB n w box _ hbin] at hex
      simp only [ebind_ok] at hex
      rw [mget_inB n _ _ hadj] at hex
      simp only [ebind_ok] at hex
      rw [mset_inB n _ _ _ hadj] at hex
      have hF := Except.ok.inj hex
      rw [mset_inB n w box _ hbin] at heq
      simp only [ebind_ok] at heq
      rw [mget_inB n _ _ hadj] at heq
      simp only [ebind_ok] at heq
      rw [mset_inB n _ _ _ hadj] at heq
      simp only [ebind_ok] at heq
      rw [hF] at heq
      cases hfl : flooding n (closeWall n w box d0) target with
      | error e =>
        rw [hfl, ebind_err] at heq
        cases heq
      | ok fmin =>
        rw [hfl] at heq
        simp only [ebind_ok] at heq
        by_cases hge : 0 ≤ fmin
        · rw [if_pos hge] at heq
          obtain rfl := Except.ok.inj heq
          refine ⟨closeWall_range16 hr hs hbin hadj hop,
            closeWall_symmetric hr hs hbin hadj hop,
            closeWall_perimeter hr hs hP hbin hadj hop, ?_, ?_⟩
          · intro hcon
            simp at hcon
          · intro _
            exact ⟨openCount_closeWall hr hs hbin hadj hop, fmin, hfl, hge⟩
        · rw [if_neg hge] at heq
          have hex2 := reopen_exec (W := w) hbin hadj
          rw [mget_inB n _ box hbin] at hex2
          simp only [ebind_ok] at hex2
          rw [mset_inB n _ box _ hbin] at hex2
          simp only [ebind_ok] at hex2
          rw [mget_inB n _ _ hadj] at hex2
          simp only [ebind_ok] at hex2
          rw [mset_inB n _ _ _ hadj] at hex2
          have hR := Except.ok.inj hex2
          rw [mget_inB n _ box hbin] at heq
          simp only [ebind_ok] at heq
          rw [mset_inB n _ box _ hbin] at heq
          simp only [ebind_ok] at heq
          rw [mget_inB n _ _ hadj] at heq
          simp only [ebind_ok] at heq
          rw [mset_inB n _ _ _ hadj] at heq
          simp only [ebind_ok] at heq
          rw [hR] at heq
          exact ih w (k+3) hr hs hP res heq
    · rw [if_neg (by unfold openb at hop; exact hop)] at heq
      exact ih w (k+3) hr hs hP res heq

end MCM

/-- **C4.** Every wall mutation preserves the wall-symmetry invariant: on a
well-formed grid (4-bit values, symmetric, closed perimeter), the grid
returned by `add_one_wall` — after any sequence of committed or
exactly-rolled-back closure attempts — is symmetric, and the believed grid
returned by `Robot.__update_walls` — after the wall discoveries it applies —
is symmetric: for adjacent cells A, B across a direction d the open bit for
d on A agrees with the reverse bit on B. -/
theorem wall_mutations_preserve_symmetry {n : Nat} (hn : 0 < n)
    (w : Mat) (hr : range16 w) (hs : symmetricW n w)
    (hP : closedPerimeter n w) :
    (∀ (target : List Cell) (attempt : Nat) (rng : Nat → Nat) (k : Nat) res,
      MCM.add_one_wall n w target attempt rng k = .ok res →
        symmetricW n res.2.1) ∧
    (∀ (kv kh : Mat) (loc : Cell) (heading : Dir) (s0 s1 s2 : Int)
        (d0 d1 d2 : Dir),
      Robot.dirSensors3 heading = (d0, d1, d2) → inB n loc →
      inB n (cadd loc d0 s0) → inB n (cadd loc d1 s1) →
      inB n (cadd loc d2 s2) →
      ∀ st1, Robot.update_walls n w kv kh loc heading (s0, s1, s2) =
          .ok st1 →
        symmetricW n st1.walls) := by
  constructor
  · intro target attempt rng k res heq
    exact (MCM.add_one_wall_go_inv hn target rng attempt w k hr hs hP
      res heq).2.1
  · intro kv kh loc heading s0 s1 s2 d0 d1 d2 hds hloc hwb0 hwb1 hwb2 st1 h1
    obtain ⟨stA, haeq, _, hrA, hsA, hPA, _, _, _, _, _⟩ :=
      Robot.sensorStep_ok hloc ⟨w, kv, kh, []⟩ hr hs hP d0 s0 hwb0
    obtain ⟨stB, hbeq, _, hrB, hsB, hPB, _, _, _, _, _⟩ :=
      Robot.sensorStep_ok hloc stA hrA hsA hPA d1 s1 hwb1
    obtain ⟨stC, hceq, _, _, hsC, _, _, _, _, _, _⟩ :=
      Robot.sensorStep_ok hloc stB hrB hsB hPB d2 s2 hwb2
    have hcall : Robot.update_walls n w kv kh loc heading (s0, s1, s2) =
        .ok stC := by
      unfold Robot.update_walls
      rw [hds]
      simp only [ebind_ok]
      rw [haeq]
      simp only [ebind_ok]
      rw [hbeq]
      simp only [ebind_ok]
      exact hceq
    rw [hcall] at h1
    obtain rfl := Except.ok.inj h1
    exact hsC

/-- The all-zero random stream (models one fixed seed). -/
def rng0 : Nat → Nat := fun _ => 0

/-! ## The affected-cell window of `__update_walls` (claim C7) -/

/-- Geometric description of `walledWindow`: the in-bounds cells at offsets
`-(max_moves-1) .. max_moves` from the walled box along the sensing
direction — i.e. the cells within ±`max_moves` of the wall segment between
`wb` and `wb + d`. -/
theorem walledWindow_mem {n : Nat} (wb : Cell) (d : Dir) (c : Cell) :
    c ∈ Robot.walledWindow n wb d ↔
      (inB n c ∧ ∃ m : Int, -((maxMoves : Int) - 1) ≤ m ∧ m ≤ (maxMoves : Int)
        ∧ c = cadd wb d m) := by
  unfold Robot.walledWindow
  rw [List.mem_filterMap]
  constructor
  · rintro ⟨m, hm, hf⟩
    dsimp only at hf
    by_cases hcond : max (cadd wb d m).1 (cadd wb d m).2 < (n : Int) ∧
        0 ≤ min (cadd wb d m).1 (cadd wb d m).2
    · rw [if_pos hcond] at hf
      obtain rfl := Option.some.inj hf
      have hin : inB n (cadd wb d m) := by
        obtain ⟨hlt, hge⟩ := hcond
        rw [max_lt_iff] at hlt
        rw [le_min_iff] at hge
        exact ⟨hge.1, hlt.1, hge.2, hlt.2⟩
      refine ⟨hin, m, ?_, ?_, rfl⟩ <;>
        first
          | (fin_cases hm <;> norm_num [maxMoves])
    · rw [if_neg hcond] at hf
      cases hf
  · rintro ⟨hin, m, hm1, hm2, rfl⟩
    refine ⟨m, ?_, ?_⟩
    · have : m = 3 ∨ m = 2 ∨ m = 1 ∨ m = 0 ∨ m = -1 ∨ m = -2 := by
        unfold maxMoves at hm1 hm2
        omega
      rcases this with rfl | rfl | rfl | rfl | rfl | rfl <;> decide
    · dsimp only
      rw [if_pos]
      obtain ⟨h1, h2, h3, h4⟩ := hin
      exact ⟨max_lt_iff.mpr ⟨h2, h4⟩, le_min_iff.mpr ⟨h1, h3⟩⟩

/-- **C7.** For a call to `__update_walls` on a well-formed robot state with
in-bounds sensed wall cells, the returned affected-cell list is exactly the
concatenation, over the sensors that discovered a new wall (their sensed cell
still had its open bit in the believed grid at that point of the call), of
the in-bounds cells lying within ±`max_moves` of that wall along the sensing
direction; a call that discovers no new wall returns the empty list. -/
theorem update_walls_affected {n : Nat} {walls kv kh : Mat} {loc : Cell}
    {heading : Dir} {s0 s1 s2 : Int} {d0 d1 d2 : Dir}
    (hds : Robot.dirSensors3 heading = (d0, d1, d2))
    (hloc : inB n loc)
    (hr : range16 walls) (hs : symmetricW n walls)
    (hP : closedPerimeter n walls)
    (hwb0 : inB n (cadd loc d0 s0)) (hwb1 : inB n (cadd loc d1 s1))
    (hwb2 : inB n (cadd loc d2 s2)) :
    ∀ st1, Robot.update_walls n walls kv kh loc heading (s0, s1, s2) =
        .ok st1 →
      ∀ W1 W2 : Mat,
        W1 = (if openb n walls (cadd loc d0 s0) d0 then
          closeWall n walls (cadd loc d0 s0) d0 else walls) →
        W2 = (if openb n W1 (cadd loc d1 s1) d1 then
          closeWall n W1 (cadd loc d1 s1) d1 else W1) →
        st1.acc =
          (if openb n walls (cadd loc d0 s0) d0 then
            Robot.walledWindow n (cadd loc d0 s0) d0 else []) ++
          (if openb n W1 (cadd loc d1 s1) d1 then
            Robot.walledWindow n (cadd loc d1 s1) d1 else []) ++
          (if openb n W2 (cadd loc d2 s2) d2 then
            Robot.walledWindow n (cadd loc d2 s2) d2 else []) ∧
        (∀ c wb : Cell, ∀ dd : Dir, c ∈ Robot.walledWindow n wb dd ↔
          (inB n c ∧ ∃ m : Int, -((maxMoves : Int) - 1) ≤ m ∧
            m ≤ (maxMoves : Int) ∧ c = cadd wb dd m)) ∧
        ((¬ openb n walls (cadd loc d0 s0) d0 ∧
          ¬ openb n W1 (cadd loc d1 s1) d1 ∧
          ¬ openb n W2 (cadd loc d2 s2) d2) → st1.acc = []) := by
  intro st1 h1 W1 W2 hW1 hW2
  obtain ⟨stA, haeq, hcaseA, hrA, hsA, hPA, _, _, _, _, _⟩ :=
    Robot.sensorStep_ok hloc ⟨walls, kv, kh, []⟩ hr hs hP d0 s0 hwb0
  have hA : stA.walls = W1 ∧ stA.acc =
      (if openb n walls (cadd loc d0 s0) d0 then
        Robot.walledWindow n (cadd loc d0 s0) d0 else []) := by
    rcases hcaseA with ⟨hno, hw, ha⟩ | ⟨hyes, hw, ha⟩
    · rw [hW1, if_neg hno]
      exact ⟨hw, by rw [ha]; rw [if_neg hno]⟩
    · rw [hW1, if_pos hyes]
      exact ⟨hw, by rw [ha, if_pos hyes]; exact List.nil_append _⟩
  obtain ⟨stB, hbeq, hcaseB, hrB, hsB, hPB, _, _, _, _, _⟩ :=
    Robot.sensorStep_ok hloc stA hrA hsA hPA d1 s1 hwb1
  have hB : stB.walls = W2 ∧ stB.acc = stA.acc ++
      (if openb n W1 (cadd loc d1 s1) d1 then
        Robot.walledWindow n (cadd loc d1 s1) d1 else []) := by
    rcases hcaseB with ⟨hno, hw, ha⟩ | ⟨hyes, hw, ha⟩
    · rw [hA.1] at hno
      refine ⟨by rw [hW2, if_neg hno, hw, hA.1], ?_⟩
      rw [ha, if_neg hno, List.append_nil]
    · rw [hA.1] at hyes
      refine ⟨by rw [hW2, if_pos hyes, hw, hA.1], ?_⟩
      rw [ha, if_pos hyes]
  obtain ⟨stC, hceq, hcaseC, _, _, _, _, _, _, _, _⟩ :=
    Robot.sensorStep_ok hloc stB hrB hsB hPB d2 s2 hwb2
  have hC : stC.acc = stB.acc ++
      (if openb n W2 (cadd loc d2 s2) d2 then
        Robot.walledWindow n (cadd loc d2 s2) d2 else []) := by
    rcases hcaseC with ⟨hno, _, ha⟩ | ⟨hyes, _, ha⟩
    · rw [hB.1] at hno
      rw [ha, if_neg hno, List.append_nil]
    · rw [hB.1] at hyes
      rw [ha, if_pos hyes]
  have hcall : Robot.update_walls n walls kv kh loc heading (s0, s1, s2) =
      .ok stC := by
    unfold Robot.update_walls
    rw [hds]
    simp only [ebind_ok]
    rw [haeq]
    simp only [ebind_ok]
    rw [hbeq]
    simp only [ebind_ok]
    exact hceq
  rw [hcall] at h1
  obtain rfl := Except.ok.inj h1
  refine ⟨?_, fun c wb dd => walledWindow_mem wb dd c, ?_⟩
  · rw [hC, hB.2, hA.2, List.append_assoc]
  · rintro ⟨h0, h1', h2'⟩
    rw [hC, hB.2, hA.2, if_neg h0, if_neg h1', if_neg h2']
    rfl

/-- Witness for C7: two wall discoveries on the fully open 2×2 grid. -/
theorem update_walls_affected_witness :
    c8state.acc =
      (if openb 2 wCycle2 ((0:Int), (0:Int)) Dir.l then
        Robot.walledWindow 2 ((0:Int), (0:Int)) Dir.l else []) ++
      (if openb 2 wCycle2 ((0:Int), (0:Int)) Dir.u then
        Robot.walledWindow 2 ((0:Int), (0:Int)) Dir.u else []) ++
      (if openb 2 (closeWall 2 wCycle2 ((0:Int), (0:Int)) Dir.u)
          ((0:Int), (0:Int)) Dir.r then
        Robot.walledWindow 2 ((0:Int), (0:Int)) Dir.r else []) ∧
    (∀ c wb : Cell, ∀ dd : Dir, c ∈ Robot.walledWindow 2 wb dd ↔
      (inB 2 c ∧ ∃ m : Int, -((maxMoves : Int) - 1) ≤ m ∧
        m ≤ (maxMoves : Int) ∧ c = cadd wb dd m)) ∧
    ((¬ openb 2 wCycle2 ((0:Int), (0:Int)) Dir.l ∧
      ¬ openb 2 wCycle2 ((0:Int), (0:Int)) Dir.u ∧
      ¬ openb 2 (closeWall 2 wCycle2 ((0:Int), (0:Int)) Dir.u)
          ((0:Int), (0:Int)) Dir.r) → c8state.acc = []) := by
  have h := @update_walls_affected 2 wCycle2 mat0 mat0 ((0:Int), (0:Int))
    Dir.u 0 0 0 Dir.l Dir.u Dir.r rfl (by decide) range16_wCycle2 (by decide)
    (by decide) (by decide) (by decide) (by decide) c8state rfl
    (if openb 2 wCycle2 ((0:Int), (0:Int)) Dir.l then
      closeWall 2 wCycle2 ((0:Int), (0:Int)) Dir.l else wCycle2)
    _ rfl rfl
  have hLneg : ¬ openb 2 wCycle2 ((0:Int), (0:Int)) Dir.l := by decide
  rw [if_neg hLneg] at h
  convert h using 4 <;> rw [if_neg hLneg]

/-! ## Move selection (claim C5)

Pure counterparts of `__explore` and of the `possibilities` loop of
`__calculate_next_move`, which coincide with the executable versions under
the closed-perimeter invariant (all reads in bounds). -/

namespace Robot

/-- Pure counterpart of `exploreGo` (reads through `flAt`/`wAt`). -/
def exploreGoP (n : Nat) (W fl : Mat) (loc : Cell) (d : Dir) :
    Nat → Nat → Int → Nat → Int × Nat
  | 0, _, nd, st => (nd, st)
  | fuel+1, s, nd, st =>
    let box := cadd loc d s
    let fv := flAt n fl box
    let nd' := if fv ≤ nd then fv else nd
    let st' := if fv ≤ nd then s else st
    if Int.land (wAt n W box) (wallMask d) ≤ 0 then (nd', st')
    else exploreGoP n W fl loc d fuel (s+1) nd' st'

/-- Pure counterpart of `__explore`. -/
def exploreP (n : Nat) (W fl : Mat) (loc : Cell) (d : Dir) (mx : Nat) :
    Int × Nat :=
  exploreGoP n W fl loc d (mx+1) 0 (flAt n fl loc) 0

theorem exploreGo_eq_P {n : Nat} {W fl : Mat} (hP : closedPerimeter n W)
    {loc : Cell} (d : Dir) :
    ∀ (fuel s : Nat), inB n (cadd loc d (s : Int)) → ∀ (nd : Int) (st : Nat),
      exploreGo n W fl loc d fuel s nd st =
        .ok (exploreGoP n W fl loc d fuel s nd st) := by
  intro fuel
  induction fuel with
  | zero => intro s _ nd st; rfl
  | succ fuel ih =>
    intro s hs nd st
    unfold exploreGo exploreGoP
    dsimp only
    rw [mget_flAt n fl _ hs]
    simp only [ebind_ok]
    rw [mget_wAt n W _ hs]
    simp only [ebind_ok]
    by_cases hcl : Int.land (wAt n W (cadd loc d (s : Int))) (wallMask d) ≤ 0
    · rw [if_pos hcl, if_pos hcl]
    · rw [if_neg hcl, if_neg hcl]
      have hop : openb n W (cadd loc d (s : Int)) d := by
        unfold openb; omega
      have hnb : inB n (cadd loc d ((s+1 : Nat) : Int)) := by
        have := openb_step_inB hP hs hop
        rw [cadd_cadd] at this
        have hc : ((s : Int) + 1) = ((s+1 : Nat) : Int) := by push_cast; ring
        rwa [hc] at this
      exact ih (s+1) hnb _ _

theorem explore_eq_P {n : Nat} {W fl : Mat} (hP : closedPerimeter n W)
    {loc : Cell} (hloc : inB n loc) (d : Dir) (mx : Nat) :
    explore n W fl loc d mx = .ok (exploreP n W fl loc d mx) := by
  unfold explore exploreP
  rw [mget_flAt n fl loc hloc]
  simp only [ebind_ok]
  exact exploreGo_eq_P hP d (mx+1) 0 (by simpa using hloc) _ _

/-- A direction whose best move is zero-length did not improve on the start
value: `steps = 0` forces `new_dist = flood[start]`. -/
theorem exploreGoP_zero_steps {n : Nat} {W fl : Mat} {loc : Cell} {d : Dir} :
    ∀ (fuel s : Nat) (nd : Int) (st : Nat),
      (st = 0 → nd = flAt n fl loc) → (0 < s) →
      ((exploreGoP n W fl loc d fuel s nd st).2 = 0 →
        (exploreGoP n W fl loc d fuel s nd st).1 = flAt n fl loc) := by
  intro fuel
  induction fuel with
  | zero => intro s nd st hinv _ h0; exact hinv h0
  | succ fuel ih =>
    intro s nd st hinv hs
    unfold exploreGoP
    dsimp only
    by_cases hle : flAt n fl (cadd loc d (s : Int)) ≤ nd
    · rw [if_pos hle, if_pos hle]
      split
      · intro h0
        exact absurd h0.symm (by omega)
      · exact ih (s+1) _ _ (fun h0 => absurd h0.symm (by omega)) (by omega)
    · rw [if_neg hle, if_neg hle]
      split
      · intro h0
        exact hinv h0
      · exact ih (s+1) _ _ hinv (by omega)

/-- Pure counterpart of the `possibilities` loop of `__calculate_next_move`,
with the per-direction explore outcome abstracted as `E`. -/
def possLoopP (E : Dir → Int × Nat) :
    List Dir → Int → List (Int × Nat × Dir) → Int × List (Int × Nat × Dir)
  | [], nd, ps => (nd, ps)
  | dd :: ds, nd, ps =>
    if (E dd).1 < nd then possLoopP E ds (E dd).1 [((E dd).1, (E dd).2, dd)]
    else if (E dd).1 = nd ∧ 0 < (E dd).2 then
      possLoopP E ds nd (ps ++ [((E dd).1, (E dd).2, dd)])
    else possLoopP E ds nd ps

theorem possLoop_eq_P {n : Nat} {W fl : Mat} (hP : closedPerimeter n W)
    {loc : Cell} (hloc : inB n loc) :
    ∀ (ds : List Dir) (nd : Int) (ps : List (Int × Nat × Dir)),
      possLoop n W fl loc ds nd ps =
        .ok (possLoopP (fun dd => exploreP n W fl loc dd maxMoves) ds nd ps) := by
  intro ds
  induction ds with
  | nil => intro nd ps; rfl
  | cons dd ds ih =>
    intro nd ps
    unfold possLoop possLoopP
    rw [explore_eq_P hP hloc dd maxMoves]
    simp only [ebind_ok]
    by_cases h1 : (exploreP n W fl loc dd maxMoves).1 < nd
    · rw [if_pos h1, if_pos h1]
      exact ih _ _
    · rw [if_neg h1, if_neg h1]
      by_cases h2 : (exploreP n W fl loc dd maxMoves).1 = nd ∧
          0 < (exploreP n W fl loc dd maxMoves).2
      · rw [if_pos h2, if_pos h2]
        exact ih _ _
      · rw [if_neg h2, if_neg h2]
        exact ih _ _

/-- Behaviour of the `possibilities` loop: the final `next_distance` is the
minimum of the start value and all per-direction outcomes; the final list
holds exactly the directions achieving it with a positive-length move. -/
theorem possLoopP_spec (E : Dir → Int × Nat) (fv : Int)
    (hE0 : ∀ dd, (E dd).2 = 0 → (E dd).1 = fv) :
    ∀ (ds : List Dir) (nd : Int) (ps : List (Int × Nat × Dir)),
      nd ≤ fv →
      (∀ p ∈ ps, p.1 = nd ∧ 0 < p.2.1 ∧
        p = ((E p.2.2).1, (E p.2.2).2, p.2.2)) →
      (possLoopP E ds nd ps).1 ≤ nd ∧
      (∀ dd ∈ ds, (possLoopP E ds nd ps).1 ≤ (E dd).1) ∧
      (∀ p ∈ (possLoopP E ds nd ps).2, p.1 = (possLoopP E ds nd ps).1 ∧
        0 < p.2.1 ∧ p = ((E p.2.2).1, (E p.2.2).2, p.2.2)) ∧
      (∀ dd ∈ ds, (E dd).1 = (possLoopP E ds nd ps).1 → 0 < (E dd).2 →
        ((E dd).1, (E dd).2, dd) ∈ (possLoopP E ds nd ps).2) ∧
      (∀ p ∈ ps, p.1 = (possLoopP E ds nd ps).1 →
        p ∈ (possLoopP E ds nd ps).2) := by
  intro ds
  induction ds with
  | nil =>
    intro nd ps hnd hps
    refine ⟨le_rfl, by simp, ?_, by simp, ?_⟩
    · intro p hp
      exact ⟨(hps p hp).1, (hps p hp).2⟩
    · intro p hp _
      exact hp
  | cons dd ds ih =>
    intro nd ps hnd hps
    unfold possLoopP
    by_cases h1 : (E dd).1 < nd
    · rw [if_pos h1]
      have hstep : 0 < (E dd).2 := by
        by_contra h0
        have := hE0 dd (by omega)
        omega
      have hps' : ∀ p ∈ [((E dd).1, (E dd).2, dd)], p.1 = (E dd).1 ∧
          0 < p.2.1 ∧ p = ((E p.2.2).1, (E p.2.2).2, p.2.2) := by
        intro p hp
        simp only [List.mem_singleton] at hp
        subst hp
        exact ⟨rfl, hstep, rfl⟩
      obtain ⟨ha, hb, hc, hd, he⟩ := ih (E dd).1 _ (by omega) hps'
      refine ⟨by omega, ?_, hc, ?_, ?_⟩
      · intro e hde
        rcases List.mem_cons.mp hde with rfl | hmem
        · exact ha
        · exact hb e hmem
      · intro e hde heq hst
        rcases List.mem_cons.mp hde with rfl | hmem
        · exact he _ (List.mem_singleton_self _) heq
        · exact hd e hmem heq hst
      · intro p hp hfin
        have := (hps p hp).1
        omega
    · rw [if_neg h1]
      by_cases h2 : (E dd).1 = nd ∧ 0 < (E dd).2
      · rw [if_pos h2]
        have hps' : ∀ p ∈ ps ++ [((E dd).1, (E dd).2, dd)], p.1 = nd ∧
            0 < p.2.1 ∧ p = ((E p.2.2).1, (E p.2.2).2, p.2.2) := by
          intro p hp
          rcases List.mem_append.mp hp with hmem | hmem
          · exact hps p hmem
          · simp only [List.mem_singleton] at hmem
            subst hmem
            exact ⟨h2.1, h2.2, rfl⟩
        obtain ⟨ha, hb, hc, hd, he⟩ := ih nd _ hnd hps'
        refine ⟨ha, ?_, hc, ?_, ?_⟩
        · intro e hde
          rcases List.mem_cons.mp hde with rfl | hmem
          · omega
          · exact hb e hmem
        · intro e hde heq hst
          rcases List.mem_cons.mp hde with rfl | hmem
          · exact he _ (by simp) heq
          · exact hd e hmem heq hst
        · intro p hp hfin
          exact he p (List.mem_append_left _ hp) hfin
      · rw [if_neg h2]
        obtain ⟨ha, hb, hc, hd, he⟩ := ih nd ps hnd hps
        refine ⟨ha, ?_, hc, ?_, he⟩
        · intro e hde
          rcases List.mem_cons.mp hde with rfl | hmem
          · omega
          · exact hb e hmem
        · intro e hde heq hst
          rcases List.mem_cons.mp hde with rfl | hmem
          · exfalso
            have : ¬ (E e).1 = nd := fun hcon => h2 ⟨hcon, hst⟩
            omega
          · exact hd e hmem heq hst

theorem exploreP_zero_steps {n : Nat} {W fl : Mat} {loc : Cell} {d : Dir}
    (mx : Nat) :
    (exploreP n W fl loc d mx).2 = 0 →
      (exploreP n W fl loc d mx).1 = flAt n fl loc := by
  unfold exploreP
  cases mx with
  | zero =>
    unfold exploreGoP
    dsimp only
    rw [show cadd loc d ((0:Nat) : Int) = loc from by simp]
    rw [if_pos le_rfl, if_pos le_rfl]
    split
    · intro _; rfl
    · intro _; rfl
  | succ mx =>
    unfold exploreGoP
    dsimp only
    rw [show cadd loc d ((0:Nat) : Int) = loc from by simp]
    rw [if_pos le_rfl, if_pos le_rfl]
    split
    · intro _; rfl
    · exact exploreGoP_zero_steps (mx+1) 1 _ _ (fun _ => rfl) (by omega)

theorem mem_directionsR (dd : Dir) : dd ∈ directionsR := by
  cases dd <;> decide

/-- **C5 (amended).** Move selection at a non-target cell: the candidate set
built by the `possibilities` loop never contains a zero-length (no-progress)
direction — even when no other option exists; it consists exactly of the
directions whose best bounded move reaches the global minimum resulting
distance with at least one step.  When it is nonempty, the returned command
is the candidate indexed by the random draw (uniform over the tied set);
when it is empty, `np.random.randint(0, 0)` raises and no command is
returned. -/
theorem move_selection {n : Nat} {W fl : Mat} {loc : Cell}
    (hP : closedPerimeter n W) (hloc : inB n loc)
    (heading : Dir) (mx : Nat) (rng : Nat → Nat) (k : Nat)
    (hfv : flAt n fl loc ≠ 0) :
    ∀ tied, tied = possLoopP (fun dd => exploreP n W fl loc dd maxMoves)
        directionsR (flAt n fl loc) [] →
      (∀ p ∈ tied.2, 0 < p.2.1) ∧
      (∀ dd : Dir, tied.1 ≤ (exploreP n W fl loc dd maxMoves).1) ∧
      (∀ dd : Dir,
        (((exploreP n W fl loc dd maxMoves).1,
          (exploreP n W fl loc dd maxMoves).2, dd) ∈ tied.2 ↔
        ((exploreP n W fl loc dd maxMoves).1 = tied.1 ∧
          0 < (exploreP n W fl loc dd maxMoves).2))) ∧
      (tied.2 ≠ [] → ∃ hlt : rng k % tied.2.length < tied.2.length,
        calcStep3 n W fl loc heading mx rng k = .ok
          (commandOf heading mx
            (tied.2.get ⟨rng k % tied.2.length, hlt⟩))) ∧
      (tied.2 = [] →
        calcStep3 n W fl loc heading mx rng k = .error "ValueError") := by
  intro tied htied
  subst htied
  have hE0 : ∀ dd : Dir,
      (exploreP n W fl loc dd maxMoves).2 = 0 →
      (exploreP n W fl loc dd maxMoves).1 = flAt n fl loc :=
    fun dd => exploreP_zero_steps maxMoves
  obtain ⟨ha, hb, hc, hd, _⟩ := possLoopP_spec
    (fun dd => exploreP n W fl loc dd maxMoves) (flAt n fl loc) hE0
    directionsR (flAt n fl loc) [] le_rfl (by simp)
  have hcomp : calcStep3 n W fl loc heading mx rng k = (do
      let res ← possLoop n W fl loc directionsR (flAt n fl loc) []
      let ps := res.2
      if h : ps.length = 0 then .error "ValueError"
      else
        let p := rng k % ps.length
        .ok (commandOf heading mx
          (ps.get ⟨p, Nat.mod_lt _ (Nat.pos_of_ne_zero h)⟩)) :
        Except String (Int × Int)) := by
    unfold calcStep3
    rw [mget_flAt n fl loc hloc]
    simp only [ebind_ok]
    rw [if_neg hfv]
  rw [possLoop_eq_P hP hloc] at hcomp
  simp only [ebind_ok] at hcomp
  refine ⟨fun p hp => (hc p hp).2.1, fun dd => hb dd (mem_directionsR dd),
    ?_, ?_, ?_⟩
  · intro dd
    constructor
    · intro hmem
      exact ⟨(hc _ hmem).1, (hc _ hmem).2.1⟩
    · intro hcond
      exact hd dd (mem_directionsR dd) hcond.1 hcond.2
  · intro hne
    have hlen : (possLoopP (fun dd => exploreP n W fl loc dd maxMoves)
        directionsR (flAt n fl loc) []).2.length ≠ 0 := by
      intro hcon
      exact hne (List.length_eq_zero.mp hcon)
    refine ⟨Nat.mod_lt _ (Nat.pos_of_ne_zero hlen), ?_⟩
    rw [hcomp]
    rw [dif_neg hlen]
  · intro hnil
    rw [hcomp, dif_pos (by rw [hnil]; rfl)]

end Robot

/-- Flood field with value 5 at the origin (and unvisited elsewhere). -/
def fl5 : Mat := fun i j => if i = 0 ∧ j = 0 then 5 else -1

/-- **Counterexample to C5 as stated.**  At a cell whose four sides are all
walls (`mat0`), every direction's best achievable move is zero-length; the
claim says such directions are then included ("unless no other option
exists") so that "a command is always returned" — but the code's candidate
list is empty and `np.random.randint(0, 0)` raises `ValueError`: no command
is returned. -/
theorem move_selection_no_fallback :
    Robot.calcStep3 2 mat0 fl5 ((0:Int), (0:Int)) Dir.u 3 rng0 0 =
      .error "ValueError" := rfl

/-- Extract the `.ok` payload of a flood computation. -/
def getOkM (e : Except String Mat) : Mat :=
  match e with
  | .ok f => f
  | .error _ => mat0

/-- The flood field of `wCycle2` from target `(0,0)`. -/
def flCycle2 : Mat := getOkM (Robot.flooding 2 wCycle2 [((0:Int), (0:Int))])

/-- The tied-candidate set of the move-selection loop at cell `(1,1)` of
`wCycle2`, used by the C5 witness. -/
def c5tied : Int × List (Int × Nat × Dir) :=
  Robot.possLoopP
    (fun dd => Robot.exploreP 2 wCycle2 flCycle2 ((1:Int), (1:Int)) dd
      maxMoves) directionsR (flAt 2 flCycle2 ((1:Int), (1:Int))) []

/-- Witness for C5 at the cell `(1,1)` of `wCycle2` (distance 2). -/
theorem move_selection_witness :
    (∀ p ∈ c5tied.2, 0 < p.2.1) ∧
    (∀ dd : Dir, c5tied.1 ≤
      (Robot.exploreP 2 wCycle2 flCycle2 ((1:Int), (1:Int)) dd
        maxMoves).1) ∧
    (∀ dd : Dir,
      (((Robot.exploreP 2 wCycle2 flCycle2 ((1:Int), (1:Int)) dd
          maxMoves).1,
        (Robot.exploreP 2 wCycle2 flCycle2 ((1:Int), (1:Int)) dd
          maxMoves).2, dd) ∈ c5tied.2 ↔
      ((Robot.exploreP 2 wCycle2 flCycle2 ((1:Int), (1:Int)) dd
          maxMoves).1 = c5tied.1 ∧
        0 < (Robot.exploreP 2 wCycle2 flCycle2 ((1:Int), (1:Int)) dd
          maxMoves).2))) ∧
    (c5tied.2 ≠ [] → ∃ hlt : rng0 0 % c5tied.2.length < c5tied.2.length,
      Robot.calcStep3 2 wCycle2 flCycle2 ((1:Int), (1:Int)) Dir.u 3 rng0 0 =
        .ok (Robot.commandOf Dir.u 3
          (c5tied.2.get ⟨rng0 0 % c5tied.2.length, hlt⟩))) ∧
    (c5tied.2 = [] →
      Robot.calcStep3 2 wCycle2 flCycle2 ((1:Int), (1:Int)) Dir.u 3 rng0 0 =
        .error "ValueError") :=
  Robot.move_selection (by decide) (by decide) Dir.u 3 rng0 0 (by decide)
    c5tied rfl

/-- Extract the `.ok` payload of an `add_one_wall` run. -/
def getOkAW (e : Except String (Bool × Mat × Nat)) : Bool × Mat × Nat :=
  match e with
  | .ok res0 => res0
  | .error _ => (false, mat0, 0)

/-- Witness for C4: a committed closure in `add_one_wall` on the fully open
2×2 grid, and two sensor discoveries in `__update_walls` on the same grid. -/
theorem wall_mutations_preserve_symmetry_witness :
    symmetricW 2 (getOkAW (MCM.add_one_wall 2 wCycle2
      [((0:Int), (0:Int)), ((1:Int), (1:Int))] 1 rng0 0)).2.1 ∧
    symmetricW 2 c8state.walls := by
  have h := wall_mutations_preserve_symmetry (n := 2) (by decide) wCycle2
    range16_wCycle2 (by decide) (by decide)
  constructor
  · exact h.1 [((0:Int), (0:Int)), ((1:Int), (1:Int))] 1 rng0 0 _ (by rfl)
  · exact h.2 mat0 mat0 ((0:Int), (0:Int)) Dir.u 0 0 0 Dir.l Dir.u Dir.r rfl
      (by decide) (by decide) (by decide) (by decide) c8state rfl

/-! ## BFS correctness of the flood loop

The flood loop of `flooding`/`adjust_flooding` is a breadth-first search over
the look-ahead step graph `edgeM`.  This section proves that under the
closed-perimeter invariant the loop never raises, consumes at most one pass
per distance level, and computes exactly the `LeastReach` distances. -/

/-- Reading a one-entry update through `flAt`. -/
theorem flAt_update {n : Nat} {A : Mat} {p : Cell} (hp : inB n p) (v : Int)
    (c : Cell) :
    flAt n (fun x y => if x = p.1.toNat ∧ y = p.2.toNat then v else A x y) c =
      if c = p then v else flAt n A c := by
  unfold flAt
  by_cases hc : inB n c
  · rw [if_pos hc, if_pos hc]
    dsimp only
    by_cases hcp : c = p
    · subst hcp
      rw [if_pos ⟨rfl, rfl⟩, if_pos rfl]
    · have h1 : ¬ (c.1.toNat = p.1.toNat ∧ c.2.toNat = p.2.toNat) :=
        fun hco => hcp ((inB_eq_iff_toNat hc hp).mp ⟨hco.1, hco.2⟩)
      rw [if_neg h1, if_neg hcp]
  · rw [if_neg hc, if_neg hc]
    have h1 : c ≠ p := fun hcp => hc (hcp ▸ hp)
    rw [if_neg h1]

/-- One flood step from `b` in the specific direction `d0`. -/
def edgeD (n M : Nat) (W : Mat) (b : Cell) (d0 : Dir) (c : Cell) : Prop :=
  ∃ m : Nat, m < M ∧ openRun n W b d0 m ∧ c = cadd b d0 ((m : Int) + 1)

theorem edgeM_iff_edgeD {n M : Nat} {W : Mat} {b c : Cell} :
    edgeM n M W b c ↔ ∃ d0 ∈ directionsR, edgeD n M W b d0 c := by
  constructor
  · rintro ⟨d0, m, hm, hrun, rfl⟩
    exact ⟨d0, Robot.mem_directionsR d0, m, hm, hrun, rfl⟩
  · rintro ⟨d0, _, m, hm, hrun, rfl⟩
    exact ⟨d0, m, hm, hrun, rfl⟩

/-- Reachable cells are in bounds (given in-bounds targets). -/
theorem reachN_inB {n M : Nat} {W : Mat} {T : List Cell}
    (hP : closedPerimeter n W) (hT : ∀ c ∈ T, inB n c) :
    ∀ {c : Cell} {k : Nat}, ReachN n M W T c k → inB n c := by
  intro c k h
  induction h with
  | base c hc => exact hT c hc
  | step b c k hb he ih => exact edgeM_inB hP ih he

theorem exists_leastReach {n M : Nat} {W : Mat} {T : List Cell} {c : Cell} :
    ∀ k, ReachN n M W T c k → ∃ j, j ≤ k ∧ LeastReach n M W T c j := by
  intro k
  induction k using Nat.strong_induction_on with
  | _ k ih =>
    intro hr
    by_cases h : ∀ j, j < k → ¬ ReachN n M W T c j
    · exact ⟨k, le_rfl, hr, h⟩
    · push_neg at h
      obtain ⟨j, hj, hrj⟩ := h
      obtain ⟨j', hj', hl⟩ := ih j hj hrj
      exact ⟨j', by omega, hl⟩

theorem leastReach_unique {n M : Nat} {W : Mat} {T : List Cell} {c : Cell}
    {k k' : Nat} (h : LeastReach n M W T c k) (h' : LeastReach n M W T c k') :
    k = k' := by
  rcases Nat.lt_trichotomy k k' with hlt | heq | hgt
  · exact absurd h.1 (h'.2 k hlt)
  · exact heq
  · exact absurd h'.1 (h.2 k' hgt)

/-- A cell at distance `k+1` has a predecessor at distance exactly `k`. -/
theorem leastReach_pred {n M : Nat} {W : Mat} {T : List Cell} {c : Cell}
    {k : Nat} (h : LeastReach n M W T c (k + 1)) :
    ∃ b, LeastReach n M W T b k ∧ edgeM n M W b c := by
  obtain ⟨hr, hmin⟩ := h
  cases hr with
  | step b c k hb he =>
    obtain ⟨k', hk', hlb⟩ := exists_leastReach k hb
    rcases Nat.lt_or_ge k' k with hlt | hge
    · exact absurd (ReachN.step b c k' hlb.1 he) (hmin (k' + 1) (by omega))
    · have : k' = k := by omega
      subst this
      exact ⟨b, hlb, he⟩

theorem leastReach_zero_iff {n M : Nat} {W : Mat} {T : List Cell} {c : Cell} :
    LeastReach n M W T c 0 ↔ c ∈ T := by
  constructor
  · rintro ⟨hr, -⟩
    cases hr with
    | base c hc => exact hc
  · intro hc
    exact ⟨ReachN.base c hc, fun j hj => absurd hj (Nat.not_lt_zero j)⟩

/-- Distance levels are contiguous: below a realized level every level is
realized. -/
theorem levels_below {n M : Nat} {W : Mat} {T : List Cell} :
    ∀ t, (∃ c, LeastReach n M W T c t) →
      ∀ k, k ≤ t → ∃ c, LeastReach n M W T c k := by
  intro t
  induction t with
  | zero =>
    intro h k hk
    have : k = 0 := by omega
    subst this
    exact h
  | succ t ih =>
    intro h k hk
    rcases Nat.lt_or_ge k (t + 1) with hlt | hge
    · obtain ⟨c, hc⟩ := h
      obtain ⟨b, hb, -⟩ := leastReach_pred hc
      exact ih ⟨b, hb⟩ k (by omega)
    · have : k = t + 1 := by omega
      subst this
      exact h

/-- The in-bounds cells as a finite set. -/
def cellsFin (n : Nat) : Finset Cell :=
  (Finset.range n ×ˢ Finset.range n).image fun p => ((p.1 : Int), (p.2 : Int))

theorem mem_cellsFin {n : Nat} {c : Cell} : c ∈ cellsFin n ↔ inB n c := by
  unfold cellsFin inB
  simp only [Finset.mem_image, Finset.mem_product, Finset.mem_range]
  constructor
  · rintro ⟨p, ⟨h1, h2⟩, rfl⟩
    dsimp only
    exact ⟨Int.natCast_nonneg p.1, by exact_mod_cast h1,
      Int.natCast_nonneg p.2, by exact_mod_cast h2⟩
  · rintro ⟨h1, h2, h3, h4⟩
    refine ⟨(c.1.toNat, c.2.toNat), ⟨by omega, by omega⟩, ?_⟩
    exact inB_toNat n c ⟨h1, h2, h3, h4⟩

theorem card_cellsFin (n : Nat) : (cellsFin n).card = n * n := by
  unfold cellsFin
  rw [Finset.card_image_of_injective, Finset.card_product, Finset.card_range]
  intro a b hab
  rw [Prod.ext_iff] at hab ⊢
  dsimp only at hab
  exact ⟨by exact_mod_cast hab.1, by exact_mod_cast hab.2⟩

/-- Counting bound used for loop fuel: a realized level `t` forces `t` cells
of positive distance plus the distinct target cells to fit in the grid. -/
theorem level_count {n M : Nat} {W : Mat} {T : List Cell}
    (hP : closedPerimeter n W) (hT : ∀ c ∈ T, inB n c) {t : Nat}
    (hne : ∃ c, LeastReach n M W T c t) : t + T.dedup.length ≤ n * n := by
  have hlev : ∀ k : Fin t, ∃ c, LeastReach n M W T c (k.1 + 1) := by
    rintro ⟨k, hk⟩
    exact levels_below t hne (k + 1) (by omega)
  choose g hg using hlev
  have hginj : Function.Injective g := by
    intro a b hab
    have h1 := hg a
    have h2 := hg b
    rw [hab] at h1
    have := leastReach_unique h1 h2
    exact Fin.ext (by omega)
  have hdisj : Disjoint T.toFinset (Finset.image g Finset.univ) := by
    rw [Finset.disjoint_left]
    intro c hcT hcg
    obtain ⟨a, -, rfl⟩ := Finset.mem_image.mp hcg
    have h0 : LeastReach n M W T (g a) 0 :=
      leastReach_zero_iff.mpr (List.mem_toFinset.mp hcT)
    have := leastReach_unique h0 (hg a)
    omega
  have hsub : T.toFinset ∪ Finset.image g Finset.univ ⊆ cellsFin n := by
    intro c hc
    rcases Finset.mem_union.mp hc with hc | hc
    · exact mem_cellsFin.mpr (hT c (List.mem_toFinset.mp hc))
    · obtain ⟨a, -, rfl⟩ := Finset.mem_image.mp hc
      exact mem_cellsFin.mpr (reachN_inB hP hT (hg a).1)
  have hcard := Finset.card_le_card hsub
  rw [Finset.card_union_of_disjoint hdisj, List.card_toFinset,
    Finset.card_image_of_injective _ hginj, Finset.card_univ,
    Fintype.card_fin, card_cellsFin] at hcard
  omega

/-- Behaviour of the inner look-ahead scan `scanDir` from frontier cell `b`
(under the closed perimeter): it never raises, never overwrites an assigned
entry, assigns `flood[b] + 1` exactly to the previously unassigned cells one
past an open run of walls inside the scanned offset window, and appends
exactly the newly assigned cells to the `new` list. -/
theorem scanDir_spec {n : Nat} {W : Mat} (hP : closedPerimeter n W)
    (d : Dir) (b : Cell) (hb : inB n b) :
    ∀ (fuelM m : Nat) (fl : Mat) (acc : List Cell),
      inB n (cadd b d (m : Int)) → 0 ≤ flAt n fl b →
      ∃ fl' acc', scanDir n W d b fuelM m (fl, acc) = .ok (fl', acc') ∧
        (∀ c : Cell, 0 ≤ flAt n fl c → flAt n fl' c = flAt n fl c) ∧
        (∀ c : Cell, inB n c → flAt n fl' c = flAt n fl c ∨
          (flAt n fl c < 0 ∧ flAt n fl' c = flAt n fl b + 1 ∧
            ∃ j : Nat, m ≤ j ∧ j < m + fuelM ∧
              (∀ i : Nat, m ≤ i → i ≤ j → openb n W (cadd b d (i : Int)) d) ∧
              c = cadd b d ((j : Int) + 1))) ∧
        (∀ j : Nat, m ≤ j → j < m + fuelM →
          (∀ i : Nat, m ≤ i → i ≤ j → openb n W (cadd b d (i : Int)) d) →
          0 ≤ flAt n fl' (cadd b d ((j : Int) + 1))) ∧
        (∀ c : Cell, c ∈ acc' ↔
          (c ∈ acc ∨ (inB n c ∧ flAt n fl c < 0 ∧ 0 ≤ flAt n fl' c))) := by
  intro fuelM
  induction fuelM with
  | zero =>
    intro m fl acc hbc hfb
    refine ⟨fl, acc, rfl, fun c _ => rfl, fun c _ => Or.inl rfl,
      fun j hj1 hj2 _ => absurd hj2 (by omega), fun c => ?_⟩
    constructor
    · exact Or.inl
    · rintro (h | ⟨-, h1, h2⟩)
      · exact h
      · omega
  | succ fuelM ih =>
    intro m fl acc hbc hfb
    by_cases hop : 0 < Int.land (wAt n W (cadd b d (m : Int))) (wallMask d)
    · have hopb : openb n W (cadd b d (m : Int)) d := hop
      have hnb : inB n (cadd b d ((m : Int) + 1)) := by
        have := openb_step_inB hP hbc hopb
        rwa [cadd_cadd] at this
      by_cases hfv : flAt n fl (cadd b d ((m : Int) + 1)) < 0
      · -- open wall onto an unassigned cell: assign and recurse
        have hbne : b ≠ cadd b d ((m : Int) + 1) := by
          intro h
          rw [← h] at hfv
          omega
        have hFat : ∀ c : Cell,
            flAt n (fun x y =>
              if x = (cadd b d ((m : Int) + 1)).1.toNat ∧
                  y = (cadd b d ((m : Int) + 1)).2.toNat
                then flAt n fl b + 1 else fl x y) c =
              if c = cadd b d ((m : Int) + 1) then flAt n fl b + 1
              else flAt n fl c :=
          fun c => flAt_update hnb _ c
        have hbc' : inB n (cadd b d ((m + 1 : Nat) : Int)) := by
          push_cast
          exact hnb
        have hfb' : 0 ≤ flAt n (fun x y =>
            if x = (cadd b d ((m : Int) + 1)).1.toNat ∧
                y = (cadd b d ((m : Int) + 1)).2.toNat
              then flAt n fl b + 1 else fl x y) b := by
          rw [hFat b, if_neg hbne]
          exact hfb
        obtain ⟨fl', acc', heq, S1, S2, S3, S4⟩ :=
          ih (m+1) _ (acc ++ [cadd b d ((m : Int) + 1)]) hbc' hfb'
        have hFnb : 0 ≤ flAt n (fun x y =>
            if x = (cadd b d ((m : Int) + 1)).1.toNat ∧
                y = (cadd b d ((m : Int) + 1)).2.toNat
              then flAt n fl b + 1 else fl x y)
            (cadd b d ((m : Int) + 1)) := by
          rw [hFat, if_pos rfl]
          omega
        refine ⟨fl', acc', ?_, ?_, ?_, ?_, ?_⟩
        · unfold scanDir
          dsimp only
          rw [mget_wAt n W _ hbc]
          simp only [ebind_ok]
          rw [if_pos hop, cadd_cadd, mget_flAt n fl _ hnb]
          simp only [ebind_ok]
          rw [if_pos hfv, mget_flAt n fl b hb]
          simp only [ebind_ok]
          rw [mset_inB n fl _ _ hnb]
          simp only [ebind_ok]
          exact heq
        · -- no assigned entry is overwritten
          intro c h0
          have hcnb : c ≠ cadd b d ((m : Int) + 1) := by
            intro hcc
            rw [hcc] at h0
            omega
          have hF0 : 0 ≤ flAt n (fun x y =>
              if x = (cadd b d ((m : Int) + 1)).1.toNat ∧
                  y = (cadd b d ((m : Int) + 1)).2.toNat
                then flAt n fl b + 1 else fl x y) c := by
            rw [hFat, if_neg hcnb]
            exact h0
          rw [S1 c hF0, hFat, if_neg hcnb]
        · -- value characterization
          intro c hc
          rcases S2 c hc with h | ⟨hneg, hval, j, hj1, hj2, hseg, hcj⟩
          · by_cases hcnb : c = cadd b d ((m : Int) + 1)
            · right
              refine ⟨by rw [hcnb]; exact hfv, ?_, m, le_rfl, by omega, ?_, hcnb⟩
              · rw [h, hcnb, hFat, if_pos rfl]
              · intro i h1 h2
                have : i = m := by omega
                subst this
                exact hopb
            · left
              rw [h, hFat, if_neg hcnb]
          · right
            have hcnb : c ≠ cadd b d ((m : Int) + 1) := by
              intro hcc
              rw [hFat, if_pos hcc] at hneg
              omega
            rw [hFat, if_neg hcnb] at hneg
            rw [hFat, if_neg hbne] at hval
            refine ⟨hneg, hval, j, by omega, by omega, ?_, hcj⟩
            intro i h1 h2
            by_cases him : i = m
            · subst him
              exact hopb
            · exact hseg i (by omega) h2
        · -- completeness over the scanned window
          intro j hj1 hj2 hseg
          by_cases hjm : j = m
          · subst hjm
            rw [S1 _ hFnb]
            exact hFnb
          · exact S3 j (by omega) (by omega) (fun i h1 h2 => hseg i (by omega) h2)
        · -- the new list collects exactly the fresh assignments
          intro c
          rw [S4 c]
          constructor
          · rintro (hmem | ⟨hcin, hneg, hpos⟩)
            · rcases List.mem_append.mp hmem with h | h
              · exact Or.inl h
              · right
                have hcc : c = cadd b d ((m : Int) + 1) := by simpa using h
                rw [hcc]
                refine ⟨hnb, hfv, ?_⟩
                rw [S1 _ hFnb]
                exact hFnb
            · right
              have hcnb : c ≠ cadd b d ((m : Int) + 1) := by
                intro hcc
                rw [hFat, if_pos hcc] at hneg
                omega
              rw [hFat, if_neg hcnb] at hneg
              exact ⟨hcin, hneg, hpos⟩
          · rintro (hmem | ⟨hcin, hneg, hpos⟩)
            · exact Or.inl (List.mem_append.mpr (Or.inl hmem))
            · by_cases hcnb : c = cadd b d ((m : Int) + 1)
              · exact Or.inl (List.mem_append.mpr (Or.inr (by simp [hcnb])))
              · right
                refine ⟨hcin, ?_, hpos⟩
                rw [hFat, if_neg hcnb]
                exact hneg
      · -- open wall onto an already-assigned cell: skip and recurse
        have hbc' : inB n (cadd b d ((m + 1 : Nat) : Int)) := by
          push_cast
          exact hnb
        obtain ⟨fl', acc', heq, S1, S2, S3, S4⟩ := ih (m+1) fl acc hbc' hfb
        refine ⟨fl', acc', ?_, S1, ?_, ?_, S4⟩
        · unfold scanDir
          dsimp only
          rw [mget_wAt n W _ hbc]
          simp only [ebind_ok]
          rw [if_pos hop, cadd_cadd, mget_flAt n fl _ hnb]
          simp only [ebind_ok]
          rw [if_neg hfv]
          exact heq
        · intro c hc
          rcases S2 c hc with h | ⟨hneg, hval, j, hj1, hj2, hseg, hcj⟩
          · exact Or.inl h
          · right
            refine ⟨hneg, hval, j, by omega, by omega, ?_, hcj⟩
            intro i h1 h2
            by_cases him : i = m
            · subst him
              exact hopb
            · exact hseg i (by omega) h2
        · intro j hj1 hj2 hseg
          by_cases hjm : j = m
          · subst hjm
            have h0 : 0 ≤ flAt n fl (cadd b d ((j : Int) + 1)) := by omega
            rw [S1 _ h0]
            exact h0
          · exact S3 j (by omega) (by omega) (fun i h1 h2 => hseg i (by omega) h2)
    · -- closed wall: the scan stops
      refine ⟨fl, acc, ?_, fun c _ => rfl, fun c _ => Or.inl rfl, ?_, ?_⟩
      · unfold scanDir
        dsimp only
        rw [mget_wAt n W _ hbc]
        simp only [ebind_ok]
        rw [if_neg hop]
      · intro j hj1 hj2 hseg
        exact absurd (hseg m le_rfl hj1) hop
      · intro c
        constructor
        · exact Or.inl
        · rintro (h | ⟨-, h1, h2⟩)
          · exact h
          · omega

/-- Behaviour of the per-direction loop of one frontier cell. -/
theorem passDirs_spec {n M : Nat} {W : Mat} (hP : closedPerimeter n W)
    {b : Cell} (hb : inB n b) :
    ∀ (ds : List Dir) (fl : Mat) (acc : List Cell), 0 ≤ flAt n fl b →
      ∃ fl' acc', passDirs n M W b ds (fl, acc) = .ok (fl', acc') ∧
        (∀ c : Cell, 0 ≤ flAt n fl c → flAt n fl' c = flAt n fl c) ∧
        (∀ c : Cell, inB n c → flAt n fl' c = flAt n fl c ∨
          (flAt n fl c < 0 ∧ flAt n fl' c = flAt n fl b + 1 ∧
            ∃ e ∈ ds, edgeD n M W b e c)) ∧
        (∀ e ∈ ds, ∀ c : Cell, edgeD n M W b e c → 0 ≤ flAt n fl' c) ∧
        (∀ c : Cell, c ∈ acc' ↔
          (c ∈ acc ∨ (inB n c ∧ flAt n fl c < 0 ∧ 0 ≤ flAt n fl' c))) := by
  intro ds
  induction ds with
  | nil =>
    intro fl acc hfb
    refine ⟨fl, acc, rfl, fun c _ => rfl, fun c _ => Or.inl rfl,
      fun e he => absurd he (List.not_mem_nil e), fun c => ?_⟩
    constructor
    · exact Or.inl
    · rintro (h | ⟨-, h1, h2⟩)
      · exact h
      · omega
  | cons e0 ds ih =>
    intro fl acc hfb
    have hbc0 : inB n (cadd b e0 ((0 : Nat) : Int)) := by simpa using hb
    obtain ⟨fl1, acc1, heq1, T1, T2, T3, T4⟩ :=
      scanDir_spec hP e0 b hb M 0 fl acc hbc0 hfb
    have hfb1 : 0 ≤ flAt n fl1 b := by
      rw [T1 b hfb]
      exact hfb
    obtain ⟨fl', acc', heq2, U1, U2, U3, U4⟩ := ih fl1 acc1 hfb1
    refine ⟨fl', acc', ?_, ?_, ?_, ?_, ?_⟩
    · unfold passDirs
      rw [heq1]
      simp only [ebind_ok]
      exact heq2
    · intro c h0
      have h1 := T1 c h0
      have h2 : 0 ≤ flAt n fl1 c := by
        rw [h1]
        exact h0
      rw [U1 c h2, h1]
    · intro c hc
      rcases U2 c hc with h | ⟨hneg1, hval1, e, he, hedge⟩
      · rcases T2 c hc with h' | ⟨hneg, hval, j, hj1, hj2, hseg, hcj⟩
        · exact Or.inl (h.trans h')
        · right
          refine ⟨hneg, h.trans hval, e0, List.mem_cons_self e0 ds,
            j, by omega, ?_, hcj⟩
          intro i hi
          exact hseg i (Nat.zero_le i) hi
      · right
        have hc0 : flAt n fl c < 0 := by
          rcases T2 c hc with h' | ⟨hneg, hval, -⟩
          · rw [← h']
            exact hneg1
          · rw [hval] at hneg1
            omega
        have hb1 : flAt n fl1 b = flAt n fl b := T1 b hfb
        rw [hb1] at hval1
        exact ⟨hc0, hval1, e, List.mem_cons_of_mem e0 he, hedge⟩
    · intro e he c hedge
      rcases List.mem_cons.mp he with rfl | he'
      · obtain ⟨j, hjM, hrun, hcj⟩ := hedge
        have h1 : 0 ≤ flAt n fl1 (cadd b e ((j : Int) + 1)) :=
          T3 j (Nat.zero_le j) (by omega) (fun i _ hi => hrun i hi)
        rw [hcj]
        rw [U1 _ h1]
        exact h1
      · exact U3 e he' c hedge
    · intro c
      rw [U4 c, T4 c]
      constructor
      · rintro ((h | ⟨hc, h1, h2⟩) | ⟨hc, h1, h2⟩)
        · exact Or.inl h
        · right
          refine ⟨hc, h1, ?_⟩
          rw [U1 c h2]
          exact h2
        · right
          have hc0 : flAt n fl c < 0 := by
            rcases T2 c hc with h' | ⟨hneg, hval, -⟩
            · rw [← h']
              exact h1
            · rw [hval] at h1
              omega
          exact ⟨hc, hc0, h2⟩
      · rintro (h | ⟨hc, h1, h2⟩)
        · exact Or.inl (Or.inl h)
        · by_cases h12 : flAt n fl1 c < 0
          · exact Or.inr ⟨hc, h12, h2⟩
          · exact Or.inl (Or.inr ⟨hc, h1, by omega⟩)

/-- Behaviour of one complete pass of the flood loop over the frontier `bs`:
it never raises, preserves assigned entries, and assigns `flood[b] + 1`
exactly to the unassigned cells one `edgeM` step from a frontier cell `b`,
collecting exactly those cells. -/
theorem passCells_spec {n M : Nat} {W : Mat} (hP : closedPerimeter n W) :
    ∀ (bs : List Cell) (fl : Mat) (acc : List Cell),
      (∀ b ∈ bs, inB n b ∧ 0 ≤ flAt n fl b) →
      ∃ fl' acc', passCells n M W bs (fl, acc) = .ok (fl', acc') ∧
        (∀ c : Cell, 0 ≤ flAt n fl c → flAt n fl' c = flAt n fl c) ∧
        (∀ c : Cell, inB n c → flAt n fl' c = flAt n fl c ∨
          (flAt n fl c < 0 ∧ ∃ b ∈ bs, flAt n fl' c = flAt n fl b + 1 ∧
            edgeM n M W b c)) ∧
        (∀ b ∈ bs, ∀ c : Cell, edgeM n M W b c → 0 ≤ flAt n fl' c) ∧
        (∀ c : Cell, c ∈ acc' ↔
          (c ∈ acc ∨ (inB n c ∧ flAt n fl c < 0 ∧ 0 ≤ flAt n fl' c))) := by
  intro bs
  induction bs with
  | nil =>
    intro fl acc hbs
    refine ⟨fl, acc, rfl, fun c _ => rfl, fun c _ => Or.inl rfl,
      fun b hb => absurd hb (List.not_mem_nil b), fun c => ?_⟩
    constructor
    · exact Or.inl
    · rintro (h | ⟨-, h1, h2⟩)
      · exact h
      · omega
  | cons b0 bs ih =>
    intro fl acc hbs
    have hb0 : inB n b0 := (hbs b0 (List.mem_cons_self b0 bs)).1
    have hfb0 : 0 ≤ flAt n fl b0 := (hbs b0 (List.mem_cons_self b0 bs)).2
    obtain ⟨fl1, acc1, heq1, T1, T2, T3, T4⟩ :=
      passDirs_spec hP hb0 directionsR fl acc hfb0
    have hbs1 : ∀ b ∈ bs, inB n b ∧ 0 ≤ flAt n fl1 b := by
      intro b hbm
      obtain ⟨h1, h2⟩ := hbs b (List.mem_cons_of_mem b0 hbm)
      refine ⟨h1, ?_⟩
      rw [T1 b h2]
      exact h2
    obtain ⟨fl', acc', heq2, U1, U2, U3, U4⟩ := ih fl1 acc1 hbs1
    refine ⟨fl', acc', ?_, ?_, ?_, ?_, ?_⟩
    · unfold passCells
      rw [heq1]
      simp only [ebind_ok]
      exact heq2
    · intro c h0
      have h2 : 0 ≤ flAt n fl1 c := by
        rw [T1 c h0]
        exact h0
      rw [U1 c h2, T1 c h0]
    · intro c hc
      rcases U2 c hc with h | ⟨hneg1, b, hbm, hval1, hedge⟩
      · rcases T2 c hc with h' | ⟨hneg, hval, e, he, hedge⟩
        · exact Or.inl (h.trans h')
        · right
          exact ⟨hneg, b0, List.mem_cons_self b0 bs, h.trans hval,
            edgeM_iff_edgeD.mpr ⟨e, he, hedge⟩⟩
      · right
        have hc0 : flAt n fl c < 0 := by
          rcases T2 c hc with h' | ⟨hneg, hval, -⟩
          · rw [← h']
            exact hneg1
          · rw [hval] at hneg1
            omega
        have hbv : flAt n fl1 b = flAt n fl b :=
          T1 b (hbs b (List.mem_cons_of_mem b0 hbm)).2
        rw [hbv] at hval1
        exact ⟨hc0, b, List.mem_cons_of_mem b0 hbm, hval1, hedge⟩
    · intro b hbm c hedge
      rcases List.mem_cons.mp hbm with rfl | hbm'
      · obtain ⟨e, he, hed⟩ := edgeM_iff_edgeD.mp hedge
        have h1 : 0 ≤ flAt n fl1 c := T3 e he c hed
        rw [U1 c h1]
        exact h1
      · exact U3 b hbm' c hedge
    · intro c
      rw [U4 c, T4 c]
      constructor
      · rintro ((h | ⟨hc, h1, h2⟩) | ⟨hc, h1, h2⟩)
        · exact Or.inl h
        · right
          refine ⟨hc, h1, ?_⟩
          rw [U1 c h2]
          exact h2
        · right
          have hc0 : flAt n fl c < 0 := by
            rcases T2 c hc with h' | ⟨hneg, hval, -⟩
            · rw [← h']
              exact h1
            · rw [hval] at h1
              omega
          exact ⟨hc, hc0, h2⟩
      · rintro (h | ⟨hc, h1, h2⟩)
        · exact Or.inl (Or.inl h)
        · by_cases h12 : flAt n fl1 c < 0
          · exact Or.inr ⟨hc, h12, h2⟩
          · exact Or.inl (Or.inr ⟨hc, h1, by omega⟩)

/-- The flood matrix agrees with the BFS distances up to level `t`: entries at
distance `≤ t` hold their distance, every other in-bounds entry is `-1`. -/
def distEq (n M : Nat) (W : Mat) (T : List Cell) (t : Nat) (fl : Mat) : Prop :=
  ∀ c, inB n c →
    (∃ k, k ≤ t ∧ LeastReach n M W T c k ∧ flAt n fl c = (k : Int)) ∨
    ((∀ k, k ≤ t → ¬ ReachN n M W T c k) ∧ flAt n fl c = -1)

/-- The frontier list holds exactly the cells at distance `t`. -/
def frontEq (n M : Nat) (W : Mat) (T : List Cell) (t : Nat)
    (cur : List Cell) : Prop :=
  ∀ c, c ∈ cur ↔ (inB n c ∧ LeastReach n M W T c t)

/-- Final state of a completed flood: reachable cells hold their BFS distance,
unreachable in-bounds cells hold `-1`. -/
def floodCorrect (n M : Nat) (W : Mat) (T : List Cell) (fl : Mat) : Prop :=
  ∀ c, inB n c →
    (∃ k, LeastReach n M W T c k ∧ flAt n fl c = (k : Int)) ∨
    (¬ Reaches n M W T c ∧ flAt n fl c = -1)

/-- An empty frontier at level `t` means the flood is complete. -/
theorem floodCorrect_of_empty {n M : Nat} {W : Mat} {T : List Cell}
    (hP : closedPerimeter n W) (hT : ∀ c ∈ T, inB n c) {t : Nat} {fl : Mat}
    (hd : distEq n M W T t fl) (hf : frontEq n M W T t []) :
    floodCorrect n M W T fl := by
  intro c hc
  rcases hd c hc with ⟨k, hk, hlr, hval⟩ | ⟨hnone, hval⟩
  · exact Or.inl ⟨k, hlr, hval⟩
  · right
    refine ⟨?_, hval⟩
    rintro ⟨k, hr⟩
    obtain ⟨k', hk', hlr'⟩ := exists_leastReach k hr
    rcases le_or_lt k' t with h1 | h1
    · exact hnone k' h1 hlr'.1
    · obtain ⟨c'', hlr''⟩ := levels_below k' ⟨c, hlr'⟩ t (by omega)
      exact absurd ((hf c'').mpr ⟨reachN_inB hP hT hlr''.1, hlr''⟩)
        (List.not_mem_nil c'')

/-- One pass moves the level invariant from `t` to `t + 1`. -/
theorem pass_preserve {n M : Nat} {W : Mat} {T : List Cell}
    (hP : closedPerimeter n W) (hT : ∀ c ∈ T, inB n c) {t : Nat} {fl : Mat}
    {cur : List Cell} (hd : distEq n M W T t fl)
    (hf : frontEq n M W T t cur) :
    ∃ fl' new, passCells n M W cur (fl, []) = .ok (fl', new) ∧
      distEq n M W T (t+1) fl' ∧ frontEq n M W T (t+1) new := by
  have hcurval : ∀ b ∈ cur, flAt n fl b = (t : Int) := by
    intro b hbm
    obtain ⟨hbin, hlr⟩ := (hf b).mp hbm
    rcases hd b hbin with ⟨k, hk, hlr', hval⟩ | ⟨hnone, -⟩
    · rw [hval, leastReach_unique hlr' hlr]
    · exact absurd hlr.1 (hnone t le_rfl)
  have hbs : ∀ b ∈ cur, inB n b ∧ 0 ≤ flAt n fl b := by
    intro b hbm
    refine ⟨((hf b).mp hbm).1, ?_⟩
    rw [hcurval b hbm]
    exact Int.natCast_nonneg t
  obtain ⟨fl', new, heq, S1, S2, S3, S4⟩ := passCells_spec hP cur fl [] hbs
  refine ⟨fl', new, heq, ?_, ?_⟩
  · intro c hc
    rcases S2 c hc with h | ⟨hneg, b, hbm, hval, hedge⟩
    · rcases hd c hc with ⟨k, hk, hlr, hval⟩ | ⟨hnone, hval⟩
      · exact Or.inl ⟨k, by omega, hlr, h.trans hval⟩
      · right
        refine ⟨?_, h.trans hval⟩
        intro k hk hr
        rcases le_or_lt k t with h1 | h1
        · exact hnone k h1 hr
        · have hkeq : k = t + 1 := by omega
          subst hkeq
          obtain ⟨k', hk', hlr'⟩ := exists_leastReach _ hr
          rcases le_or_lt k' t with h2 | h2
          · exact hnone k' h2 hlr'.1
          · have : k' = t + 1 := by omega
            subst this
            obtain ⟨b', hb', hedge'⟩ := leastReach_pred hlr'
            have hbm' : b' ∈ cur :=
              (hf b').mpr ⟨reachN_inB hP hT hb'.1, hb'⟩
            have h0 : 0 ≤ flAt n fl' c := S3 b' hbm' c hedge'
            rw [h, hval] at h0
            omega
    · have hbv := hcurval b hbm
      rw [hbv] at hval
      left
      refine ⟨t+1, le_rfl, ?_, by rw [hval]; push_cast; ring⟩
      obtain ⟨hbin, hblr⟩ := (hf b).mp hbm
      refine ⟨ReachN.step b c t hblr.1 hedge, ?_⟩
      intro j hj hr
      rcases hd c hc with ⟨k, hk, hlrk, hvalc⟩ | ⟨hnone, -⟩
      · rw [hvalc] at hneg
        omega
      · exact hnone j (by omega) hr
  · intro c
    rw [S4 c]
    constructor
    · rintro (h | ⟨hc, hneg, hpos⟩)
      · exact absurd h (List.not_mem_nil c)
      · refine ⟨hc, ?_⟩
        rcases S2 c hc with h' | ⟨-, b, hbm, hval, hedge⟩
        · rw [h'] at hpos
          omega
        · have hbv := hcurval b hbm
          rw [hbv] at hval
          obtain ⟨hbin, hblr⟩ := (hf b).mp hbm
          refine ⟨ReachN.step b c t hblr.1 hedge, ?_⟩
          intro j hj hr
          rcases hd c hc with ⟨k, hk, hlrk, hvalc⟩ | ⟨hnone, -⟩
          · rw [hvalc] at hneg
            omega
          · exact hnone j (by omega) hr
    · rintro ⟨hc, hlr⟩
      right
      obtain ⟨b', hb', hedge'⟩ := leastReach_pred hlr
      have hbm' : b' ∈ cur := (hf b').mpr ⟨reachN_inB hP hT hb'.1, hb'⟩
      have hpos : 0 ≤ flAt n fl' c := S3 b' hbm' c hedge'
      refine ⟨hc, ?_, hpos⟩
      rcases hd c hc with ⟨k, hk, hlrk, hvalc⟩ | ⟨-, hvalc⟩
      · exact absurd hlrk.1 (hlr.2 k (by omega))
      · rw [hvalc]
        omega

/-- The flood loop, started anywhere in the level invariant with enough fuel,
never raises and completes the breadth-first search. -/
theorem floodLoop_spec {n M : Nat} {W : Mat} {T : List Cell}
    (hP : closedPerimeter n W) (hT : ∀ c ∈ T, inB n c) :
    ∀ (fuel t : Nat) (fl : Mat) (cur : List Cell),
      distEq n M W T t fl → frontEq n M W T t cur →
      n * n + 1 ≤ fuel + t + T.dedup.length →
      ∃ fl', floodLoop n M W fuel fl cur = .ok fl' ∧
        floodCorrect n M W T fl' := by
  intro fuel
  induction fuel with
  | zero =>
    intro t fl cur hd hf hfuel
    cases cur with
    | nil => exact ⟨fl, rfl, floodCorrect_of_empty hP hT hd hf⟩
    | cons c0 cs =>
      exfalso
      obtain ⟨hcin, hlr⟩ := (hf c0).mp (List.mem_cons_self c0 cs)
      have hcount := level_count hP hT ⟨c0, hlr⟩
      omega
  | succ fuel ih =>
    intro t fl cur hd hf hfuel
    cases cur with
    | nil => exact ⟨fl, rfl, floodCorrect_of_empty hP hT hd hf⟩
    | cons c0 cs =>
      obtain ⟨fl', new, heq, hd', hf'⟩ := pass_preserve hP hT hd hf
      obtain ⟨flF, heqF, hcor⟩ := ih (t+1) fl' new hd' hf' (by omega)
      refine ⟨flF, ?_, hcor⟩
      unfold floodLoop
      rw [heq]
      simp only [ebind_ok]
      exact heqF

/-- `flood[b] = 0 for b in target` on in-bounds targets. -/
theorem setTargets_spec {n : Nat} :
    ∀ (T : List Cell) (fl : Mat), (∀ c ∈ T, inB n c) →
      ∃ fl', setTargets n fl T = .ok fl' ∧
        ∀ c, inB n c → flAt n fl' c = if c ∈ T then 0 else flAt n fl c := by
  intro T
  induction T with
  | nil =>
    intro fl hT
    refine ⟨fl, rfl, fun c hc => ?_⟩
    rw [if_neg (List.not_mem_nil c)]
  | cons b bs ih =>
    intro fl hT
    have hbin : inB n b := hT b (List.mem_cons_self b bs)
    obtain ⟨fl'', heq2, hval⟩ := ih
      (fun x y => if x = b.1.toNat ∧ y = b.2.toNat then 0 else fl x y)
      (fun c hc => hT c (List.mem_cons_of_mem b hc))
    refine ⟨fl'', ?_, ?_⟩
    · unfold setTargets
      rw [mset_inB n fl b 0 hbin]
      simp only [ebind_ok]
      exact heq2
    · intro c hc
      rw [hval c hc, flAt_update hbin]
      by_cases h1 : c ∈ bs
      · rw [if_pos h1, if_pos (List.mem_cons_of_mem b h1)]
      · rw [if_neg h1]
        by_cases h2 : c = b
        · rw [if_pos h2, if_pos (by rw [h2]; exact List.mem_cons_self b bs)]
        · rw [if_neg h2, if_neg ?_]
          intro hm
          rcases List.mem_cons.mp hm with h | h
          · exact h2 h
          · exact h1 h

/-- `flAt` of the all `-1` initial array. -/
theorem flAt_constNeg {n : Nat} (c : Cell) :
    flAt n (fun _ _ => (-1 : Int)) c = -1 := by
  unfold flAt
  split <;> rfl

/-- The written targets array together with the target frontier satisfy the
level invariant at level 0. -/
theorem distFront_init {n M : Nat} {W : Mat} {T : List Cell}
    (hT : ∀ c ∈ T, inB n c) {fl1 : Mat}
    (hval : ∀ c, inB n c → flAt n fl1 c = if c ∈ T then 0 else -1) :
    distEq n M W T 0 fl1 ∧ frontEq n M W T 0 T := by
  constructor
  · intro c hc
    by_cases hm : c ∈ T
    · exact Or.inl ⟨0, le_rfl, leastReach_zero_iff.mpr hm,
        by rw [hval c hc, if_pos hm]; rfl⟩
    · right
      refine ⟨?_, by rw [hval c hc, if_neg hm]⟩
      intro k hk hr
      have : k = 0 := by omega
      subst this
      cases hr with
      | base c hcm => exact hm hcm
  · intro c
    constructor
    · intro hm
      exact ⟨hT c hm, leastReach_zero_iff.mpr hm⟩
    · rintro ⟨-, hlr⟩
      exact leastReach_zero_iff.mp hlr

/-- Full characterization of robot.py's `flooding` under the closed
perimeter: it never hits the iteration bound; it raises the origin diagnostic
exactly when `(0,0)` is unreachable from the target set, and otherwise
returns the BFS distance field. -/
theorem flooding_char {n : Nat} {W : Mat} {T : List Cell} (hn : 0 < n)
    (hP : closedPerimeter n W) (hT : ∀ c ∈ T, inB n c) (hTne : T ≠ []) :
    (Reaches n maxMoves W T ((0 : Int), (0 : Int)) →
      ∃ fl, Robot.flooding n W T = .ok fl ∧ floodCorrect n maxMoves W T fl) ∧
    (¬ Reaches n maxMoves W T ((0 : Int), (0 : Int)) →
      Robot.flooding n W T =
        .error "Check Code, apparently no path from start to center") := by
  obtain ⟨fl1, h1, hv1⟩ := setTargets_spec T (fun _ _ => (-1 : Int)) hT
  have hv1' : ∀ c, inB n c → flAt n fl1 c = if c ∈ T then 0 else -1 := by
    intro c hc
    rw [hv1 c hc, flAt_constNeg]
  obtain ⟨hd0, hf0⟩ := distFront_init (M := maxMoves) (W := W) hT hv1'
  have hTd : 1 ≤ T.dedup.length := by
    have hne : T.dedup ≠ [] := fun h => hTne ((List.dedup_eq_nil T).mp h)
    exact List.length_pos.mpr hne
  have hnn : 1 ≤ n * n := Nat.mul_pos hn hn
  obtain ⟨flG, heqG, hcor⟩ :=
    floodLoop_spec hP hT (n*n) 0 fl1 T hd0 hf0 (by omega)
  have horig : inB n ((0 : Int), (0 : Int)) := by
    refine ⟨le_rfl, ?_, le_rfl, ?_⟩ <;> · dsimp only; exact_mod_cast hn
  constructor
  · intro hreach
    refine ⟨flG, ?_, hcor⟩
    unfold Robot.flooding
    rw [h1]
    simp only [ebind_ok]
    rw [heqG]
    simp only [ebind_ok]
    rw [mget_flAt n flG _ horig]
    simp only [ebind_ok]
    rcases hcor _ horig with ⟨k, hlr, hval⟩ | ⟨hnr, -⟩
    · rw [hval, if_neg (by omega)]
    · exact absurd hreach hnr
  · intro hunreach
    unfold Robot.flooding
    rw [h1]
    simp only [ebind_ok]
    rw [heqG]
    simp only [ebind_ok]
    rw [mget_flAt n flG _ horig]
    simp only [ebind_ok]
    rcases hcor _ horig with ⟨k, hlr, hval⟩ | ⟨-, hval⟩
    · exact absurd ⟨k, hlr.1⟩ hunreach
    · rw [hval, if_pos (by omega)]

theorem flAt_natCast {n : Nat} (A : Mat) {i j : Nat} (hi : i < n)
    (hj : j < n) : flAt n A ((i : Int), (j : Int)) = A i j := by
  unfold flAt
  rw [if_pos (inB_natCast hi hj)]
  simp

/-- mycreatemaze.py's `flooding` under the closed perimeter and at least two
distinct targets: it never raises and returns the minimum of the BFS distance
field. -/
theorem mcmFlooding_spec {n : Nat} {W : Mat} {T : List Cell} (hn : 0 < n)
    (hP : closedPerimeter n W) (hT : ∀ c ∈ T, inB n c)
    (hTd : 2 ≤ T.dedup.length) :
    ∃ fl, MCM.flooding n W T = .ok (matMin n fl) ∧ floodCorrect n 1 W T fl := by
  obtain ⟨fl1, h1, hv1⟩ := setTargets_spec T (fun _ _ => (-1 : Int)) hT
  have hv1' : ∀ c, inB n c → flAt n fl1 c = if c ∈ T then 0 else -1 := by
    intro c hc
    rw [hv1 c hc, flAt_constNeg]
  obtain ⟨hd0, hf0⟩ := distFront_init (M := 1) (W := W) hT hv1'
  have hnn : 1 ≤ n * n := Nat.mul_pos hn hn
  obtain ⟨flG, heqG, hcor⟩ :=
    floodLoop_spec hP hT (n*n - 1) 0 fl1 T hd0 hf0 (by omega)
  refine ⟨flG, ?_, hcor⟩
  unfold MCM.flooding
  rw [h1]
  simp only [ebind_ok]
  rw [heqG]
  simp only [ebind_ok]

/-- Counterexample to C6 as stated: the fully closed 2×2 grid satisfies the
wall symmetry and closed-perimeter invariants, yet `flooding` from the target
`(1,1)` raises the fatal origin diagnostic — under the wall invariants the
raising branch can still be taken. -/
theorem flooding_raises_under_invariants :
    symmetricW 2 (fun _ _ => (0 : Int)) ∧
    closedPerimeter 2 (fun _ _ => (0 : Int)) ∧
    Robot.flooding 2 (fun _ _ => (0 : Int)) [((1 : Int), (1 : Int))] =
      .error "Check Code, apparently no path from start to center" :=
  ⟨by decide, by decide, by rfl⟩

/-- **C6** (amended).  For every grid with a closed perimeter and every
nonempty in-bounds target set: robot.py's `flooding` never raises the
iteration-bound diagnostic; it raises the fatal origin diagnostic exactly
when the origin `(0,0)` is unreachable from the targets (in particular mere
unreachability of other cells does not raise), and returns a field otherwise;
and mycreatemaze.py's `flooding` (which has no origin check) returns a value
whenever there are at least two distinct target cells.  The wall invariants
alone do not preclude the origin diagnostic (see the counterexample). -/
theorem flooding_failure_characterization {n : Nat} {W : Mat} {T : List Cell}
    (hn : 0 < n) (hP : closedPerimeter n W) (hT : ∀ c ∈ T, inB n c)
    (hTne : T ≠ []) :
    Robot.flooding n W T ≠ .error "Flooding function not working properly" ∧
    (Robot.flooding n W T =
        .error "Check Code, apparently no path from start to center" ↔
      ¬ Reaches n maxMoves W T ((0 : Int), (0 : Int))) ∧
    (Reaches n maxMoves W T ((0 : Int), (0 : Int)) →
      ∃ fl, Robot.flooding n W T = .ok fl) ∧
    (2 ≤ T.dedup.length → ∃ v, MCM.flooding n W T = .ok v) := by
  obtain ⟨hok, herr⟩ := flooding_char hn hP hT hTne
  refine ⟨?_, ⟨?_, herr⟩, ?_, ?_⟩
  · intro hcon
    by_cases hreach : Reaches n maxMoves W T ((0 : Int), (0 : Int))
    · obtain ⟨fl, heq, -⟩ := hok hreach
      rw [heq] at hcon
      exact Except.noConfusion hcon
    · rw [herr hreach] at hcon
      simp at hcon
  · intro heq
    by_cases hreach : Reaches n maxMoves W T ((0 : Int), (0 : Int))
    · obtain ⟨fl, heq2, -⟩ := hok hreach
      rw [heq2] at heq
      exact Except.noConfusion heq
    · exact hreach
  · intro hreach
    obtain ⟨fl, heq, -⟩ := hok hreach
    exact ⟨fl, heq⟩
  · intro hTd
    obtain ⟨fl, heq, -⟩ := mcmFlooding_spec hn hP hT hTd
    exact ⟨matMin n fl, heq⟩

/-- Witness for C6 on the 2×2 cycle grid with targets `(0,0)`, `(1,1)`. -/
theorem flooding_failure_characterization_witness :
    Robot.flooding 2 wCycle2 [((0:Int),(0:Int)), ((1:Int),(1:Int))] ≠
      .error "Flooding function not working properly" ∧
    (Robot.flooding 2 wCycle2 [((0:Int),(0:Int)), ((1:Int),(1:Int))] =
        .error "Check Code, apparently no path from start to center" ↔
      ¬ Reaches 2 maxMoves wCycle2 [((0:Int),(0:Int)), ((1:Int),(1:Int))]
        ((0 : Int), (0 : Int))) ∧
    (Reaches 2 maxMoves wCycle2 [((0:Int),(0:Int)), ((1:Int),(1:Int))]
        ((0 : Int), (0 : Int)) →
      ∃ fl, Robot.flooding 2 wCycle2 [((0:Int),(0:Int)), ((1:Int),(1:Int))] =
        .ok fl) ∧
    (2 ≤ ([((0:Int),(0:Int)), ((1:Int),(1:Int))] : List Cell).dedup.length →
      ∃ v, MCM.flooding 2 wCycle2 [((0:Int),(0:Int)), ((1:Int),(1:Int))] =
        .ok v) :=
  flooding_failure_characterization (by decide) (by decide) (by decide)
    (by decide)

theorem cadd_rev_eq (c : Cell) (d : Dir) (x : Int) :
    cadd c (dirRev d) x = cadd c d (-x) := by
  cases d <;>
    · rw [Prod.ext_iff]
      simp only [cadd, dirMove, dirRev]
      constructor <;> ring

/-- Under symmetry, an open run read backwards from its far end is open. -/
theorem openRun_rev {n : Nat} {W : Mat} (hs : symmetricW n W)
    (hP : closedPerimeter n W) {b : Cell} (hb : inB n b) {d : Dir} {m : Nat}
    (hrun : openRun n W b d m) :
    openRun n W (cadd b d ((m : Int) + 1)) (dirRev d) m := by
  intro i hi
  have hcast : cadd (cadd b d ((m : Int) + 1)) (dirRev d) (i : Int) =
      cadd b d (((m - i : Nat) : Int) + 1) := by
    rw [cadd_rev_eq, cadd_cadd]
    have : ((m : Int) + 1) + -(i : Int) = ((m - i : Nat) : Int) + 1 := by
      push_cast [Nat.cast_sub hi]
      ring
    rw [this]
  rw [hcast]
  have hin : inB n (cadd b d ((m - i : Nat) : Int)) :=
    openRun_inB hP hb m hrun (m - i) (by omega)
  have hin' : inB n (cadd (cadd b d ((m - i : Nat) : Int)) d 1) := by
    rw [cadd_cadd]
    have : ((m - i : Nat) : Int) + 1 = (((m - i) + 1 : Nat) : Int) := by
      push_cast
      ring
    rw [this]
    exact openRun_inB hP hb m hrun ((m - i) + 1) (by omega)
  have hiff := symmetricW_openb hs hin hin'
  rw [cadd_cadd] at hiff
  have hopen : openb n W (cadd b d ((m - i : Nat) : Int)) d :=
    hrun (m - i) (by omega)
  have := hiff.mp hopen
  have hone : ((m - i : Nat) : Int) + 1 = ((m - i : Nat) : Int) + 1 := rfl
  rwa [show ((m - i : Nat) : Int) + 1 = ((m - i : Nat) : Int) + 1 from rfl]
    at this

/-- Under symmetry, the look-ahead step relation is symmetric. -/
theorem edgeM_symm {n M : Nat} {W : Mat} (hs : symmetricW n W)
    (hP : closedPerimeter n W) {b c : Cell} (hb : inB n b)
    (he : edgeM n M W b c) : edgeM n M W c b := by
  obtain ⟨d, m, hm, hrun, rfl⟩ := he
  refine ⟨dirRev d, m, hm, openRun_rev hs hP hb hrun, ?_⟩
  rw [cadd_rev_eq, cadd_cadd,
    show ((m : Int) + 1) + -((m : Int) + 1) = 0 from by ring, cadd_zero]

/-- 2×2 grid whose only set bit is the `l` bit of `(0,0)`, pointing off the
grid; symmetric (the symmetry invariant only constrains in-bounds pairs) but
with an open perimeter wall. -/
def w2wrap : Mat := fun i j => if i = 0 ∧ j = 0 then 8 else 0

/-- Counterexample to C3 as stated (symmetry alone): `w2wrap` is symmetric,
but its open `l` bit on `(0,0)` points off the grid, and numpy's negative
indexing wraps the flood write to `(1,0)`.  The returned field holds `1`
at `(1,0)` although no cell at all is reachable from `(1,0)` through an open
wall, so `(1,0)` has no neighbour at distance `0`. -/
theorem flood_neighbor_gap :
    symmetricW 2 w2wrap ∧
    eOk (Robot.flooding 2 w2wrap [((0:Int),(0:Int))]) = true ∧
    flAt 2 (getOkM (Robot.flooding 2 w2wrap [((0:Int),(0:Int))]))
      ((1:Int),(0:Int)) = 1 ∧
    ∀ b : Cell, ¬ edgeM 2 maxMoves w2wrap ((1:Int),(0:Int)) b := by
  refine ⟨by decide, by rfl, by rfl, ?_⟩
  rintro b ⟨d0, m, -, hrun, -⟩
  have h0 := hrun 0 (Nat.zero_le m)
  simp only [Nat.cast_zero, cadd_zero] at h0
  revert h0
  cases d0 <;> decide

/-- **C3** (amended: the closed-perimeter invariant is required in addition
to symmetry).  A field returned by `flooding` is `0` exactly at the target
cells, and every cell holding `k > 0` has a cell reachable from it through an
open wall (directly or via the bounded look-ahead) holding exactly `k - 1`. -/
theorem flood_monotone_consistency {n : Nat} {W : Mat} {T : List Cell}
    (hn : 0 < n) (hs : symmetricW n W) (hP : closedPerimeter n W)
    (hT : ∀ c ∈ T, inB n c) (hTne : T ≠ []) {fl : Mat}
    (hok : Robot.flooding n W T = .ok fl) :
    (∀ c, inB n c → (flAt n fl c = 0 ↔ c ∈ T)) ∧
    (∀ c, inB n c → ∀ k : Nat, 0 < k → flAt n fl c = (k : Int) →
      ∃ b, inB n b ∧ edgeM n maxMoves W c b ∧
        flAt n fl b = (k : Int) - 1) := by
  have hfc : floodCorrect n maxMoves W T fl := by
    obtain ⟨hokc, herr⟩ := flooding_char hn hP hT hTne
    by_cases hreach : Reaches n maxMoves W T ((0:Int),(0:Int))
    · obtain ⟨fl', heq, hcor⟩ := hokc hreach
      rw [heq] at hok
      obtain rfl := Except.ok.inj hok
      exact hcor
    · rw [herr hreach] at hok
      exact Except.noConfusion hok
  constructor
  · intro c hc
    constructor
    · intro h0
      rcases hfc c hc with ⟨k, hlr, hval⟩ | ⟨-, hval⟩
      · have hk0 : (k : Int) = 0 := by rw [← hval, h0]
        have : k = 0 := by exact_mod_cast hk0
        subst this
        exact leastReach_zero_iff.mp hlr
      · rw [hval] at h0
        exact absurd h0 (by norm_num)
    · intro hm
      rcases hfc c hc with ⟨k, hlr, hval⟩ | ⟨hnr, -⟩
      · have hk := leastReach_unique hlr (leastReach_zero_iff.mpr hm)
        rw [hval, hk]
        rfl
      · exact absurd ⟨0, ReachN.base c hm⟩ hnr
  · intro c hc k hkpos hval
    rcases hfc c hc with ⟨k', hlr, hval'⟩ | ⟨-, hval'⟩
    · have hkk : k' = k := by
        have : (k' : Int) = (k : Int) := by rw [← hval', hval]
        exact_mod_cast this
      subst hkk
      obtain ⟨k0, rfl⟩ : ∃ k0, k' = k0 + 1 := ⟨k' - 1, by omega⟩
      obtain ⟨b, hblr, hedge⟩ := leastReach_pred hlr
      have hbin : inB n b := reachN_inB hP hT hblr.1
      refine ⟨b, hbin, edgeM_symm hs hP hbin hedge, ?_⟩
      rcases hfc b hbin with ⟨kb, hlrb, hvalb⟩ | ⟨hnr, -⟩
      · rw [hvalb, leastReach_unique hlrb hblr]
        push_cast
        ring
      · exact absurd ⟨k0, hblr.1⟩ hnr
    · exfalso
      have : (-1 : Int) = (k : Int) := by rw [← hval', hval]
      omega

/-- Witness for C3 on the 2×2 cycle grid. -/
theorem flood_monotone_consistency_witness :
    (∀ c, inB 2 c → (flAt 2 flCycle2 c = 0 ↔ c ∈ [((0:Int),(0:Int))])) ∧
    (∀ c, inB 2 c → ∀ k : Nat, 0 < k → flAt 2 flCycle2 c = (k : Int) →
      ∃ b, inB 2 b ∧ edgeM 2 maxMoves wCycle2 c b ∧
        flAt 2 flCycle2 b = (k : Int) - 1) :=
  flood_monotone_consistency (by decide) (by decide) (by decide) (by decide)
    (by decide) (by rfl)

/-- Two completed floods of the same grid and targets agree entrywise. -/
theorem floodCorrect_unique {n M : Nat} {W : Mat} {T : List Cell} {f g : Mat}
    (hf : floodCorrect n M W T f) (hg : floodCorrect n M W T g) :
    matEq n f g := by
  intro i hi j hj
  have hc : inB n ((i : Int), (j : Int)) := inB_natCast hi hj
  rw [← flAt_natCast f hi hj, ← flAt_natCast g hi hj]
  rcases hf _ hc with ⟨k, hlr, hv⟩ | ⟨hnr, hv⟩ <;>
    rcases hg _ hc with ⟨k', hlr', hv'⟩ | ⟨hnr', hv'⟩
  · rw [hv, hv', leastReach_unique hlr hlr']
  · exact absurd ⟨k, hlr.1⟩ hnr'
  · exact absurd ⟨k', hlr'.1⟩ hnr
  · rw [hv, hv']

/-- In-bounds read of `adjust_flooding`'s reset matrix
(`flood[np.where(flood>start)] = -1`). -/
theorem adjust_reset_flAt {n : Nat} (flOld : Mat) (st : Int) {c : Cell}
    (hc : inB n c) :
    flAt n (fun i j => if i < n ∧ j < n ∧ st < flOld i j then -1
        else flOld i j) c =
      if st < flAt n flOld c then -1 else flAt n flOld c := by
  obtain ⟨h1, h2, h3, h4⟩ := hc
  have hcIn : inB n c := ⟨h1, h2, h3, h4⟩
  unfold flAt
  rw [if_pos hcIn, if_pos hcIn]
  dsimp only
  by_cases hlt : st < flOld c.1.toNat c.2.toNat
  · rw [if_pos ⟨by omega, by omega, hlt⟩, if_pos hlt]
  · have hcon : ¬ (c.1.toNat < n ∧ c.2.toNat < n ∧
        st < flOld c.1.toNat c.2.toNat) := by
      rintro ⟨-, -, hx⟩
      exact hlt hx
    rw [if_neg hcon, if_neg hlt]

/-- Membership in `adjust_flooding`'s restart frontier (the row-major list of
entries equal to `start` after the reset). -/
theorem adjust_cur_mem {n : Nat} (flOld : Mat) (st : Int) (c : Cell) :
    (c ∈ (List.range n).flatMap fun i =>
        (List.range n).filterMap fun j =>
          if (if i < n ∧ j < n ∧ st < flOld i j then -1 else flOld i j) = st
          then some ((i : Int), (j : Int)) else none) ↔
      (inB n c ∧
        flAt n (fun i j => if i < n ∧ j < n ∧ st < flOld i j then -1
          else flOld i j) c = st) := by
  rw [List.mem_flatMap]
  constructor
  · rintro ⟨i, hi, hmem⟩
    rw [List.mem_range] at hi
    rw [List.mem_filterMap] at hmem
    obtain ⟨j, hj, heq⟩ := hmem
    rw [List.mem_range] at hj
    by_cases hv : (if i < n ∧ j < n ∧ st < flOld i j then -1
        else flOld i j) = st
    · rw [if_pos hv] at heq
      obtain rfl := Option.some.inj heq
      refine ⟨inB_natCast hi hj, ?_⟩
      rw [flAt_natCast _ hi hj]
      exact hv
    · rw [if_neg hv] at heq
      exact absurd heq (by simp)
  · rintro ⟨hc, hval⟩
    obtain ⟨h1, h2, h3, h4⟩ := hc
    refine ⟨c.1.toNat, by rw [List.mem_range]; omega, ?_⟩
    rw [List.mem_filterMap]
    refine ⟨c.2.toNat, by rw [List.mem_range]; omega, ?_⟩
    have hval' : (if c.1.toNat < n ∧ c.2.toNat < n ∧
        st < flOld c.1.toNat c.2.toNat then -1
        else flOld c.1.toNat c.2.toNat) = st := by
      have heq0 := flAt_natCast
        (fun i j => if i < n ∧ j < n ∧ st < flOld i j then -1 else flOld i j)
        (show c.1.toNat < n by omega) (show c.2.toNat < n by omega)
      rw [inB_toNat n c ⟨h1, h2, h3, h4⟩] at heq0
      exact heq0.symm.trans hval
    rw [if_pos hval', inB_toNat n c ⟨h1, h2, h3, h4⟩]

/-- The 2×2 single-cycle grid `(0,0)–(0,1)–(1,1)–(1,0)–(0,0)`, symmetric with
a closed perimeter. -/
def wChain : Mat := fun i j =>
  if i = 0 ∧ j = 0 then 3
  else if i = 0 ∧ j = 1 then 6
  else if i = 1 ∧ j = 1 then 12
  else if i = 1 ∧ j = 0 then 9
  else 0

/-- Counterexample to C1 as stated: on the symmetric closed-perimeter cycle
grid `wChain` with target `(0,0)`, close the wall `(0,0)–(1,0)`.  The affected
window holds pre-change flood values `[1, 0]`, so `start = 0`; the fresh
flooding of the post-change grid succeeds (the cycle needs `n*n = 4` passes,
exactly robot.py's bound), but `adjust_flooding` — whose loop allows one pass
fewer — raises instead of returning an identical field. -/
theorem adjust_vs_fresh_divergence :
    symmetricW 2 wChain ∧ closedPerimeter 2 wChain ∧
    closedPerimeter 2 (closeWall 2 wChain ((0:Int),(0:Int)) .r) ∧
    eOk (Robot.flooding 2 wChain [((0:Int),(0:Int))]) = true ∧
    ((Robot.walledWindow 2 ((0:Int),(0:Int)) .r).map
      (flAt 2 (getOkM (Robot.flooding 2 wChain [((0:Int),(0:Int))])))) =
      [1, 0] ∧
    Robot.adjust_flooding 2 (closeWall 2 wChain ((0:Int),(0:Int)) .r)
      (getOkM (Robot.flooding 2 wChain [((0:Int),(0:Int))])) 0 =
      .error "Flooding function not working properly" ∧
    eOk (Robot.flooding 2 (closeWall 2 wChain ((0:Int),(0:Int)) .r)
      [((0:Int),(0:Int))]) = true :=
  ⟨by decide, by decide, by decide, by rfl, by rfl, by rfl, by rfl⟩

/-- **C1** (amended).  After a wall closure `W' = closeWall W b d`, if the
pre-change flood field restricted to values `≤ start` still describes the
post-change BFS distances up to `start` (the property the affected-window
minimum is intended to guarantee), the field holds `-1` at its unassigned
cells, and `start` plus the number of distinct targets is at least `2`, then
`adjust_flooding` on the pre-change field agrees with a from-scratch
`flooding` of the post-change grid: both return entrywise-identical fields
when the origin is reachable, and both raise the same origin diagnostic when
it is not. -/
theorem adjust_equals_fresh {n : Nat} {W W' : Mat} {b : Cell} {d : Dir}
    {T : List Cell} (flOld : Mat) (t : Nat)
    (hn : 0 < n) (hP' : closedPerimeter n W')
    (hT : ∀ c ∈ T, inB n c) (hTne : T ≠ [])
    (hW' : W' = closeWall n W b d)
    (hold : ∀ c, inB n c → ∀ k : Nat, k ≤ t →
      (flAt n flOld c = (k : Int) ↔ LeastReach n maxMoves W' T c k))
    (hneg : ∀ c, inB n c → flAt n flOld c < 0 → flAt n flOld c = -1)
    (hfuel : 2 ≤ t + T.dedup.length) :
    (Reaches n maxMoves W' T ((0:Int),(0:Int)) →
      ∃ f g, Robot.adjust_flooding n W' flOld (t : Int) = .ok f ∧
        Robot.flooding n W' T = .ok g ∧ matEq n f g) ∧
    (¬ Reaches n maxMoves W' T ((0:Int),(0:Int)) →
      Robot.adjust_flooding n W' flOld (t : Int) =
        .error "Check Code, apparently no path from start to center" ∧
      Robot.flooding n W' T =
        .error "Check Code, apparently no path from start to center") := by
  have hd : distEq n maxMoves W' T t
      (fun i j => if i < n ∧ j < n ∧ (t : Int) < flOld i j then -1
        else flOld i j) := by
    intro c hc
    have hr := adjust_reset_flAt flOld (t : Int) hc
    by_cases hgt : (t : Int) < flAt n flOld c
    · rw [if_pos hgt] at hr
      right
      refine ⟨?_, hr⟩
      intro k hk hrk
      obtain ⟨k', hk', hlr'⟩ := exists_leastReach k hrk
      have := (hold c hc k' (by omega)).mpr hlr'
      omega
    · rw [if_neg hgt] at hr
      by_cases hvneg : flAt n flOld c < 0
      · have hm1 := hneg c hc hvneg
        right
        refine ⟨?_, by rw [hr, hm1]⟩
        intro k hk hrk
        obtain ⟨k', hk', hlr'⟩ := exists_leastReach k hrk
        have := (hold c hc k' (by omega)).mpr hlr'
        omega
      · left
        refine ⟨(flAt n flOld c).toNat, by omega, ?_, by rw [hr]; omega⟩
        exact (hold c hc (flAt n flOld c).toNat (by omega)).mp (by omega)
  have hf : frontEq n maxMoves W' T t
      ((List.range n).flatMap fun i =>
        (List.range n).filterMap fun j =>
          if (if i < n ∧ j < n ∧ (t : Int) < flOld i j then -1
            else flOld i j) = (t : Int)
          then some ((i : Int), (j : Int)) else none) := by
    intro c
    rw [adjust_cur_mem flOld (t : Int) c]
    constructor
    · rintro ⟨hc, hval⟩
      have hr := adjust_reset_flAt flOld (t : Int) hc
      refine ⟨hc, ?_⟩
      by_cases hgt : (t : Int) < flAt n flOld c
      · rw [if_pos hgt] at hr
        rw [hr] at hval
        exfalso
        omega
      · rw [if_neg hgt] at hr
        rw [hr] at hval
        exact (hold c hc t le_rfl).mp hval
    · rintro ⟨hc, hlr⟩
      have hval : flAt n flOld c = (t : Int) := (hold c hc t le_rfl).mpr hlr
      have hr := adjust_reset_flAt flOld (t : Int) hc
      rw [hval] at hr
      rw [if_neg (lt_irrefl _)] at hr
      exact ⟨hc, hr⟩
  have hnn : 1 ≤ n * n := Nat.mul_pos hn hn
  obtain ⟨flF, heqF, hcorF⟩ :=
    floodLoop_spec hP' hT (n*n - 1) t
      (fun i j => if i < n ∧ j < n ∧ (t : Int) < flOld i j then -1
        else flOld i j)
      ((List.range n).flatMap fun i =>
        (List.range n).filterMap fun j =>
          if (if i < n ∧ j < n ∧ (t : Int) < flOld i j then -1
            else flOld i j) = (t : Int)
          then some ((i : Int), (j : Int)) else none)
      hd hf (by omega)
  have horig : inB n ((0 : Int), (0 : Int)) := by
    refine ⟨le_rfl, ?_, le_rfl, ?_⟩ <;> · dsimp only; exact_mod_cast hn
  obtain ⟨hokc, herrc⟩ := flooding_char hn hP' hT hTne
  constructor
  · intro hreach
    obtain ⟨g, heqg, hcorg⟩ := hokc hreach
    have hforig : 0 ≤ flAt n flF ((0:Int),(0:Int)) := by
      rcases hcorF _ horig with ⟨k, hlr, hv⟩ | ⟨hnr, -⟩
      · rw [hv]
        omega
      · exact absurd hreach hnr
    refine ⟨flF, g, ?_, heqg, floodCorrect_unique hcorF hcorg⟩
    unfold Robot.adjust_flooding
    dsimp only
    rw [heqF]
    simp only [ebind_ok]
    rw [mget_flAt n flF _ horig]
    simp only [ebind_ok]
    rw [if_neg (by omega)]
  · intro hunreach
    have hm1 : flAt n flF ((0:Int),(0:Int)) = -1 := by
      rcases hcorF _ horig with ⟨k, hlr, -⟩ | ⟨-, hv⟩
      · exact absurd ⟨k, hlr.1⟩ hunreach
      · exact hv
    constructor
    · unfold Robot.adjust_flooding
      dsimp only
      rw [heqF]
      simp only [ebind_ok]
      rw [mget_flAt n flF _ horig]
      simp only [ebind_ok]
      rw [hm1, if_pos (by omega)]
    · exact herrc hunreach

/-- Pre-change flood field of `wChain` from targets `(0,0)` and `(1,1)`. -/
def flOldW : Mat :=
  getOkM (Robot.flooding 2 wChain [((0:Int),(0:Int)), ((1:Int),(1:Int))])

/-- Witness for C1: the closure `(0,0)–(1,0)` on `wChain` with targets
`(0,0)`, `(1,1)` and `start = 0`. -/
theorem adjust_equals_fresh_witness :
    (Reaches 2 maxMoves (closeWall 2 wChain ((0:Int),(0:Int)) .r)
        [((0:Int),(0:Int)), ((1:Int),(1:Int))] ((0:Int),(0:Int)) →
      ∃ f g, Robot.adjust_flooding 2 (closeWall 2 wChain ((0:Int),(0:Int)) .r)
          flOldW ((0 : Nat) : Int) = .ok f ∧
        Robot.flooding 2 (closeWall 2 wChain ((0:Int),(0:Int)) .r)
          [((0:Int),(0:Int)), ((1:Int),(1:Int))] = .ok g ∧ matEq 2 f g) ∧
    (¬ Reaches 2 maxMoves (closeWall 2 wChain ((0:Int),(0:Int)) .r)
        [((0:Int),(0:Int)), ((1:Int),(1:Int))] ((0:Int),(0:Int)) →
      Robot.adjust_flooding 2 (closeWall 2 wChain ((0:Int),(0:Int)) .r)
          flOldW ((0 : Nat) : Int) =
        .error "Check Code, apparently no path from start to center" ∧
      Robot.flooding 2 (closeWall 2 wChain ((0:Int),(0:Int)) .r)
          [((0:Int),(0:Int)), ((1:Int),(1:Int))] =
        .error "Check Code, apparently no path from start to center") :=
  adjust_equals_fresh flOldW 0 (by decide) (by decide) (by decide) (by decide)
    rfl
    (by
      intro c hc k hk
      have hk0 : k = 0 := Nat.le_zero.mp hk
      subst hk0
      rw [leastReach_zero_iff]
      obtain ⟨h1, h2, h3, h4⟩ := hc
      have hcell := inB_toNat 2 c ⟨h1, h2, h3, h4⟩
      rw [← hcell]
      have hgen : ∀ i ∈ List.range 2, ∀ j ∈ List.range 2,
          (flAt 2 flOldW ((i : Int), (j : Int)) = ((0 : Nat) : Int) ↔
            ((i : Int), (j : Int)) ∈
              ([((0:Int),(0:Int)), ((1:Int),(1:Int))] : List Cell)) := by
        decide
      exact hgen c.1.toNat (List.mem_range.mpr (by omega)) c.2.toNat
        (List.mem_range.mpr (by omega)))
    (by
      intro c hc hvneg
      obtain ⟨h1, h2, h3, h4⟩ := hc
      have hcell := inB_toNat 2 c ⟨h1, h2, h3, h4⟩
      rw [← hcell] at hvneg ⊢
      have hgen : ∀ i ∈ List.range 2, ∀ j ∈ List.range 2,
          (flAt 2 flOldW ((i : Int), (j : Int)) < 0 →
            flAt 2 flOldW ((i : Int), (j : Int)) = -1) := by decide
      exact hgen c.1.toNat (List.mem_range.mpr (by omega)) c.2.toNat
        (List.mem_range.mpr (by omega)) hvneg)
    (by decide)

/-! ## The forced-open centre of `create_maze` (claim C9) -/

/-- Oring a mask in sets every bit of the mask, for any starting value. -/
theorem int_lor_land_subset (v : Int) (mm m : Nat) (hsub : m &&& mm = m) :
    Int.land (Int.lor v (mm : Int)) (m : Int) = (m : Int) := by
  have hbit : ∀ i, m.testBit i = true → mm.testBit i = true := by
    intro i hi
    have hcong := congrArg (fun x => Nat.testBit x i) hsub
    simp only [Nat.testBit_and, hi] at hcong
    simpa using hcong
  cases v with
  | ofNat a =>
    show Int.ofNat ((a ||| mm) &&& m) = Int.ofNat m
    refine congrArg Int.ofNat (Nat.eq_of_testBit_eq fun i => ?_)
    simp only [Nat.testBit_and, Nat.testBit_or]
    cases hm : m.testBit i
    · simp
    · simp [hbit i hm]
  | negSucc a =>
    show Int.ofNat (Nat.ldiff m (Nat.ldiff a mm)) = Int.ofNat m
    refine congrArg Int.ofNat (Nat.eq_of_testBit_eq fun i => ?_)
    simp only [Nat.testBit_ldiff]
    cases hm : m.testBit i
    · simp
    · simp [hbit i hm]

/-- Oring further bits in never clears an already fully set mask. -/
theorem int_lor_land_mono (v : Int) (mm m : Nat)
    (hv : Int.land v (m : Int) = (m : Int)) :
    Int.land (Int.lor v (mm : Int)) (m : Int) = (m : Int) := by
  cases v with
  | ofNat a =>
    have ha : a &&& m = m := by
      have h0 : Int.ofNat (a &&& m) = Int.ofNat m := hv
      exact Int.ofNat.inj h0
    have hbita : ∀ i, m.testBit i = true → a.testBit i = true := by
      intro i hm
      have hcong := congrArg (fun x => Nat.testBit x i) ha
      simp only [Nat.testBit_and, hm] at hcong
      simpa using hcong
    show Int.ofNat ((a ||| mm) &&& m) = Int.ofNat m
    refine congrArg Int.ofNat (Nat.eq_of_testBit_eq fun i => ?_)
    simp only [Nat.testBit_and, Nat.testBit_or]
    cases hm : m.testBit i
    · simp
    · simp [hbita i hm]
  | negSucc a =>
    have ha : Nat.ldiff m a = m := by
      have h0 : Int.ofNat (Nat.ldiff m a) = Int.ofNat m := hv
      exact Int.ofNat.inj h0
    have hbita : ∀ i, m.testBit i = true → a.testBit i = false := by
      intro i hm
      have hcong := congrArg (fun x => Nat.testBit x i) ha
      simp only [Nat.testBit_ldiff, hm] at hcong
      simpa using hcong
    show Int.ofNat (Nat.ldiff m (Nat.ldiff a mm)) = Int.ofNat m
    refine congrArg Int.ofNat (Nat.eq_of_testBit_eq fun i => ?_)
    simp only [Nat.testBit_ldiff]
    cases hm : m.testBit i
    · simp
    · simp [hbita i hm]

/-- The first of two or-ed masks is open in the result. -/
theorem openb_of_lor2_first {n : Nat} {A : Mat} {x y : Nat} (hx : x < n)
    (hy : y < n) (v : Int) (m1 m2 : Nat) (hm : 0 < m1)
    (hval : A x y = Int.lor (Int.lor v (m1 : Int)) (m2 : Int)) (d : Dir)
    (hd : wallMask d = (m1 : Int)) :
    openb n A ((x : Int), (y : Int)) d := by
  unfold openb wAt
  rw [if_pos (inB_natCast hx hy)]
  dsimp only
  simp only [Int.toNat_natCast]
  rw [hval, hd]
  rw [int_lor_land_mono _ m2 m1
    (int_lor_land_subset v m1 m1 (by rw [Nat.and_self]))]
  exact_mod_cast hm

/-- The second of two or-ed masks is open in the result. -/
theorem openb_of_lor2_second {n : Nat} {A : Mat} {x y : Nat} (hx : x < n)
    (hy : y < n) (v : Int) (m1 m2 : Nat) (hm : 0 < m2)
    (hval : A x y = Int.lor (Int.lor v (m1 : Int)) (m2 : Int)) (d : Dir)
    (hd : wallMask d = (m2 : Int)) :
    openb n A ((x : Int), (y : Int)) d := by
  unfold openb wAt
  rw [if_pos (inB_natCast hx hy)]
  dsimp only
  simp only [Int.toNat_natCast]
  rw [hval, hd]
  rw [int_lor_land_subset _ m2 m2 (by rw [Nat.and_self])]
  exact_mod_cast hm

/-- **C9** (amended: conditional on `create_maze` returning a grid — for
`n = 4` it raises instead, see the C2 counterexample).  Any grid returned
by `create_maze` has zero internal walls among the four centre cells: the
eight open bits towards the other centre cells are set, symmetrically on
both sides of each internal segment, regardless of what the random wall
insertion produced there. -/
theorem center_cells_open {n attempt : Nat} {rng : Nat → Nat} {g : Mat}
    (hn : 4 ≤ n) (hok : MCM.create_maze n attempt rng = .ok g) :
    openb n g (((n/2 - 1 : Nat) : Int), ((n/2 - 1 : Nat) : Int)) .u ∧
    openb n g (((n/2 - 1 : Nat) : Int), ((n/2 - 1 : Nat) : Int)) .r ∧
    openb n g (((n/2 - 1 : Nat) : Int), ((n/2 : Nat) : Int)) .d ∧
    openb n g (((n/2 - 1 : Nat) : Int), ((n/2 : Nat) : Int)) .r ∧
    openb n g (((n/2 : Nat) : Int), ((n/2 - 1 : Nat) : Int)) .u ∧
    openb n g (((n/2 : Nat) : Int), ((n/2 - 1 : Nat) : Int)) .l ∧
    openb n g (((n/2 : Nat) : Int), ((n/2 : Nat) : Int)) .d ∧
    openb n g (((n/2 : Nat) : Int), ((n/2 : Nat) : Int)) .l := by
  unfold MCM.create_maze at hok
  dsimp only at hok
  cases hcl : MCM.createLoop n attempt (MCM.centerTarget n) rng
      (MCM.openCount n (MCM.init_walls n rng 0).1 + 1)
      (MCM.init_walls n rng 0).1 (MCM.init_walls n rng 0).2 with
  | error e =>
    rw [hcl, ebind_err] at hok
    exact absurd hok (by simp)
  | ok res =>
    rw [hcl] at hok
    simp only [ebind_ok] at hok
    obtain rfl := Except.ok.inj hok
    have hne1 : ¬ (n / 2 - 1 = n / 2) := by omega
    have hne2 : ¬ (n / 2 = n / 2 - 1) := by omega
    have hx1 : n / 2 - 1 < n := by omega
    have hx2 : n / 2 < n := by omega
    have hval1 : MCM.forceCenterOpen n res.1 (n/2 - 1) (n/2 - 1) =
        Int.lor (Int.lor (res.1 (n/2 - 1) (n/2 - 1)) ((1 : Nat) : Int))
          ((2 : Nat) : Int) := by
      unfold MCM.forceCenterOpen orCell setCell
      simp [hne1, hne2, wallMask]
    have hval2 : MCM.forceCenterOpen n res.1 (n/2 - 1) (n/2) =
        Int.lor (Int.lor (res.1 (n/2 - 1) (n/2)) ((4 : Nat) : Int))
          ((2 : Nat) : Int) := by
      unfold MCM.forceCenterOpen orCell setCell
      simp [hne1, hne2, wallMask]
    have hval3 : MCM.forceCenterOpen n res.1 (n/2) (n/2 - 1) =
        Int.lor (Int.lor (res.1 (n/2) (n/2 - 1)) ((1 : Nat) : Int))
          ((8 : Nat) : Int) := by
      unfold MCM.forceCenterOpen orCell setCell
      simp [hne1, hne2, wallMask]
    have hval4 : MCM.forceCenterOpen n res.1 (n/2) (n/2) =
        Int.lor (Int.lor (res.1 (n/2) (n/2)) ((4 : Nat) : Int))
          ((8 : Nat) : Int) := by
      unfold MCM.forceCenterOpen orCell setCell
      simp [hne1, hne2, wallMask]
    exact ⟨openb_of_lor2_first hx1 hx1 _ 1 2 (by omega) hval1 .u (by decide),
      openb_of_lor2_second hx1 hx1 _ 1 2 (by omega) hval1 .r (by decide),
      openb_of_lor2_first hx1 hx2 _ 4 2 (by omega) hval2 .d (by decide),
      openb_of_lor2_second hx1 hx2 _ 4 2 (by omega) hval2 .r (by decide),
      openb_of_lor2_first hx2 hx1 _ 1 8 (by omega) hval3 .u (by decide),
      openb_of_lor2_second hx2 hx1 _ 1 8 (by omega) hval3 .l (by decide),
      openb_of_lor2_first hx2 hx2 _ 4 8 (by omega) hval4 .d (by decide),
      openb_of_lor2_second hx2 hx2 _ 4 8 (by omega) hval4 .l (by decide)⟩

/-- The grid generated at `n = 6`, three attempts per round, zero stream. -/
def mz6 : Mat := getOkM (MCM.create_maze 6 3 rng0)

set_option maxRecDepth 4096 in
/-- Witness for C9 at `n = 6` with the zero random stream. -/
theorem center_cells_open_witness :
    openb 6 mz6 (((6/2 - 1 : Nat) : Int), ((6/2 - 1 : Nat) : Int)) .u ∧
    openb 6 mz6 (((6/2 - 1 : Nat) : Int), ((6/2 - 1 : Nat) : Int)) .r ∧
    openb 6 mz6 (((6/2 - 1 : Nat) : Int), ((6/2 : Nat) : Int)) .d ∧
    openb 6 mz6 (((6/2 - 1 : Nat) : Int), ((6/2 : Nat) : Int)) .r ∧
    openb 6 mz6 (((6/2 : Nat) : Int), ((6/2 - 1 : Nat) : Int)) .u ∧
    openb 6 mz6 (((6/2 : Nat) : Int), ((6/2 - 1 : Nat) : Int)) .l ∧
    openb 6 mz6 (((6/2 : Nat) : Int), ((6/2 : Nat) : Int)) .d ∧
    openb 6 mz6 (((6/2 : Nat) : Int), ((6/2 : Nat) : Int)) .l :=
  @center_cells_open 6 3 rng0 mz6 (by decide) (by rfl)

/-- Counterexample to C9 as stated: at `n = 4` (an even `n ≥ 4`),
`create_maze` raises `IndexError` instead of returning a grid — the centre
ring of `init_walls` overlaps the perimeter rows, leaving an open bit that
points off the grid, and the first reachability flooding then indexes past
the array bound.  So there is no returned grid whose centre could be checked. -/
theorem create_maze_raises_at_4 :
    MCM.create_maze 4 1 rng0 = .error "IndexError" := by rfl

/-! ## Totality and invariants of the `create_maze` loop (claim C2) -/

namespace MCM

end MCM

instance {e a : Type} [DecidableEq e] [DecidableEq a] :
    DecidableEq (Except e a) := fun x y =>
  match x, y with
  | .ok x0, .ok y0 =>
    if h : x0 = y0 then .isTrue (by rw [h])
    else .isFalse (fun hc => h (Except.ok.inj hc))
  | .error x0, .error y0 =>
    if h : x0 = y0 then .isTrue (by rw [h])
    else .isFalse (fun hc => h (Except.error.inj hc))
  | .ok _, .error _ => .isFalse (fun hc => Except.noConfusion hc)
  | .error _, .ok _ => .isFalse (fun hc => Except.noConfusion hc)

end RobotMaze
